import Mathlib

/-!
# sgf2gif: a shallow embedding of `main.go`

The program reads a game record, extracts the placement moves, draws one
indexed-colour frame per move and assembles the frames into an animation.

Conventions of the embedding.

* A Go `string` is its byte sequence (`GoString`); `len` is the number of
  bytes and `s[k]` is the `k`-th byte.  `uint8` arithmetic is written with an
  explicit `% 256`.
* Go `int` values are `Int`, with `int` taken to be 64 bits wide.  In
  `drawMove` and `dist`, whose operands depend on the coordinates of the move,
  every operation is wrapped by `wrapInt`; elsewhere the values are bounded by
  constants and no operation can overflow.  `float64(h)` rounds to 53
  significant bits, `math.Sqrt` is correctly rounded, and `int` of a NaN is
  the least `int`, as on amd64.  No `int` operation of `drawMove` and `dist`
  overflows for the moves satisfying `move.NoOverflow`, which include every
  move `lettersToCoords` can produce; the statements that relate the test of
  `drawMove` to the truncated Euclidean distance assume it, or the narrower
  `move.Small`.
* A function returning `(T, error)` returns `Except Err T`.  A run-time
  fault (slice index out of range, dangling frame pointer) is `Err.fault`.
* `*image.Paletted` values live in a `Heap`; a pointer is an index.  A
  function mutating the image behind a pointer it received takes the image
  and returns the updated image.
* `fmt.Printf` / `log.Printf` output is not modelled.
-/

namespace Sgf2Gif

/-! ## Strings and errors -/

/-- One byte of a Go string. -/
abbrev Byte := Fin 256

/-- A Go string: a sequence of bytes. -/
abbrev GoString := List Byte

/-- Errors returned by the program, plus `fault` for a run-time fault. -/
inductive Err where
  | malformedMove (values : List GoString)
  | malformedMoveValue (letters : GoString)
  | noGames
  | fault
  deriving DecidableEq, Repr

/-! ## The game record (types of the `sgf` library used by the program) -/

/-- `sgf.Property`: an identifier with its list of values. -/
structure Property where
  Ident : GoString
  Values : List GoString
  deriving DecidableEq, Repr

/-- `sgf.Node`: an ordered list of properties. -/
structure Node where
  Properties : List Property
  deriving DecidableEq, Repr

/-- `sgf.GameTree`: an ordered list of nodes. -/
structure GameTree where
  Nodes : List Node
  deriving DecidableEq, Repr

/-- `sgf.Collection`: the parsed file, a list of game trees. -/
structure Collection where
  GameTrees : List GameTree
  deriving DecidableEq, Repr

/-- The string `"B"`. -/
def strB : GoString := [66]

/-- The string `"W"`. -/
def strW : GoString := [87]

/-! ## Moves -/

/-- `type move struct { white bool; x int; y int }`. -/
structure move where
  white : Bool
  x : Int
  y : Int
  deriving DecidableEq, Repr

/-- `notAMove`: `p.Ident != "B" && p.Ident != "W"`. -/
def notAMove (p : Property) : Bool :=
  p.Ident != strB && p.Ident != strW

/-- `lettersToCoords`: the two bytes of the token, each minus `'a'` (97) in
`uint8` arithmetic, converted to `int`. -/
def lettersToCoords (letters : GoString) : Except Err (Int × Int) :=
  if h : letters.length ≠ 2 then
    .error (.malformedMoveValue letters)
  else
    let x : Int := (((letters.get ⟨0, by omega⟩).val + 256 - 97) % 256 : Nat)
    let y : Int := (((letters.get ⟨1, by omega⟩).val + 256 - 97) % 256 : Nat)
    .ok (x, y)

/-- Inner loop of `movesFromGame`: the properties of one node, appending to
`ret`, returning at the first malformed move. -/
def movesFromProperties : List Property → List move → Except Err (List move)
  | [], ret => .ok ret
  | p :: ps, ret =>
    if notAMove p then
      movesFromProperties ps ret
    else if h : p.Values.length ≠ 1 then
      .error (.malformedMove p.Values)
    else
      match lettersToCoords (p.Values.get ⟨0, by omega⟩) with
      | .error e => .error e
      | .ok (x, y) =>
        movesFromProperties ps (ret ++ [{ white := p.Ident == strW, x := x, y := y }])

/-- Outer loop of `movesFromGame`: the nodes in order. -/
def movesFromNodes : List Node → List move → Except Err (List move)
  | [], ret => .ok ret
  | n :: ns, ret =>
    match movesFromProperties n.Properties ret with
    | .error e => .error e
    | .ok ret1 => movesFromNodes ns ret1

/-- `movesFromGame`. -/
def movesFromGame (g : GameTree) : Except Err (List move) :=
  movesFromNodes g.Nodes []

/-! ## Constants -/

/-- Palette index of the board colour. -/
def background : Nat := 0

/-- Palette index of black. -/
def black : Nat := 1

/-- Palette index of white. -/
def white : Nat := 2

/-- Delay between frames, in units of 10 ms. -/
def delay : Int := 100

/-- Diameter of a stone in pixels. -/
def stoneDiameter : Int := 40

/-- Number of lines of the board. -/
def boardSize : Int := 19

/-- `side`: side of the board in pixels. -/
def side : Int := boardSize * stoneDiameter + 2

/-! ## The part of Go's `image` package used by the program -/

/-- `image.Point`. -/
structure Point where
  X : Int
  Y : Int
  deriving DecidableEq, Repr

/-- `image.Rectangle`. -/
structure Rectangle where
  Min : Point
  Max : Point
  deriving DecidableEq, Repr

/-- `image.Rect`: the rectangle with the given corners, put in canonical
order. -/
def Rect (x0 y0 x1 y1 : Int) : Rectangle :=
  let xa := if x0 > x1 then x1 else x0
  let xb := if x0 > x1 then x0 else x1
  let ya := if y0 > y1 then y1 else y0
  let yb := if y0 > y1 then y0 else y1
  { Min := { X := xa, Y := ya }, Max := { X := xb, Y := yb } }

/-- `Rectangle.Dx`. -/
def Rectangle.Dx (r : Rectangle) : Int := r.Max.X - r.Min.X

/-- `Rectangle.Dy`. -/
def Rectangle.Dy (r : Rectangle) : Int := r.Max.Y - r.Min.Y

/-- `Point.In`. -/
def Point.In (p : Point) (r : Rectangle) : Bool :=
  decide (r.Min.X ≤ p.X) && decide (p.X < r.Max.X) &&
    decide (r.Min.Y ≤ p.Y) && decide (p.Y < r.Max.Y)

/-- The colours of `image/color` used in the palette. -/
inductive Color where
  | RGBA (r g b a : Nat)
  | Gray16 (y : Nat)
  deriving DecidableEq, Repr

/-- `image.Paletted`: a buffer of palette indices, row-major. -/
structure Paletted where
  Pix : List Nat
  Stride : Int
  Rect : Rectangle
  Palette : List Color
  deriving DecidableEq, Repr

/-- `image.NewPaletted`: a zeroed image of the given rectangle. -/
def NewPaletted (r : Rectangle) (p : List Color) : Paletted :=
  { Pix := List.replicate (r.Dx * r.Dy).toNat 0
    Stride := r.Dx
    Rect := r
    Palette := p }

/-- `Paletted.PixOffset`. -/
def Paletted.PixOffset (p : Paletted) (x y : Int) : Int :=
  (y - p.Rect.Min.Y) * p.Stride + (x - p.Rect.Min.X) * 1

/-- `Paletted.ColorIndexAt`: 0 outside the rectangle, else `p.Pix[i]`. -/
def Paletted.ColorIndexAt (p : Paletted) (x y : Int) : Except Err Nat :=
  if !(Point.In { X := x, Y := y } p.Rect) then
    .ok 0
  else
    let i := p.PixOffset x y
    if 0 ≤ i then
      match p.Pix[i.toNat]? with
      | some c => .ok c
      | none => .error .fault
    else
      .error .fault

/-- `Paletted.SetColorIndex`: no effect outside the rectangle, else
`p.Pix[i] = index`. -/
def Paletted.SetColorIndex (p : Paletted) (x y : Int) (index : Nat) : Except Err Paletted :=
  if !(Point.In { X := x, Y := y } p.Rect) then
    .ok p
  else
    let i := p.PixOffset x y
    if 0 ≤ i ∧ i.toNat < p.Pix.length then
      .ok { p with Pix := p.Pix.set i.toNat index }
    else
      .error .fault

/-- The palette: wood, black, white. -/
def palette : List Color :=
  [Color.RGBA 0xE6 0xBF 0x83 0xFF, Color.Gray16 0, Color.Gray16 0xffff]

/-! ## Loops -/

/-- Run `body i` for `n` consecutive values of `i` starting at `i`, stopping at
the first error. -/
def forLoopN {σ : Type} : Nat → Int → (Int → σ → Except Err σ) → σ → Except Err σ
  | 0, _, _, s => .ok s
  | n + 1, i, body, s =>
    match body i s with
    | .error e => .error e
    | .ok s1 => forLoopN n (i + 1) body s1

/-- The Go loop `for i := lo; i < hi; i++ { body }` over a state `σ`. -/
def forLoop {σ : Type} (lo hi : Int) (body : Int → σ → Except Err σ) (s : σ) : Except Err σ :=
  forLoopN (hi - lo).toNat lo body s

/-! ## Distance -/

/-- Binary search for the integer square root: with `r * r ≤ n` and
`n < (r + 2 ^ b) ^ 2`, the result is `⌊√n⌋`. -/
def isqrtAux : Nat → Nat → Nat → Nat
  | 0, _, r => r
  | b + 1, n, r =>
    if (r + 2 ^ b) * (r + 2 ^ b) ≤ n then isqrtAux b n (r + 2 ^ b) else isqrtAux b n r

/-- Integer square root `⌊√n⌋` of `n < 2 ^ 128`. -/
def isqrt (n : Nat) : Nat := isqrtAux 64 n 0

/-- The least `s` from `s` on (within `fuel` steps) with `2 ^ 104 ≤ h * 4 ^ s`. -/
def normShift : Nat → Nat → Nat → Nat
  | 0, _, s => s
  | fuel + 1, h, s => if 2 ^ 104 ≤ h * 4 ^ s then s else normShift fuel h (s + 1)

/-- The least `e` from `e` on (within `fuel` steps) with `h / 2 ^ e < 2 ^ 53`. -/
def roundShift : Nat → Nat → Nat → Nat
  | 0, _, e => e
  | fuel + 1, h, e => if h / 2 ^ e < 2 ^ 53 then e else roundShift fuel h (e + 1)

/-- The value of `float64(h)` for an integer `0 ≤ h < 2^64`, itself an
integer.  The conversion rounds to a 53-bit significand, to nearest and ties
to even: with the least `e` such that `h / 2^e < 2^53`, the result is
`h / 2^e` rounded to an integer, times `2^e`.  For `h < 2^53` the conversion
is exact. -/
def roundFloat64 (h : Nat) : Nat :=
  let e := roundShift 11 h 0
  let q := h / 2 ^ e
  let r := h % 2 ^ e
  let q1 := if 2 ^ e < 2 * r ∨ (2 * r = 2 ^ e ∧ q % 2 = 1) then q + 1 else q
  q1 * 2 ^ e

/-- The value of `int(math.Sqrt(f))` for a `float64` `f` whose value is the
integer `h`, `0 ≤ h < 2^64`.  The IEEE-754 binary64 square root is
correctly rounded to a 53-bit significand: with `s` such that
`2^52 ≤ √h * 2^s < 2^53`, the result of `Sqrt` is `r / 2^s` where `r` is
`√h * 2^s` rounded to the nearest integer (a tie cannot occur: the square of
a half-integer is not an integer).  The conversion to `int` truncates. -/
def float64SqrtToInt (h : Nat) : Nat :=
  if h = 0 then 0
  else
    let s := normShift 52 h 0
    let q := isqrt (h * 4 ^ s)
    let r := if q * q + q < h * 4 ^ s then q + 1 else q
    r / 2 ^ s

/-- Two's complement wrap-around of a 64-bit `int`: the value in
`[-2^63, 2^63)` congruent to `z` modulo `2^64`. -/
def wrapInt (z : Int) : Int :=
  (z + 2 ^ 63) % 2 ^ 64 - 2 ^ 63

/-- The value of `int(f)` for a `float64` NaN.  Go leaves the result of this
conversion to the implementation; on amd64 it is the least `int`. -/
def intOfNaN : Int := -2 ^ 63

/-- `dist`: truncated Euclidean distance between two points.  `h` is the
wrapped sum of the wrapped squares.  For `h < 0`, which arises only after a
wrap-around, `math.Sqrt` returns NaN.  For `0 ≤ h`, `float64(h)` is `h`
rounded to 53 significant bits (exact for `h < 2^53`). -/
def dist (x1 y1 x2 y2 : Int) : Int :=
  let x := wrapInt (x2 - x1)
  let x := if x < 0 then wrapInt (-x) else x
  let y := wrapInt (y2 - y1)
  let y := if y < 0 then wrapInt (-y) else y
  let h := wrapInt (wrapInt (x * x) + wrapInt (y * y))
  if h < 0 then intOfNaN
  else (float64SqrtToInt (roundFloat64 h.toNat) : Int)

/-! ## Frames -/

/-- Pointer to an `image.Paletted`. -/
abbrev Ptr := Nat

/-- The allocated images, in allocation order. -/
abbrev Heap := List Paletted

/-- `old.ColorIndexAt(x, y)` through a pointer. -/
def Heap.ColorIndexAt (h : Heap) (old : Ptr) (x y : Int) : Except Err Nat :=
  match h[old]? with
  | none => .error .fault
  | some p => p.ColorIndexAt x y

/-- `drawMove`: paint the stone of `m` on `img` (the updated image is
returned). -/
def drawMove (img : Paletted) (m : move) : Except Err Paletted :=
  let side := side
  let x := wrapInt (stoneDiameter / 2 + wrapInt (m.x * stoneDiameter))
  let y := wrapInt (stoneDiameter / 2 + wrapInt (m.y * stoneDiameter))
  forLoop 0 side (fun i img =>
    forLoop 0 side (fun j img =>
      if dist i j x y ≤ stoneDiameter / 2 then
        let color := if m.white then white else black
        img.SetColorIndex i j color
      else
        .ok img) img) img

/-- `newFrame`, branch `old == nil`, first loop: fill the background. -/
def fillBackground (img : Paletted) : Except Err Paletted :=
  forLoop 0 side (fun i img =>
    forLoop 0 side (fun j img => img.SetColorIndex i j background) img) img

/-- `newFrame`, branch `old == nil`, second loop: vertical lines. -/
def verticalLines (img : Paletted) : Except Err Paletted :=
  forLoop 0 boardSize (fun i img =>
    forLoop (stoneDiameter / 2) (side - stoneDiameter / 2) (fun j img =>
      let x := i * stoneDiameter + stoneDiameter / 2
      img.SetColorIndex x j black) img) img

/-- `newFrame`, branch `old == nil`, third loop: horizontal lines. -/
def horizontalLines (img : Paletted) : Except Err Paletted :=
  forLoop 0 boardSize (fun i img =>
    forLoop (stoneDiameter / 2) (side - stoneDiameter / 2) (fun j img =>
      let y := i * stoneDiameter + stoneDiameter / 2
      img.SetColorIndex j y black) img) img

/-- `newFrame`, branch `old == nil`: the empty board drawn on `img`. -/
def drawBoard (img : Paletted) : Except Err Paletted :=
  match fillBackground img with
  | .error e => .error e
  | .ok img1 =>
    match verticalLines img1 with
    | .error e => .error e
    | .ok img2 => horizontalLines img2

/-- `newFrame`, branch `old != nil`: copy every pixel of `old` to `img`. -/
def copyFrame (h : Heap) (old : Ptr) (img : Paletted) : Except Err Paletted :=
  forLoop 0 side (fun i img =>
    forLoop 0 side (fun j img =>
      match h.ColorIndexAt old i j with
      | .error e => .error e
      | .ok c => img.SetColorIndex i j c) img) img

/-- The image `newFrame` holds just before `drawMove` is called. -/
def frameBeforeMove (old : Option Ptr) (h : Heap) : Except Err Paletted :=
  let side := side
  let rect := Rect 0 0 side side
  let img := NewPaletted rect palette
  match old with
  | none => drawBoard img
  | some o => copyFrame h o img

/-- `newFrame`: a fresh image, the empty board or a copy of `old`, with the
stone of `m` drawn on it.  The fresh image is reachable only through the local
`img` until it is returned, so it enters the heap at the end. -/
def newFrame (m : move) (old : Option Ptr) (h : Heap) : Except Err (Ptr × Heap) :=
  match frameBeforeMove old h with
  | .error e => .error e
  | .ok img =>
    match drawMove img m with
    | .error e => .error e
    | .ok img1 => .ok (h.length, h ++ [img1])

/-- Loop of `movesToFrames`: `frame` is the previous frame (or nil), `ret` the
frames so far. -/
def movesToFramesLoop : List move → Option Ptr → List Ptr → Heap → Except Err (List Ptr × Heap)
  | [], _, ret, h => .ok (ret, h)
  | m :: ms, frame, ret, h =>
    match newFrame m frame h with
    | .error e => .error e
    | .ok (f, h1) => movesToFramesLoop ms (some f) (ret ++ [f]) h1

/-- `movesToFrames`. -/
def movesToFrames (ms : List move) (h : Heap) : Except Err (List Ptr × Heap) :=
  movesToFramesLoop ms none [] h

/-! ## Animation -/

/-- `gif.GIF`, the fields the program sets. -/
structure GIF where
  Image : List Ptr
  Delay : List Int
  LoopCount : Int
  deriving DecidableEq, Repr

/-- Loop of `framesToGif`. -/
def framesToGifLoop : List Ptr → GIF → GIF
  | [], g => g
  | f :: fs, g => framesToGifLoop fs { g with Image := g.Image ++ [f], Delay := g.Delay ++ [delay] }

/-- `framesToGif`. -/
def framesToGif (frames : List Ptr) : Except Err GIF :=
  let g : GIF := { Image := [], Delay := [], LoopCount := frames.length }
  .ok (framesToGifLoop frames g)

/-- `firstGame`: an error when there is no game, else `c.GameTrees[0]` (with
more than one game a message is logged). -/
def firstGame (c : Collection) : Except Err GameTree :=
  if h : c.GameTrees.length = 0 then
    .error .noGames
  else
    .ok (c.GameTrees.get ⟨0, by omega⟩)

/-- `sgfToGif`, from the point where `sgf.ParseSgfFile` has returned the
collection `c` (an error of the parser is returned as it is).  The animation
comes with the heap that holds its frames. -/
def sgfToGif (c : Collection) (h : Heap) : Except Err (GIF × Heap) :=
  match firstGame c with
  | .error e => .error e
  | .ok game =>
    match movesFromGame game with
    | .error e => .error e
    | .ok moves =>
      match movesToFrames moves h with
      | .error e => .error e
      | .ok (frames, h1) =>
        match framesToGif frames with
        | .error e => .error e
        | .ok g => .ok (g, h1)

/-! ## Vocabulary of the specification -/

/-- The properties of a game: node by node, in property order within a node. -/
def allProperties (g : GameTree) : List Property :=
  (g.Nodes.map (fun n => n.Properties)).flatten

/-- A property is a move when its name is exactly `"B"` or `"W"`. -/
def isMoveProperty (p : Property) : Bool :=
  p.Ident == strB || p.Ident == strW

/-- The move properties of a game, in order. -/
def moveProperties (g : GameTree) : List Property :=
  (allProperties g).filter isMoveProperty

/-- The move a property describes: white when the name is `"W"`, coordinates
decoded from its single value; none when the property does not carry exactly
one value or the value does not decode. -/
def moveOfProperty (p : Property) : Option move :=
  match p.Values with
  | [v] =>
    match lettersToCoords v with
    | .ok (x, y) => some { white := p.Ident == strW, x := x, y := y }
    | .error _ => none
  | _ => none

/-- A property that does not carry exactly one value, or whose single value
does not have length 2. -/
def malformedProperty (p : Property) : Prop :=
  p.Values.length ≠ 1 ∨ ∃ v, p.Values = [v] ∧ v.length ≠ 2

/-- A frame of the program: an image of `side` by `side` pixels with the fixed
palette, laid out as `NewPaletted` lays it out. -/
def IsFrame (p : Paletted) : Prop :=
  p.Rect = Rect 0 0 side side ∧ p.Stride = side ∧
    p.Pix.length = (side * side).toNat ∧ p.Palette = palette

/-- The pixel position lies in a frame. -/
def InFrame (i j : Int) : Prop :=
  0 ≤ i ∧ i < side ∧ 0 ≤ j ∧ j < side

/-- Moves whose coordinates keep the arithmetic of `drawMove` and `dist`
exact: no `int` operation overflows (with 32-bit or 64-bit `int`) and the
conversion to `float64` is exact.  Every move produced by `lettersToCoords`
has coordinates between 0 and 255. -/
def move.Small (m : move) : Prop :=
  -512 ≤ m.x ∧ m.x ≤ 512 ∧ -512 ≤ m.y ∧ m.y ≤ 512

/-- An image of rectangle `r`, laid out as `NewPaletted` lays it out. -/
def LaidOut (r : Rectangle) (p : Paletted) : Prop :=
  p.Rect = r ∧ p.Stride = r.Dx ∧ p.Pix.length = (r.Dx * r.Dy).toNat

/-- The position `(x, y)` lies in the rectangle `r`. -/
def InRect (r : Rectangle) (x y : Int) : Prop :=
  r.Min.X ≤ x ∧ x < r.Max.X ∧ r.Min.Y ≤ y ∧ y < r.Max.Y

/-- The step `step` writes only at positions `(u, v)` with `0 ≤ u, v < 762`:
run on an image of any rectangle, it ends without a fault, and every pixel at
another position holds afterwards what it held before. -/
def WritesInFrame (step : Paletted → Except Err Paletted) : Prop :=
  ∀ (r : Rectangle) (img : Paletted), LaidOut r img →
    ∃ img1, step img = .ok img1 ∧ LaidOut r img1 ∧
      ∀ u v : Int, ¬ (0 ≤ u ∧ u < 762 ∧ 0 ≤ v ∧ v < 762) →
        img1.ColorIndexAt u v = img.ColorIndexAt u v

/-- No `int` operation of `drawMove` and `dist` overflows for the move,
whichever pixel of the frame is tested.  With the centre
`(cx, cy) = (20 + 40 x, 20 + 40 y)`, the value `dx*dx + dy*dy` is largest at a
corner of the frame, `dx` being `cx` or `cx - 761` and `dy` being `cy` or
`cy - 761`; it has to stay below `2^63`.  Every other intermediate value of
`drawMove` and `dist` is then in range too. -/
def move.NoOverflow (m : move) : Prop :=
  max ((20 + 40 * m.x) * (20 + 40 * m.x)) ((20 + 40 * m.x - 761) * (20 + 40 * m.x - 761)) +
    max ((20 + 40 * m.y) * (20 + 40 * m.y)) ((20 + 40 * m.y - 761) * (20 + 40 * m.y - 761)) <
      2 ^ 63

/-- The integer-truncated Euclidean distance `⌊√((cx-i)² + (cy-j)²)⌋` from the
pixel `(i, j)` to the centre `(cx, cy)`. -/
def truncDist (i j cx cy : Int) : Int :=
  (Nat.sqrt ((cx - i) * (cx - i) + (cy - j) * (cy - j)).toNat : Int)

/-- The pixel `(i, j)` belongs to the disc of the move `m`: its truncated
distance to the centre `(20 + 40 x, 20 + 40 y)` is at most 20. -/
def InDisc (m : move) (i j : Int) : Prop :=
  truncDist i j (20 + 40 * m.x) (20 + 40 * m.y) ≤ 20

/-- The column of the centre that `drawMove` computes for the move. -/
def move.cx (m : move) : Int :=
  wrapInt (stoneDiameter / 2 + wrapInt (m.x * stoneDiameter))

/-- The row of the centre that `drawMove` computes for the move. -/
def move.cy (m : move) : Int :=
  wrapInt (stoneDiameter / 2 + wrapInt (m.y * stoneDiameter))

/-- The colour index of a move: `Black` = 1 or `White` = 2. -/
def move.colour (m : move) : Nat :=
  if m.white then 2 else 1

/-- The stones of `ms` drawn in order on `img` by `drawMove`. -/
def drawMoves : List move → Paletted → Except Err Paletted
  | [], img => .ok img
  | m :: ms, img =>
    match drawMove img m with
    | .error e => .error e
    | .ok img1 => drawMoves ms img1

/-- The empty board: what `newFrame` holds before the first stone is drawn. -/
def emptyBoard : Except Err Paletted :=
  frameBeforeMove none []

/-- The empty board with the stones of `ms` drawn on it in order. -/
def boardWith (ms : List move) : Except Err Paletted :=
  emptyBoard.bind (drawMoves ms)

/-- The pixel lies on a grid line: column `40 i + 20` between rows 20 and 741,
or row `40 i + 20` between columns 20 and 741, for a line `0 ≤ i < 19`. -/
def OnGrid (px py : Int) : Prop :=
  ((px - 20) % 40 = 0 ∧ 20 ≤ px ∧ px ≤ 740 ∧ 20 ≤ py ∧ py < 742) ∨
    ((py - 20) % 40 = 0 ∧ 20 ≤ py ∧ py ≤ 740 ∧ 20 ≤ px ∧ px < 742)

instance instDecidableIsFrame (p : Paletted) : Decidable (IsFrame p) := by
  unfold IsFrame
  infer_instance

instance instDecidableInFrame (i j : Int) : Decidable (InFrame i j) := by
  unfold InFrame
  infer_instance

instance instDecidableSmall (m : move) : Decidable m.Small := by
  unfold move.Small
  infer_instance

instance instDecidableNoOverflow (m : move) : Decidable m.NoOverflow := by
  unfold move.NoOverflow
  infer_instance

instance instDecidableInDisc (m : move) (i j : Int) : Decidable (InDisc m i j) := by
  unfold InDisc
  infer_instance

instance instDecidableOnGrid (px py : Int) : Decidable (OnGrid px py) := by
  unfold OnGrid
  infer_instance

instance instDecidableMalformed (p : Property) : Decidable (malformedProperty p) :=
  match h : p.Values with
  | [] => isTrue (Or.inl (by simp [h]))
  | [v] =>
    if hl : v.length = 2 then
      isFalse (by
        rintro (h1 | ⟨w, hw, hwl⟩)
        · simp [h] at h1
        · rw [h] at hw
          cases hw
          exact hwl hl)
    else isTrue (Or.inr ⟨v, h, hl⟩)
  | _ :: _ :: _ => isTrue (Or.inl (by simp [h]))

/-! ## Example records -/

/-- A record with a size property `SZ[19]`, then a node with `AB[dd]`, `b[dd]`,
an empty `C` and the white move `W[de]`, then a node with the black move
`B[ab]`. -/
def exampleGame : GameTree :=
  { Nodes := [
      { Properties := [{ Ident := [83, 90], Values := [[49, 57]] }] },
      { Properties := [
          { Ident := [65, 66], Values := [[100, 100]] },
          { Ident := [98], Values := [[100, 100]] },
          { Ident := [67], Values := [] },
          { Ident := [87], Values := [[100, 101]] }] },
      { Properties := [{ Ident := [66], Values := [[97, 98]] }] }] }

/-- A record with a size property `SZ[19]`, the black move `B[dd]` and a
comment `C[hi]`. -/
def singleMoveGame : GameTree :=
  { Nodes := [
      { Properties := [{ Ident := [83, 90], Values := [[49, 57]] }] },
      { Properties := [
          { Ident := [66], Values := [[100, 100]] },
          { Ident := [67], Values := [[104, 105]] }] }] }

/-- A record without any move: a size property and a comment. -/
def noMoveGame : GameTree :=
  { Nodes := [
      { Properties := [{ Ident := [83, 90], Values := [[49, 57]] }] },
      { Properties := [{ Ident := [67], Values := [[104, 105]] },
        { Ident := [65, 66], Values := [[100, 100], [112, 112]] }] }] }

/-- Every entry of the pixel buffer is one of the palette indices
`Background`, `Black`, `White`. -/
def PaletteOnly (p : Paletted) : Prop :=
  ∀ c ∈ p.Pix, c = background ∨ c = black ∨ c = white

instance instDecidablePaletteOnly (p : Paletted) : Decidable (PaletteOnly p) := by
  unfold PaletteOnly
  infer_instance

/-- The pixels on which `drawMove` calls `SetColorIndex` for the move `m`: the
pixels `(i, j)` of the two loops that pass the test on `dist`. -/
@[irreducible]
def paintedPixels (m : move) : Finset (Int × Int) :=
  ((Finset.Ico 0 side) ×ˢ (Finset.Ico 0 side)).filter
    (fun p => dist p.1 p.2 m.cx m.cy ≤ stoneDiameter / 2)

/-- The offsets `(dx, dy)` from a centre with `dx² + dy² ≤ 440`. -/
def discOffsets : Finset (Int × Int) :=
  ((Finset.Icc (-20) 20) ×ˢ (Finset.Icc (-20) 20)).filter
    (fun d => d.1 * d.1 + d.2 * d.2 < 441)

/-- The move lies on the board: `0 ≤ x, y < 19`. -/
def move.OnBoard (m : move) : Prop :=
  0 ≤ m.x ∧ m.x < 19 ∧ 0 ≤ m.y ∧ m.y < 19

instance instDecidableOnBoard (m : move) : Decidable m.OnBoard := by
  unfold move.OnBoard
  infer_instance

/-- Three moves on neighbouring points: black (3, 3), white (4, 3), black
(3, 4). -/
def exampleMoves : List move :=
  [{ white := false, x := 3, y := 3 }, { white := true, x := 4, y := 3 },
    { white := false, x := 3, y := 4 }]

/-- A move far outside the board whose column `3 + 2^61` is a 64-bit `int`
for which `40 * x` wraps around to `120`. -/
def wrappingMove : move :=
  { white := false, x := 2305843009213693955, y := 3 }

/-! # Theorems -/

/-! ## Coordinate decoding -/

/-- C1: a token of two lowercase letters decodes to the offsets of its letters
from the letter a; the token dd gives (3, 3) and the token zz gives (25, 25),
no comparison with the board size being made. -/
theorem lettersToCoords_lowercase (c0 c1 : Byte)
    (h0 : 97 ≤ c0.val ∧ c0.val ≤ 122) (h1 : 97 ≤ c1.val ∧ c1.val ≤ 122) :
    lettersToCoords [c0, c1] = .ok ((c0.val : Int) - 97, (c1.val : Int) - 97) ∧
      lettersToCoords [100, 100] = .ok (3, 3) ∧
      lettersToCoords [122, 122] = .ok (25, 25) := by
  refine ⟨?_, by rfl, by rfl⟩
  obtain ⟨h0a, h0b⟩ := h0
  obtain ⟨h1a, h1b⟩ := h1
  simp only [lettersToCoords, List.length_cons, List.length_nil, ne_eq, not_true_eq_false,
    dite_false, List.get]
  have e0 : (c0.val + 256 - 97) % 256 = c0.val - 97 := by omega
  have e1 : (c1.val + 256 - 97) % 256 = c1.val - 97 := by omega
  rw [e0, e1]
  congr 2
  · omega
  · omega

/-- Witness of C1 at the token dd. -/
theorem lettersToCoords_lowercase_witness :
    lettersToCoords [100, 100] = .ok (((100 : Byte).val : Int) - 97, ((100 : Byte).val : Int) - 97) ∧
      lettersToCoords [100, 100] = .ok (3, 3) ∧
      lettersToCoords [122, 122] = .ok (25, 25) :=
  lettersToCoords_lowercase 100 100 (by decide) (by decide)

/-- C2: decoding fails exactly when the token does not have two bytes, the
error being the malformed-value error; tokens of length 0, 1 and 3 or more
fail and every token of length 2 succeeds. -/
theorem lettersToCoords_error_iff (letters : GoString) :
    ((∃ e, lettersToCoords letters = .error e) ↔ letters.length ≠ 2) ∧
      (letters.length ≠ 2 → lettersToCoords letters = .error (.malformedMoveValue letters)) ∧
      (letters.length = 2 → ∃ xy, lettersToCoords letters = .ok xy) ∧
      (∃ e, lettersToCoords [] = .error e) ∧
      (∀ a : Byte, ∃ e, lettersToCoords [a] = .error e) ∧
      (∀ (a b c : Byte) (rest : GoString), ∃ e, lettersToCoords (a :: b :: c :: rest) = .error e) := by
  have key : ∀ l : GoString, l.length ≠ 2 →
      lettersToCoords l = .error (.malformedMoveValue l) := by
    intro l hl
    simp [lettersToCoords, hl]
  have ok : ∀ l : GoString, l.length = 2 → ∃ xy, lettersToCoords l = .ok xy := by
    intro l hl
    simp [lettersToCoords, hl]
  refine ⟨⟨?_, fun hl => ⟨_, key letters hl⟩⟩, key letters, ok letters, ⟨_, key [] (by simp)⟩,
    fun a => ⟨_, key [a] (by simp)⟩, fun a b c rest => ⟨_, key _ (by simp)⟩⟩
  rintro ⟨e, he⟩ hl
  obtain ⟨xy, hxy⟩ := ok letters hl
  rw [hxy] at he
  cases he

/-! ## Move extraction -/

theorem notAMove_eq (p : Property) : notAMove p = !isMoveProperty p := by
  simp [notAMove, isMoveProperty, bne]

theorem moveOfProperty_eq_none_iff (p : Property) :
    moveOfProperty p = none ↔ malformedProperty p := by
  unfold moveOfProperty malformedProperty
  rcases hv : p.Values with _ | ⟨v, _ | ⟨w, rest⟩⟩
  · simp
  · by_cases hl : v.length = 2
    · simp [lettersToCoords, hl]
    · simp [lettersToCoords, hl]
  · simp

theorem movesFromProperties_skip (p : Property) (ps : List Property) (ret : List move)
    (hp : isMoveProperty p = false) :
    movesFromProperties (p :: ps) ret = movesFromProperties ps ret := by
  simp [movesFromProperties, notAMove_eq, hp]

theorem movesFromProperties_some (p : Property) (ps : List Property) (ret : List move) (m : move)
    (hp : isMoveProperty p = true) (hm : moveOfProperty p = some m) :
    movesFromProperties (p :: ps) ret = movesFromProperties ps (ret ++ [m]) := by
  unfold moveOfProperty at hm
  rcases hv : p.Values with _ | ⟨v, _ | ⟨w, rest⟩⟩
  · simp [hv] at hm
  · simp only [hv] at hm
    rcases hc : lettersToCoords v with e | ⟨x, y⟩
    · simp [hc] at hm
    · simp only [hc, Option.some.injEq] at hm
      subst hm
      simp [movesFromProperties, notAMove_eq, hp, hv, hc]
  · simp [hv] at hm

theorem movesFromProperties_none (p : Property) (ps : List Property) (ret : List move)
    (hp : isMoveProperty p = true) (hm : moveOfProperty p = none) :
    ∃ e, movesFromProperties (p :: ps) ret = .error e := by
  unfold moveOfProperty at hm
  rcases hv : p.Values with _ | ⟨v, _ | ⟨w, rest⟩⟩
  · exact ⟨_, by simp [movesFromProperties, notAMove_eq, hp, hv]; rfl⟩
  · simp only [hv] at hm
    rcases hc : lettersToCoords v with e | ⟨x, y⟩
    · exact ⟨e, by simp [movesFromProperties, notAMove_eq, hp, hv, hc]⟩
    · simp [hc] at hm
  · exact ⟨_, by simp [movesFromProperties, notAMove_eq, hp, hv]; rfl⟩

theorem movesFromProperties_ok (ps : List Property) (ret : List move)
    (hall : ∀ p ∈ ps.filter isMoveProperty, moveOfProperty p ≠ none) :
    movesFromProperties ps ret =
      .ok (ret ++ (ps.filter isMoveProperty).filterMap moveOfProperty) := by
  induction ps generalizing ret with
  | nil => simp [movesFromProperties]
  | cons p ps ih =>
    by_cases hp : isMoveProperty p = true
    · have hne : moveOfProperty p ≠ none := hall p (by simp [List.filter_cons, hp])
      obtain ⟨m, hm⟩ := Option.ne_none_iff_exists'.mp hne
      rw [movesFromProperties_some p ps ret m hp hm, ih]
      · simp [List.filter_cons, hp, List.filterMap_cons, hm]
      · intro q hq
        exact hall q (by simp [List.filter_cons, hp, hq])
    · have hp' : isMoveProperty p = false := by simpa using hp
      rw [movesFromProperties_skip p ps ret hp', ih]
      · simp [List.filter_cons, hp']
      · intro q hq
        exact hall q (by simp [List.filter_cons, hp', hq])

theorem movesFromProperties_error (ps : List Property) (ret : List move)
    (hex : ∃ p ∈ ps.filter isMoveProperty, moveOfProperty p = none) :
    ∃ e, movesFromProperties ps ret = .error e := by
  induction ps generalizing ret with
  | nil => simp at hex
  | cons p ps ih =>
    by_cases hp : isMoveProperty p = true
    · rcases hm : moveOfProperty p with _ | m
      · exact movesFromProperties_none p ps ret hp hm
      · rw [movesFromProperties_some p ps ret m hp hm]
        apply ih
        obtain ⟨q, hq, hqn⟩ := hex
        simp only [List.filter_cons, hp, if_true, List.mem_cons] at hq
        rcases hq with rfl | hq
        · rw [hm] at hqn; cases hqn
        · exact ⟨q, hq, hqn⟩
    · have hp' : isMoveProperty p = false := by simpa using hp
      rw [movesFromProperties_skip p ps ret hp']
      apply ih
      obtain ⟨q, hq, hqn⟩ := hex
      simp only [List.filter_cons, hp'] at hq
      exact ⟨q, by simpa using hq, hqn⟩

/-- The move properties of a list of nodes. -/
theorem moveProperties_cons (n : Node) (ns : List Node) :
    moveProperties { Nodes := n :: ns } =
      n.Properties.filter isMoveProperty ++ moveProperties { Nodes := ns } := by
  simp [moveProperties, allProperties, List.filter_append]

theorem movesFromNodes_ok (ns : List Node) (ret : List move)
    (hall : ∀ p ∈ moveProperties { Nodes := ns }, moveOfProperty p ≠ none) :
    movesFromNodes ns ret =
      .ok (ret ++ (moveProperties { Nodes := ns }).filterMap moveOfProperty) := by
  induction ns generalizing ret with
  | nil => simp [movesFromNodes, moveProperties, allProperties]
  | cons n ns ih =>
    rw [moveProperties_cons] at hall
    have h1 := movesFromProperties_ok n.Properties ret
      (fun p hp => hall p (List.mem_append_left _ hp))
    simp only [movesFromNodes, h1]
    rw [ih _ (fun p hp => hall p (List.mem_append_right _ hp)), moveProperties_cons]
    simp [List.filterMap_append]

theorem movesFromNodes_error (ns : List Node) (ret : List move)
    (hex : ∃ p ∈ moveProperties { Nodes := ns }, moveOfProperty p = none) :
    ∃ e, movesFromNodes ns ret = .error e := by
  induction ns generalizing ret with
  | nil => simp [moveProperties, allProperties] at hex
  | cons n ns ih =>
    by_cases hn : ∃ p ∈ n.Properties.filter isMoveProperty, moveOfProperty p = none
    · obtain ⟨e, he⟩ := movesFromProperties_error n.Properties ret hn
      exact ⟨e, by simp [movesFromNodes, he]⟩
    · have hall : ∀ p ∈ n.Properties.filter isMoveProperty, moveOfProperty p ≠ none := by
        intro p hp hnone
        exact hn ⟨p, hp, hnone⟩
      have h1 := movesFromProperties_ok n.Properties ret hall
      simp only [movesFromNodes, h1]
      apply ih
      obtain ⟨q, hq, hqn⟩ := hex
      rw [moveProperties_cons, List.mem_append] at hq
      rcases hq with hq | hq
      · exact absurd hqn (hall q hq)
      · exact ⟨q, hq, hqn⟩

theorem filterMap_map_some {α β : Type} (f : α → Option β) (l : List α)
    (hall : ∀ a ∈ l, f a ≠ none) : (l.filterMap f).map some = l.map f := by
  induction l with
  | nil => rfl
  | cons a l ih =>
    obtain ⟨b, hb⟩ := Option.ne_none_iff_exists'.mp (hall a (by simp))
    have := ih (fun x hx => hall x (by simp [hx]))
    simp [List.filterMap_cons, hb, this]

/-- The outcome of `movesFromGame` in terms of the move properties. -/
theorem movesFromGame_cases (g : GameTree) :
    ((∀ p ∈ moveProperties g, moveOfProperty p ≠ none) ∧
        movesFromGame g = .ok ((moveProperties g).filterMap moveOfProperty)) ∨
      ((∃ p ∈ moveProperties g, moveOfProperty p = none) ∧
        ∃ e, movesFromGame g = .error e) := by
  obtain ⟨ns⟩ := g
  by_cases hex : ∃ p ∈ moveProperties { Nodes := ns }, moveOfProperty p = none
  · exact Or.inr ⟨hex, movesFromNodes_error ns [] hex⟩
  · have hall : ∀ p ∈ moveProperties { Nodes := ns }, moveOfProperty p ≠ none := by
      intro p hp hnone
      exact hex ⟨p, hp, hnone⟩
    refine Or.inl ⟨hall, ?_⟩
    have := movesFromNodes_ok ns [] hall
    simpa [movesFromGame] using this

/-- C3: when extraction succeeds, the moves are exactly the properties named B
or W, taken node by node and property by property, each mapped to its move
(white when the name is W, coordinates decoded from the single value); the
number of moves is the number of such properties, and properties with another
name (AB, b, C) contribute nothing. -/
theorem movesFromGame_ok_eq (g : GameTree) (ms : List move)
    (hok : movesFromGame g = .ok ms) :
    ms.map some = (moveProperties g).map moveOfProperty ∧
      ms.length = (moveProperties g).length ∧
      ms.length = ((allProperties g).filter
        (fun p => decide (p.Ident = [66] ∨ p.Ident = [87]))).length ∧
      movesFromGame exampleGame =
        .ok [{ white := true, x := 3, y := 4 }, { white := false, x := 0, y := 1 }] := by
  have hms : (∀ p ∈ moveProperties g, moveOfProperty p ≠ none) ∧
      ms = (moveProperties g).filterMap moveOfProperty := by
    rcases movesFromGame_cases g with ⟨hall, h⟩ | ⟨_, e, h⟩
    · rw [hok] at h
      exact ⟨hall, by injection h⟩
    · rw [hok] at h
      cases h
  obtain ⟨hall, rfl⟩ := hms
  have hmap := filterMap_map_some moveOfProperty (moveProperties g) hall
  have hlen : ((moveProperties g).filterMap moveOfProperty).length = (moveProperties g).length := by
    have := congrArg List.length hmap
    simpa using this
  refine ⟨hmap, hlen, ?_, by rfl⟩
  rw [hlen]
  have hfun : isMoveProperty = fun p => decide (p.Ident = [66] ∨ p.Ident = [87]) := by
    funext p
    rw [Bool.eq_iff_iff]
    simp [isMoveProperty, strB, strW]
  rw [moveProperties, hfun]

/-- Witness of C3: the example record, with one white and one black move
among other properties. -/
theorem movesFromGame_ok_eq_witness :
    movesFromGame exampleGame =
        .ok [{ white := true, x := 3, y := 4 }, { white := false, x := 0, y := 1 }] ∧
      (([{ white := true, x := 3, y := 4 }, { white := false, x := 0, y := 1 }] :
          List move).map some = (moveProperties exampleGame).map moveOfProperty ∧
        ([{ white := true, x := 3, y := 4 }, { white := false, x := 0, y := 1 }] :
          List move).length = (moveProperties exampleGame).length ∧
        ([{ white := true, x := 3, y := 4 }, { white := false, x := 0, y := 1 }] :
          List move).length = ((allProperties exampleGame).filter
            (fun p => decide (p.Ident = [66] ∨ p.Ident = [87]))).length ∧
        movesFromGame exampleGame =
          .ok [{ white := true, x := 3, y := 4 }, { white := false, x := 0, y := 1 }]) :=
  ⟨by rfl, movesFromGame_ok_eq exampleGame
    [{ white := true, x := 3, y := 4 }, { white := false, x := 0, y := 1 }] (by rfl)⟩

/-- C4: extraction fails exactly when some property named B or W does not
carry exactly one value, or carries a single value whose length is not 2;
properties with any other name never cause a failure. -/
theorem movesFromGame_error_iff (g : GameTree) :
    ((∃ e, movesFromGame g = .error e) ↔
        ∃ p ∈ allProperties g, (p.Ident = [66] ∨ p.Ident = [87]) ∧
          (p.Values.length ≠ 1 ∨ ∃ v, p.Values = [v] ∧ v.length ≠ 2)) ∧
      ((∀ p ∈ allProperties g, ¬ (p.Ident = [66] ∨ p.Ident = [87])) →
        movesFromGame g = .ok []) := by
  have hmem : ∀ p, p ∈ moveProperties g ↔
      p ∈ allProperties g ∧ (p.Ident = [66] ∨ p.Ident = [87]) := by
    intro p
    simp [moveProperties, isMoveProperty, strB, strW]
  constructor
  · constructor
    · rintro ⟨e, he⟩
      rcases movesFromGame_cases g with ⟨_, h⟩ | ⟨⟨p, hp, hnone⟩, _⟩
      · rw [he] at h
        cases h
      · exact ⟨p, ((hmem p).mp hp).1, ((hmem p).mp hp).2,
          (moveOfProperty_eq_none_iff p).mp hnone⟩
    · rintro ⟨p, hp, hid, hbad⟩
      rcases movesFromGame_cases g with ⟨hall, _⟩ | ⟨_, h⟩
      · exact absurd ((moveOfProperty_eq_none_iff p).mpr hbad) (hall p ((hmem p).mpr ⟨hp, hid⟩))
      · exact h
  · intro hno
    have hnil : moveProperties g = [] := by
      apply List.eq_nil_iff_forall_not_mem.mpr
      intro p hp
      exact hno p ((hmem p).mp hp).1 ((hmem p).mp hp).2
    rcases movesFromGame_cases g with ⟨_, h⟩ | ⟨⟨p, hp, _⟩, _⟩
    · simpa [hnil] using h
    · simp [hnil] at hp

/-! ## Pixels of a frame -/

theorem side_eq : side = 762 := by decide

theorem isFrame_iff (p : Paletted) :
    IsFrame p ↔ p.Rect = { Min := { X := 0, Y := 0 }, Max := { X := 762, Y := 762 } } ∧
      p.Stride = 762 ∧ p.Pix.length = 580644 ∧ p.Palette = palette := by
  have h1 : Rect 0 0 side side = { Min := { X := 0, Y := 0 }, Max := { X := 762, Y := 762 } } := by
    decide
  have h2 : (side * side).toNat = 580644 := by decide
  unfold IsFrame
  rw [h1, h2, side_eq]

theorem inFrame_iff (i j : Int) : InFrame i j ↔ 0 ≤ i ∧ i < 762 ∧ 0 ≤ j ∧ j < 762 := by
  simp [InFrame, side_eq]

theorem isFrame_new : IsFrame (NewPaletted (Rect 0 0 side side) palette) := by
  have h2 : ((Rect 0 0 side side).Dx * (Rect 0 0 side side).Dy).toNat = (side * side).toNat := by
    decide
  have h3 : (Rect 0 0 side side).Dx = side := by decide
  exact ⟨rfl, h3, by simp [NewPaletted, h2], rfl⟩

/-- Reading a pixel of a frame succeeds. -/
theorem colorIndexAt_frame (p : Paletted) (hp : IsFrame p) (i j : Int) (hij : InFrame i j) :
    p.ColorIndexAt i j = .ok (p.Pix.getD (j * 762 + i).toNat 0) := by
  rw [isFrame_iff] at hp
  rw [inFrame_iff] at hij
  obtain ⟨hr, hs, hl, _⟩ := hp
  have hin : Point.In { X := i, Y := j } p.Rect = true := by
    simp [Point.In, hr, hij]
  have hoff : p.PixOffset i j = j * 762 + i := by
    simp [Paletted.PixOffset, hr, hs]
  have hlt : (j * 762 + i).toNat < p.Pix.length := by omega
  have hnn : 0 ≤ j * 762 + i := by omega
  simp [Paletted.ColorIndexAt, hin, hoff, hnn, List.getElem?_eq_getElem hlt,
    List.getD_eq_getElem?_getD]

/-- Reading outside a frame gives 0. -/
theorem colorIndexAt_outside (p : Paletted) (hp : IsFrame p) (i j : Int) (hij : ¬ InFrame i j) :
    p.ColorIndexAt i j = .ok 0 := by
  rw [isFrame_iff] at hp
  rw [inFrame_iff] at hij
  obtain ⟨hr, _, _, _⟩ := hp
  have hin : Point.In { X := i, Y := j } p.Rect = false := by
    simp only [Point.In, hr]
    by_contra hc
    simp at hc
    omega
  simp [Paletted.ColorIndexAt, hin]

/-- Writing a pixel of a frame succeeds, gives a frame, and changes that
pixel only. -/
theorem setColorIndex_frame (p : Paletted) (hp : IsFrame p) (x y : Int) (c : Nat)
    (hxy : InFrame x y) :
    ∃ q, p.SetColorIndex x y c = .ok q ∧ IsFrame q ∧
      ∀ i j, InFrame i j →
        q.ColorIndexAt i j = if i = x ∧ j = y then .ok c else p.ColorIndexAt i j := by
  have hp0 := hp
  have hxy0 := hxy
  rw [isFrame_iff] at hp
  rw [inFrame_iff] at hxy
  obtain ⟨hr, hs, hl, hpal⟩ := hp
  have hin : Point.In { X := x, Y := y } p.Rect = true := by
    simp [Point.In, hr, hxy]
  have hoff : p.PixOffset x y = y * 762 + x := by
    simp [Paletted.PixOffset, hr, hs]
  have hlt : (y * 762 + x).toNat < p.Pix.length := by omega
  have hnn : 0 ≤ y * 762 + x := by omega
  have hq : IsFrame { p with Pix := p.Pix.set (y * 762 + x).toNat c } := by
    rw [isFrame_iff]
    exact ⟨hr, hs, by simp [hl], hpal⟩
  refine ⟨{ p with Pix := p.Pix.set (y * 762 + x).toNat c }, ?_, hq, ?_⟩
  · simp [Paletted.SetColorIndex, hin, hoff, hnn, hlt]
  · intro i j hij
    rw [colorIndexAt_frame _ hq i j hij, colorIndexAt_frame p hp0 i j hij]
    rw [inFrame_iff] at hij
    simp only [List.getD_eq_getElem?_getD, List.getElem?_set]
    by_cases he : i = x ∧ j = y
    · obtain ⟨rfl, rfl⟩ := he
      simp [hlt]
    · have hne : (y * 762 + x).toNat ≠ (j * 762 + i).toNat := by omega
      simp [he, hne]

/-- Writing outside a frame has no effect. -/
theorem setColorIndex_outside (p : Paletted) (hp : IsFrame p) (x y : Int) (c : Nat)
    (hxy : ¬ InFrame x y) : p.SetColorIndex x y c = .ok p := by
  rw [isFrame_iff] at hp
  rw [inFrame_iff] at hxy
  obtain ⟨hr, _, _, _⟩ := hp
  have hin : Point.In { X := x, Y := y } p.Rect = false := by
    simp only [Point.In, hr]
    by_contra hc
    simp at hc
    omega
  simp [Paletted.SetColorIndex, hin]

/-- Two frames with the same pixels are equal. -/
theorem frame_ext (p q : Paletted) (hp : IsFrame p) (hq : IsFrame q)
    (h : ∀ i j, InFrame i j → p.ColorIndexAt i j = q.ColorIndexAt i j) : p = q := by
  have hpix : p.Pix = q.Pix := by
    have hp1 := (isFrame_iff p).mp hp
    have hq1 := (isFrame_iff q).mp hq
    apply List.ext_getElem (by omega)
    intro n h1 h2
    have hij : InFrame ((n : Int) % 762) ((n : Int) / 762) := by
      rw [inFrame_iff]
      omega
    have := h _ _ hij
    rw [colorIndexAt_frame p hp _ _ hij, colorIndexAt_frame q hq _ _ hij] at this
    have hn : ((n : Int) / 762 * 762 + (n : Int) % 762).toNat = n := by omega
    rw [hn] at this
    simpa [List.getD_eq_getElem?_getD, List.getElem?_eq_getElem h1,
      List.getElem?_eq_getElem h2] using this
  obtain ⟨hr, hs, _, hpal⟩ := hp
  obtain ⟨hr2, hs2, _, hpal2⟩ := hq
  cases p
  cases q
  simp_all

/-! ## Pixels of an image of any rectangle -/

theorem offset_inj (w a b a1 b1 : Int) (hb : 0 ≤ b) (hbw : b < w) (hb1 : 0 ≤ b1)
    (hb1w : b1 < w) (h : a * w + b = a1 * w + b1) : a = a1 ∧ b = b1 := by
  have ha : a = a1 := by
    rcases lt_trichotomy a a1 with hlt | heq | hgt
    · have : 0 ≤ (a1 - a - 1) * w := mul_nonneg (by omega) (by omega)
      nlinarith
    · exact heq
    · have : 0 ≤ (a - a1 - 1) * w := mul_nonneg (by omega) (by omega)
      nlinarith
  subst ha
  exact ⟨rfl, by omega⟩

theorem pointIn_iff (r : Rectangle) (x y : Int) :
    Point.In { X := x, Y := y } r = true ↔ InRect r x y := by
  simp [Point.In, InRect, and_assoc]

/-- The offset of a pixel of a laid-out image is an index of its buffer. -/
theorem pixOffset_laidOut (r : Rectangle) (p : Paletted) (hp : LaidOut r p) (x y : Int)
    (hxy : InRect r x y) :
    p.PixOffset x y = (y - r.Min.Y) * r.Dx + (x - r.Min.X) ∧
      0 ≤ p.PixOffset x y ∧ (p.PixOffset x y).toNat < p.Pix.length := by
  obtain ⟨hr, hs, hl⟩ := hp
  obtain ⟨h1, h2, h3, h4⟩ := hxy
  have hoff : p.PixOffset x y = (y - r.Min.Y) * r.Dx + (x - r.Min.X) := by
    simp [Paletted.PixOffset, hr, hs]
  have hw : r.Dx = r.Max.X - r.Min.X := rfl
  have hh : r.Dy = r.Max.Y - r.Min.Y := rfl
  have hA : 0 ≤ (y - r.Min.Y) * r.Dx := mul_nonneg (by omega) (by omega)
  have hB : (y - r.Min.Y + 1) * r.Dx ≤ r.Dy * r.Dx :=
    mul_le_mul_of_nonneg_right (by omega) (by omega)
  have hC : (y - r.Min.Y + 1) * r.Dx = (y - r.Min.Y) * r.Dx + r.Dx := by ring
  have hD : r.Dx * r.Dy = r.Dy * r.Dx := by ring
  refine ⟨hoff, by omega, ?_⟩
  rw [hoff, hl, hD]
  omega

/-- Reading a pixel of a laid-out image succeeds. -/
theorem colorIndexAt_laidOut (r : Rectangle) (p : Paletted) (hp : LaidOut r p) (i j : Int)
    (hij : InRect r i j) :
    p.ColorIndexAt i j = .ok (p.Pix.getD (p.PixOffset i j).toNat 0) := by
  obtain ⟨_, hnn, hlt⟩ := pixOffset_laidOut r p hp i j hij
  have hin : Point.In { X := i, Y := j } p.Rect = true := by
    rw [hp.1]
    exact (pointIn_iff r i j).mpr hij
  simp [Paletted.ColorIndexAt, hin, hnn, List.getElem?_eq_getElem hlt,
    List.getD_eq_getElem?_getD]

/-- Reading outside the rectangle of an image gives 0. -/
theorem colorIndexAt_outRect (r : Rectangle) (p : Paletted) (hr : p.Rect = r) (i j : Int)
    (hij : ¬ InRect r i j) : p.ColorIndexAt i j = .ok 0 := by
  have hin : Point.In { X := i, Y := j } p.Rect = false := by
    rw [hr, ← Bool.not_eq_true, pointIn_iff]
    exact hij
  simp [Paletted.ColorIndexAt, hin]

/-- Writing a pixel of a laid-out image succeeds, keeps the layout, and
changes that pixel only. -/
theorem setColorIndex_laidOut (r : Rectangle) (p : Paletted) (x y : Int) (c : Nat)
    (hp : LaidOut r p) (hxy : InRect r x y) :
    ∃ q, p.SetColorIndex x y c = .ok q ∧ LaidOut r q ∧
      ∀ i j, InRect r i j →
        q.ColorIndexAt i j = if i = x ∧ j = y then .ok c else p.ColorIndexAt i j := by
  obtain ⟨hoff, hnn, hlt⟩ := pixOffset_laidOut r p hp x y hxy
  have hin : Point.In { X := x, Y := y } p.Rect = true := by
    rw [hp.1]
    exact (pointIn_iff r x y).mpr hxy
  have hq : LaidOut r { p with Pix := p.Pix.set (p.PixOffset x y).toNat c } := by
    obtain ⟨hr, hs, hl⟩ := hp
    exact ⟨hr, hs, by simp [hl]⟩
  refine ⟨{ p with Pix := p.Pix.set (p.PixOffset x y).toNat c }, ?_, hq, ?_⟩
  · simp [Paletted.SetColorIndex, hin, hnn, hlt]
  · intro i j hij
    obtain ⟨hoff1, hnn1, hlt1⟩ := pixOffset_laidOut r p hp i j hij
    rw [colorIndexAt_laidOut r _ hq i j hij, colorIndexAt_laidOut r p hp i j hij]
    have hsame : Paletted.PixOffset { p with Pix := p.Pix.set (p.PixOffset x y).toNat c } i j =
        p.PixOffset i j := rfl
    rw [hsame]
    simp only [List.getD_eq_getElem?_getD, List.getElem?_set]
    by_cases he : i = x ∧ j = y
    · obtain ⟨rfl, rfl⟩ := he
      simp [hlt]
    · have hne : (p.PixOffset x y).toNat ≠ (p.PixOffset i j).toNat := by
        intro heq
        have heq1 : p.PixOffset x y = p.PixOffset i j := by omega
        rw [hoff, hoff1] at heq1
        obtain ⟨h1, h2, _, _⟩ := hxy
        obtain ⟨h3, h4, _, _⟩ := hij
        have hw : r.Dx = r.Max.X - r.Min.X := rfl
        obtain ⟨e1, e2⟩ := offset_inj r.Dx _ _ _ _ (by omega) (by omega) (by omega) (by omega)
          heq1
        exact he ⟨by omega, by omega⟩
      simp [he, hne]

/-- Writing outside the rectangle of an image has no effect. -/
theorem setColorIndex_outRect (r : Rectangle) (p : Paletted) (x y : Int) (c : Nat)
    (hp : LaidOut r p) (hxy : ¬ InRect r x y) : p.SetColorIndex x y c = .ok p := by
  have hin : Point.In { X := x, Y := y } p.Rect = false := by
    rw [hp.1, ← Bool.not_eq_true, pointIn_iff]
    exact hxy
  simp [Paletted.SetColorIndex, hin]

/-! ## Loops with an invariant -/

theorem forLoopN_inv {σ : Type} (P : Int → σ → Prop) (body : Int → σ → Except Err σ) :
    ∀ (n : Nat) (i : Int) (s : σ), P i s →
      (∀ k t, i ≤ k → k < i + n → P k t → ∃ t1, body k t = .ok t1 ∧ P (k + 1) t1) →
      ∃ s1, forLoopN n i body s = .ok s1 ∧ P (i + n) s1 := by
  intro n
  induction n with
  | zero =>
    intro i s h0 _
    exact ⟨s, rfl, by simpa using h0⟩
  | succ n ih =>
    intro i s h0 hstep
    obtain ⟨t1, hb, ht1⟩ := hstep i s (le_refl _) (by push_cast; omega) h0
    obtain ⟨s1, hs1, hP⟩ := ih (i + 1) t1 ht1 (by
      intro k t hk1 hk2 hPk
      exact hstep k t (by omega) (by push_cast; omega) hPk)
    refine ⟨s1, ?_, ?_⟩
    · simp [forLoopN, hb, hs1]
    · have : i + ((n + 1 : Nat) : Int) = i + 1 + (n : Int) := by push_cast; omega
      rw [this]
      exact hP

theorem forLoop_inv {σ : Type} (P : Int → σ → Prop) (body : Int → σ → Except Err σ)
    (lo hi : Int) (hle : lo ≤ hi) (s : σ) (h0 : P lo s)
    (hstep : ∀ k t, lo ≤ k → k < hi → P k t → ∃ t1, body k t = .ok t1 ∧ P (k + 1) t1) :
    ∃ s1, forLoop lo hi body s = .ok s1 ∧ P hi s1 := by
  obtain ⟨s1, hs1, hP⟩ := forLoopN_inv P body (hi - lo).toNat lo s h0 (by
    intro k t hk1 hk2 hPk
    exact hstep k t hk1 (by omega) hPk)
  refine ⟨s1, hs1, ?_⟩
  have : lo + ((hi - lo).toNat : Int) = hi := by omega
  rw [this] at hP
  exact hP

/-- A nested loop that writes, for each `(i, j)` satisfying `cond`, the index
`col i j` at position `(X i j, Y i j)`, distinct pairs writing distinct
positions.  `W` is a layout kept by `SetColorIndex` and `In` its set of
positions: a write at a position in `In` changes that pixel only and a write
elsewhere has no effect.  The loop runs to the end on an image satisfying `W`,
and the resulting image holds `col i j` at every written position and is
unchanged elsewhere. -/
theorem raster_loop_on (W : Paletted → Prop) (In : Int → Int → Prop)
    (hset : ∀ (p : Paletted) (x y : Int) (c : Nat), W p → In x y →
      ∃ q, p.SetColorIndex x y c = .ok q ∧ W q ∧
        ∀ i j, In i j →
          q.ColorIndexAt i j = if i = x ∧ j = y then .ok c else p.ColorIndexAt i j)
    (hout : ∀ (p : Paletted) (x y : Int) (c : Nat), W p → ¬ In x y →
      p.SetColorIndex x y c = .ok p)
    (body : Int → Int → Paletted → Except Err Paletted)
    (a b c d : Int) (hab : a ≤ b) (hcd : c ≤ d)
    (cond : Int → Int → Prop) [∀ i j, Decidable (cond i j)]
    (X Y : Int → Int → Int) (col : Int → Int → Nat)
    (hbody : ∀ i j q, a ≤ i → i < b → c ≤ j → j < d → W q →
      body i j q = if cond i j then q.SetColorIndex (X i j) (Y i j) (col i j) else .ok q)
    (hinj : ∀ i j i1 j1, a ≤ i → i < b → c ≤ j → j < d → a ≤ i1 → i1 < b → c ≤ j1 → j1 < d →
      X i j = X i1 j1 → Y i j = Y i1 j1 → i = i1 ∧ j = j1)
    (p : Paletted) (hp : W p) :
    ∃ p1, forLoop a b (fun i img => forLoop c d (fun j img => body i j img) img) p = .ok p1 ∧
      W p1 ∧
      (∀ i j, a ≤ i → i < b → c ≤ j → j < d → cond i j → In (X i j) (Y i j) →
        p1.ColorIndexAt (X i j) (Y i j) = .ok (col i j)) ∧
      (∀ u v, In u v →
        (∀ i j, a ≤ i → i < b → c ≤ j → j < d → cond i j → ¬ (X i j = u ∧ Y i j = v)) →
        p1.ColorIndexAt u v = p.ColorIndexAt u v) := by
  -- the pairs already handled when the loops stand at `(i, j)`
  let D : Int → Int → Int → Int → Prop := fun i j i1 j1 =>
    a ≤ i1 ∧ i1 < b ∧ c ≤ j1 ∧ j1 < d ∧ (i1 < i ∨ (i1 = i ∧ j1 < j))
  let R : Int → Int → Paletted → Prop := fun i j q =>
    W q ∧
    (∀ i1 j1, D i j i1 j1 → cond i1 j1 → In (X i1 j1) (Y i1 j1) →
      q.ColorIndexAt (X i1 j1) (Y i1 j1) = .ok (col i1 j1)) ∧
    (∀ u v, In u v →
      (∀ i1 j1, D i j i1 j1 → cond i1 j1 → ¬ (X i1 j1 = u ∧ Y i1 j1 = v)) →
      q.ColorIndexAt u v = p.ColorIndexAt u v)
  have hinner : ∀ i q, a ≤ i → i < b → R i c q →
      ∃ q1, forLoop c d (fun j img => body i j img) q = .ok q1 ∧ R (i + 1) c q1 := by
    intro i q hia hib hR
    obtain ⟨q1, hq1, hR1⟩ := forLoop_inv (fun j q => R i j q) (fun j img => body i j img)
      c d hcd q hR (by
        intro j t hjc hjd ⟨hF, hA, hB⟩
        have hb := hbody i j t hia hib hjc hjd hF
        simp only [hb]
        by_cases hc : cond i j
        · simp only [hc, if_true]
          by_cases hin : In (X i j) (Y i j)
          · obtain ⟨t1, ht1, hF1, hpix⟩ := hset t _ _ (col i j) hF hin
            refine ⟨t1, ht1, hF1, ?_, ?_⟩
            · intro i1 j1 hD hc1 hin1
              rw [hpix _ _ hin1]
              by_cases he : X i1 j1 = X i j ∧ Y i1 j1 = Y i j
              · obtain ⟨h1, _, h3, h4, _⟩ := hD
                obtain ⟨rfl, rfl⟩ := hinj i1 j1 i j h1 (by omega) h3 h4 hia hib hjc hjd he.1 he.2
                simp
              · rw [if_neg he]
                apply hA i1 j1 _ hc1 hin1
                obtain ⟨h1, h2, h3, h4, h5⟩ := hD
                refine ⟨h1, h2, h3, h4, ?_⟩
                rcases h5 with h5 | ⟨h5, h6⟩
                · exact Or.inl h5
                · right
                  refine ⟨h5, ?_⟩
                  by_contra hlt
                  have : j1 = j := by omega
                  subst this
                  subst h5
                  exact he ⟨rfl, rfl⟩
            · intro u v huv hno
              rw [hpix _ _ huv]
              have hne : ¬ (u = X i j ∧ v = Y i j) := by
                rintro ⟨rfl, rfl⟩
                exact hno i j ⟨hia, hib, hjc, hjd, Or.inr ⟨rfl, by omega⟩⟩ hc ⟨rfl, rfl⟩
              rw [if_neg hne]
              apply hB u v huv
              intro i1 j1 ⟨h1, h2, h3, h4, h5⟩ hc1
              apply hno i1 j1 ⟨h1, h2, h3, h4, ?_⟩ hc1
              rcases h5 with h5 | ⟨h5, h6⟩
              · exact Or.inl h5
              · exact Or.inr ⟨h5, by omega⟩
          · refine ⟨t, hout t _ _ _ hF hin, hF, ?_, ?_⟩
            · intro i1 j1 ⟨h1, h2, h3, h4, h5⟩ hc1 hin1
              apply hA i1 j1 ⟨h1, h2, h3, h4, ?_⟩ hc1 hin1
              rcases h5 with h5 | ⟨h5, h6⟩
              · exact Or.inl h5
              · right
                refine ⟨h5, ?_⟩
                by_contra hlt
                have : j1 = j := by omega
                subst this
                subst h5
                exact hin hin1
            · intro u v huv hno
              apply hB u v huv
              intro i1 j1 ⟨h1, h2, h3, h4, h5⟩ hc1
              apply hno i1 j1 ⟨h1, h2, h3, h4, ?_⟩ hc1
              rcases h5 with h5 | ⟨h5, h6⟩
              · exact Or.inl h5
              · exact Or.inr ⟨h5, by omega⟩
        · simp only [hc, if_false]
          refine ⟨t, rfl, hF, ?_, ?_⟩
          · intro i1 j1 ⟨h1, h2, h3, h4, h5⟩ hc1 hin1
            apply hA i1 j1 ⟨h1, h2, h3, h4, ?_⟩ hc1 hin1
            rcases h5 with h5 | ⟨h5, h6⟩
            · exact Or.inl h5
            · right
              refine ⟨h5, ?_⟩
              by_contra hlt
              have : j1 = j := by omega
              subst this
              subst h5
              exact hc hc1
          · intro u v huv hno
            apply hB u v huv
            intro i1 j1 ⟨h1, h2, h3, h4, h5⟩ hc1
            apply hno i1 j1 ⟨h1, h2, h3, h4, ?_⟩ hc1
            rcases h5 with h5 | ⟨h5, h6⟩
            · exact Or.inl h5
            · exact Or.inr ⟨h5, by omega⟩)
    refine ⟨q1, hq1, ?_⟩
    obtain ⟨hF, hA, hB⟩ := hR1
    refine ⟨hF, ?_, ?_⟩
    · intro i1 j1 ⟨h1, h2, h3, h4, h5⟩ hc1 hin1
      apply hA i1 j1 ⟨h1, h2, h3, h4, ?_⟩ hc1 hin1
      rcases h5 with h5 | ⟨_, h6⟩
      · by_cases he : i1 = i
        · exact Or.inr ⟨he, h4⟩
        · exact Or.inl (by omega)
      · omega
    · intro u v huv hno
      apply hB u v huv
      intro i1 j1 ⟨h1, h2, h3, h4, h5⟩ hc1
      apply hno i1 j1 ⟨h1, h2, h3, h4, ?_⟩ hc1
      rcases h5 with h5 | ⟨h5, _⟩
      · exact Or.inl (by omega)
      · exact Or.inl (by omega)
  obtain ⟨p1, hp1, hF, hA, hB⟩ := forLoop_inv (fun i q => R i c q)
    (fun i img => forLoop c d (fun j img => body i j img) img) a b hab p
    ⟨hp, by
      intro i1 j1 ⟨h1, _, h3, _, h5⟩
      omega, by
      intro u v _ _
      rfl⟩
    (by
      intro i t hia hib hR
      exact hinner i t hia hib hR)
  refine ⟨p1, hp1, hF, ?_, ?_⟩
  · intro i j h1 h2 h3 h4 hc hin
    exact hA i j ⟨h1, h2, h3, h4, Or.inl h2⟩ hc hin
  · intro u v huv hno
    apply hB u v huv
    intro i1 j1 ⟨h1, h2, h3, h4, _⟩ hc1
    exact hno i1 j1 h1 h2 h3 h4 hc1

/-- The nested loop on a frame. -/
theorem raster_loop (body : Int → Int → Paletted → Except Err Paletted)
    (a b c d : Int) (hab : a ≤ b) (hcd : c ≤ d)
    (cond : Int → Int → Prop) [∀ i j, Decidable (cond i j)]
    (X Y : Int → Int → Int) (col : Int → Int → Nat)
    (hbody : ∀ i j q, a ≤ i → i < b → c ≤ j → j < d → IsFrame q →
      body i j q = if cond i j then q.SetColorIndex (X i j) (Y i j) (col i j) else .ok q)
    (hinj : ∀ i j i1 j1, a ≤ i → i < b → c ≤ j → j < d → a ≤ i1 → i1 < b → c ≤ j1 → j1 < d →
      X i j = X i1 j1 → Y i j = Y i1 j1 → i = i1 ∧ j = j1)
    (p : Paletted) (hp : IsFrame p) :
    ∃ p1, forLoop a b (fun i img => forLoop c d (fun j img => body i j img) img) p = .ok p1 ∧
      IsFrame p1 ∧
      (∀ i j, a ≤ i → i < b → c ≤ j → j < d → cond i j → InFrame (X i j) (Y i j) →
        p1.ColorIndexAt (X i j) (Y i j) = .ok (col i j)) ∧
      (∀ u v, InFrame u v →
        (∀ i j, a ≤ i → i < b → c ≤ j → j < d → cond i j → ¬ (X i j = u ∧ Y i j = v)) →
        p1.ColorIndexAt u v = p.ColorIndexAt u v) :=
  raster_loop_on IsFrame InFrame
    (fun p x y c hp hxy => setColorIndex_frame p hp x y c hxy)
    (fun p x y c hp hxy => setColorIndex_outside p hp x y c hxy)
    body a b c d hab hcd cond X Y col hbody hinj p hp

/-- The nested loop whose positions are pixels of the frame, on an image of
any rectangle: it runs to the end and leaves every pixel outside the frame as
it was. -/
theorem raster_loop_confined (body : Int → Int → Paletted → Except Err Paletted)
    (a b c d : Int) (hab : a ≤ b) (hcd : c ≤ d)
    (cond : Int → Int → Prop) [∀ i j, Decidable (cond i j)]
    (X Y : Int → Int → Int) (col : Int → Int → Nat)
    (r : Rectangle)
    (hbody : ∀ i j q, a ≤ i → i < b → c ≤ j → j < d → LaidOut r q →
      body i j q = if cond i j then q.SetColorIndex (X i j) (Y i j) (col i j) else .ok q)
    (hinj : ∀ i j i1 j1, a ≤ i → i < b → c ≤ j → j < d → a ≤ i1 → i1 < b → c ≤ j1 → j1 < d →
      X i j = X i1 j1 → Y i j = Y i1 j1 → i = i1 ∧ j = j1)
    (hpos : ∀ i j, a ≤ i → i < b → c ≤ j → j < d → InFrame (X i j) (Y i j))
    (p : Paletted) (hp : LaidOut r p) :
    ∃ p1, forLoop a b (fun i img => forLoop c d (fun j img => body i j img) img) p = .ok p1 ∧
      LaidOut r p1 ∧
      ∀ u v, ¬ InFrame u v → p1.ColorIndexAt u v = p.ColorIndexAt u v := by
  obtain ⟨p1, h1, hW, _, hB⟩ := raster_loop_on (LaidOut r) (InRect r)
    (fun p x y c hp hxy => setColorIndex_laidOut r p x y c hp hxy)
    (fun p x y c hp hxy => setColorIndex_outRect r p x y c hp hxy)
    body a b c d hab hcd cond X Y col hbody hinj p hp
  refine ⟨p1, h1, hW, ?_⟩
  intro u v huv
  by_cases hin : InRect r u v
  · apply hB u v hin
    rintro i j hi0 hi1 hj0 hj1 _ ⟨rfl, rfl⟩
    exact huv (hpos i j hi0 hi1 hj0 hj1)
  · rw [colorIndexAt_outRect r p1 hW.1 u v hin, colorIndexAt_outRect r p hp.1 u v hin]

/-! ## The truncated square root -/

theorem isqrtAux_spec : ∀ (b n r : Nat), r * r ≤ n → n < (r + 2 ^ b) * (r + 2 ^ b) →
    isqrtAux b n r * isqrtAux b n r ≤ n ∧
      n < (isqrtAux b n r + 1) * (isqrtAux b n r + 1) := by
  intro b
  induction b with
  | zero =>
    intro n r h1 h2
    simpa [isqrtAux] using And.intro h1 h2
  | succ b ih =>
    intro n r h1 h2
    unfold isqrtAux
    by_cases hc : (r + 2 ^ b) * (r + 2 ^ b) ≤ n
    · rw [if_pos hc]
      apply ih n (r + 2 ^ b) hc
      have : r + 2 ^ b + 2 ^ b = r + 2 ^ (b + 1) := by rw [pow_succ]; omega
      rw [this]
      exact h2
    · rw [if_neg hc]
      exact ih n r h1 (by omega)

theorem isqrt_eq_sqrt (n : Nat) (hn : n < 2 ^ 128) : isqrt n = Nat.sqrt n := by
  have h := isqrtAux_spec 64 n 0 (by simp) (by
    have : (0 + 2 ^ 64) * (0 + 2 ^ 64) = 2 ^ 128 := by norm_num
    rw [this]
    exact hn)
  exact Nat.eq_sqrt.mpr h

theorem normShift_lower : ∀ (fuel h s : Nat), 2 ^ 104 ≤ h * 4 ^ (s + fuel) →
    2 ^ 104 ≤ h * 4 ^ normShift fuel h s := by
  intro fuel
  induction fuel with
  | zero =>
    intro h s hs
    simpa [normShift] using hs
  | succ fuel ih =>
    intro h s hs
    unfold normShift
    by_cases hc : 2 ^ 104 ≤ h * 4 ^ s
    · rw [if_pos hc]
      exact hc
    · rw [if_neg hc]
      apply ih
      have : s + 1 + fuel = s + (fuel + 1) := by omega
      rw [this]
      exact hs

theorem normShift_upper : ∀ (fuel h s : Nat), h * 4 ^ s < 2 ^ 106 →
    h * 4 ^ normShift fuel h s < 2 ^ 106 := by
  intro fuel
  induction fuel with
  | zero =>
    intro h s hs
    simpa [normShift] using hs
  | succ fuel ih =>
    intro h s hs
    unfold normShift
    by_cases hc : 2 ^ 104 ≤ h * 4 ^ s
    · rw [if_pos hc]
      exact hs
    · rw [if_neg hc]
      apply ih
      rw [pow_succ]
      have : h * (4 ^ s * 4) = h * 4 ^ s * 4 := by ring
      rw [this]
      omega

/-- For integers below `2^52` the truncated `float64` square root is the
integer square root. -/
theorem float64SqrtToInt_eq_sqrt (h : Nat) (hh : h < 2 ^ 52) :
    float64SqrtToInt h = Nat.sqrt h := by
  unfold float64SqrtToInt
  by_cases h0 : h = 0
  · simp [h0]
  rw [if_neg h0]
  dsimp only
  have hlow := normShift_lower 52 h 0 (by
    have h1 : 1 ≤ h := Nat.one_le_iff_ne_zero.mpr h0
    calc 2 ^ 104 = 1 * 4 ^ (0 + 52) := by norm_num
      _ ≤ h * 4 ^ (0 + 52) := Nat.mul_le_mul_right _ h1)
  have hup := normShift_upper 52 h 0 (by
    have : (2 : Nat) ^ 52 < 2 ^ 106 := by norm_num
    omega)
  generalize normShift 52 h 0 = s at hlow hup
  have h4 : 4 ^ s = 2 ^ s * 2 ^ s := by
    rw [← Nat.mul_pow]
  rw [h4] at hlow hup ⊢
  generalize hP : 2 ^ s = P at hlow hup ⊢
  have hq := isqrt_eq_sqrt (h * (P * P)) (by
    have : (2 : Nat) ^ 106 < 2 ^ 128 := by norm_num
    omega)
  rw [hq]
  generalize hqd : Nat.sqrt (h * (P * P)) = q
  obtain ⟨hq1, hq2⟩ := Nat.eq_sqrt.mp hqd.symm
  generalize hkd : Nat.sqrt h = k
  obtain ⟨hk1, hk2⟩ := Nat.eq_sqrt.mp hkd.symm
  -- `k < 2^26 < P`
  have hk26 : k < 2 ^ 26 := by
    by_contra hc
    have hc1 : 2 ^ 26 ≤ k := by omega
    have := Nat.mul_le_mul hc1 hc1
    have e : (2 : Nat) ^ 26 * 2 ^ 26 = 2 ^ 52 := by norm_num
    omega
  have hP26 : 2 ^ 26 < P := by
    by_contra hc
    have hc1 : P ≤ 2 ^ 26 := by omega
    have h1 := Nat.mul_le_mul hc1 hc1
    have h2 : h * (P * P) ≤ h * (2 ^ 26 * 2 ^ 26) := Nat.mul_le_mul_left _ h1
    have h3 : h * (2 ^ 26 * 2 ^ 26) < 2 ^ 52 * (2 ^ 26 * 2 ^ 26) :=
      Nat.mul_lt_mul_of_pos_right hh (by norm_num)
    have e : (2 : Nat) ^ 52 * (2 ^ 26 * 2 ^ 26) = 2 ^ 104 := by norm_num
    omega
  have hPpos : 0 < P := by omega
  -- `k * P ≤ q < (k + 1) * P`
  have hkq : k * P ≤ q := by
    by_contra hc
    have hc1 : q + 1 ≤ k * P := by omega
    have h1 := Nat.mul_le_mul hc1 hc1
    have h2 : k * P * (k * P) = k * k * (P * P) := by ring
    have h3 : k * k * (P * P) ≤ h * (P * P) := Nat.mul_le_mul_right _ hk1
    omega
  have hqk : q < (k + 1) * P := by
    by_contra hc
    have hc1 : (k + 1) * P ≤ q := by omega
    have h1 := Nat.mul_le_mul hc1 hc1
    have h2 : (k + 1) * P * ((k + 1) * P) = (k + 1) * (k + 1) * (P * P) := by ring
    have h3 : (h + 1) * (P * P) ≤ (k + 1) * (k + 1) * (P * P) := Nat.mul_le_mul_right _ hk2
    have h4 : (h + 1) * (P * P) = h * (P * P) + P * P := by ring
    have h5 : 0 < P * P := Nat.mul_pos hPpos hPpos
    omega
  have hr : ∀ r, (r = q ∨ (r = q + 1 ∧ q * q + q < h * (P * P))) → r / P = k := by
    intro r hr
    apply Nat.div_eq_of_lt_le
    · rcases hr with rfl | ⟨rfl, _⟩ <;> omega
    · rcases hr with rfl | ⟨rfl, hlt⟩
      · simpa [Nat.succ_eq_add_one] using hqk
      · have hne : q + 1 ≠ (k + 1) * P := by
          intro he
          have h2 : (q + 1) * (q + 1) = (k + 1) * (k + 1) * (P * P) := by
            rw [he]; ring
          have h3 : (h + 1) * (P * P) ≤ (k + 1) * (k + 1) * (P * P) :=
            Nat.mul_le_mul_right _ hk2
          have h4 : (h + 1) * (P * P) = h * (P * P) + P * P := by ring
          have h5 : (q + 1) * (q + 1) = q * q + q + (q + 1) := by ring
          have h6 : P * P < (k + 1) * P := by omega
          have h7 : P < k + 1 := Nat.lt_of_mul_lt_mul_right h6
          omega
        have : q + 1 < (k + 1) * P := by omega
        simpa [Nat.succ_eq_add_one] using this
  by_cases hc : q * q + q < h * (P * P)
  · simp only [if_pos hc]
    exact hr (q + 1) (Or.inr ⟨rfl, hc⟩)
  · simp only [if_neg hc]
    exact hr q (Or.inl rfl)

/-! ## Distance -/

/-- The truncated distance is the floor of the real Euclidean distance. -/
theorem truncDist_eq_floor (i j cx cy : Int) :
    truncDist i j cx cy =
      ⌊Real.sqrt ((((cx - i) ^ 2 + (cy - j) ^ 2 : Int) : ℝ))⌋ := by
  have hnn : 0 ≤ (cx - i) * (cx - i) + (cy - j) * (cy - j) :=
    add_nonneg (mul_self_nonneg _) (mul_self_nonneg _)
  have h1 : ((cx - i) ^ 2 + (cy - j) ^ 2 : Int) =
      (((cx - i) * (cx - i) + (cy - j) * (cy - j)).toNat : Int) := by
    rw [Int.toNat_of_nonneg hnn]
    ring
  rw [h1, truncDist]
  have := @Real.floor_real_sqrt_eq_nat_sqrt ((cx - i) * (cx - i) + (cy - j) * (cy - j)).toNat
  rw [← this]
  norm_cast

theorem truncDist_le_iff (i j cx cy : Int) :
    truncDist i j cx cy ≤ 20 ↔ (cx - i) * (cx - i) + (cy - j) * (cy - j) < 441 := by
  have hnn : 0 ≤ (cx - i) * (cx - i) + (cy - j) * (cy - j) :=
    add_nonneg (mul_self_nonneg _) (mul_self_nonneg _)
  unfold truncDist
  have h1 : ((Nat.sqrt ((cx - i) * (cx - i) + (cy - j) * (cy - j)).toNat : Nat) : Int) ≤ 20 ↔
      Nat.sqrt ((cx - i) * (cx - i) + (cy - j) * (cy - j)).toNat < 21 := by omega
  rw [h1, Nat.sqrt_lt']
  omega

theorem wrapInt_eq (z : Int) (h1 : -2 ^ 63 ≤ z) (h2 : z < 2 ^ 63) : wrapInt z = z := by
  unfold wrapInt
  omega

theorem roundShift_le : ∀ (fuel h e : Nat), roundShift fuel h e ≤ e + fuel := by
  intro fuel
  induction fuel with
  | zero =>
    intro h e
    simp [roundShift]
  | succ k ih =>
    intro h e
    unfold roundShift
    split
    · omega
    · have := ih h (e + 1)
      omega

/-- An integer below `2^53` is converted to `float64` exactly. -/
theorem roundFloat64_small (h : Nat) (hh : h < 2 ^ 53) : roundFloat64 h = h := by
  have e0 : roundShift 11 h 0 = 0 := by
    unfold roundShift
    rw [if_pos (by simpa using hh)]
  unfold roundFloat64
  simp [e0, Nat.mod_one]

/-- The conversion to `float64` moves an integer by less than `2^11`. -/
theorem roundFloat64_bounds (h : Nat) :
    h ≤ roundFloat64 h + 2 ^ 11 ∧ roundFloat64 h ≤ h + 2 ^ 11 := by
  have he := roundShift_le 11 h 0
  unfold roundFloat64
  dsimp only
  generalize roundShift 11 h 0 = e at he
  have hP : 2 ^ e ≤ 2 ^ 11 := Nat.pow_le_pow_right (by norm_num) (by omega)
  have hpos : 0 < 2 ^ e := Nat.pos_of_ne_zero (by positivity)
  have hdm := Nat.div_add_mod h (2 ^ e)
  have hr := Nat.mod_lt h hpos
  generalize 2 ^ e = P at hP hpos hdm hr ⊢
  generalize h / P = q at hdm ⊢
  generalize h % P = r at hdm hr ⊢
  have e1 : (q + 1) * P = P * q + P := by ring
  have e2 : q * P = P * q := by ring
  split
  · rw [e1]
    constructor <;> omega
  · rw [e2]
    constructor <;> omega

/-- The truncated `float64` square root of an integer from 441 on is at
least 21. -/
theorem float64SqrtToInt_ge (n : Nat) (h1 : 441 ≤ n) (h2 : n < 2 ^ 106) :
    21 ≤ float64SqrtToInt n := by
  unfold float64SqrtToInt
  rw [if_neg (by omega)]
  dsimp only
  have hup := normShift_upper 52 n 0 (by simpa using h2)
  generalize normShift 52 n 0 = s at hup
  have h4 : 4 ^ s = 2 ^ s * 2 ^ s := by
    rw [← Nat.mul_pow]
  have hpos : 0 < 2 ^ s := Nat.pos_of_ne_zero (by positivity)
  rw [h4] at hup ⊢
  generalize 2 ^ s = P at hup hpos ⊢
  have hq := isqrt_eq_sqrt (n * (P * P)) (by
    have : (2 : Nat) ^ 106 < 2 ^ 128 := by norm_num
    omega)
  rw [hq]
  have hle : 21 * P ≤ Nat.sqrt (n * (P * P)) := by
    rw [Nat.le_sqrt]
    calc 21 * P * (21 * P) = 441 * (P * P) := by ring
      _ ≤ n * (P * P) := Nat.mul_le_mul_right _ h1
  rw [Nat.le_div_iff_mul_le hpos]
  split <;> omega


/-- The absolute value computed by `dist`, for a difference whose square is
below `2^63`. -/
theorem dist_abs_sq (d : Int) (hd : d * d < 2 ^ 63) :
    wrapInt ((if wrapInt d < 0 then wrapInt (-wrapInt d) else wrapInt d) *
      (if wrapInt d < 0 then wrapInt (-wrapInt d) else wrapInt d)) = d * d := by
  have hlt : d < 2 ^ 32 := by
    by_contra hc
    have : (2 : Int) ^ 32 * 2 ^ 32 ≤ d * d := by nlinarith
    norm_num at this hd
    omega
  have hgt : -2 ^ 32 < d := by
    by_contra hc
    have : (2 : Int) ^ 32 * 2 ^ 32 ≤ d * d := by nlinarith
    norm_num at this hd
    omega
  have hnn : 0 ≤ d * d := mul_self_nonneg d
  rw [wrapInt_eq d (by omega) (by omega), wrapInt_eq (-d) (by omega) (by omega)]
  have hsq : (if d < 0 then -d else d) * (if d < 0 then -d else d) = d * d := by
    split <;> ring
  rw [hsq]
  exact wrapInt_eq _ (by omega) (by omega)

/-- Where no `int` operation overflows, `dist` is the truncated `float64`
square root of the sum of the squares. -/
theorem dist_eq_sqrt (x1 y1 x2 y2 : Int)
    (h : (x2 - x1) * (x2 - x1) + (y2 - y1) * (y2 - y1) < 2 ^ 63) :
    dist x1 y1 x2 y2 =
      (float64SqrtToInt
        (roundFloat64 ((x2 - x1) * (x2 - x1) + (y2 - y1) * (y2 - y1)).toNat) : Int) := by
  have hxn : 0 ≤ (x2 - x1) * (x2 - x1) := mul_self_nonneg _
  have hyn : 0 ≤ (y2 - y1) * (y2 - y1) := mul_self_nonneg _
  unfold dist
  simp only [dist_abs_sq (x2 - x1) (by omega), dist_abs_sq (y2 - y1) (by omega)]
  rw [wrapInt_eq _ (by omega) (by omega)]
  rw [if_neg (by omega)]

/-- Where no overflow or rounding occurs, `dist` is the truncated distance. -/
theorem dist_eq_truncDist (x1 y1 x2 y2 : Int)
    (h : (x2 - x1) * (x2 - x1) + (y2 - y1) * (y2 - y1) < 2 ^ 52) :
    dist x1 y1 x2 y2 = truncDist x1 y1 x2 y2 := by
  have hnn : 0 ≤ (x2 - x1) * (x2 - x1) + (y2 - y1) * (y2 - y1) :=
    add_nonneg (mul_self_nonneg _) (mul_self_nonneg _)
  have e : ((2 : Nat) ^ 52 : Int) = 2 ^ 52 := by norm_num
  rw [dist_eq_sqrt x1 y1 x2 y2 (by omega)]
  unfold truncDist
  rw [roundFloat64_small _ (by omega), float64SqrtToInt_eq_sqrt _ (by omega)]

/-- Where no `int` operation overflows, the test `dist ≤ 20` holds exactly
when the sum of the squares is below `21 * 21`. -/
theorem dist_le_iff (x1 y1 x2 y2 : Int)
    (h : (x2 - x1) * (x2 - x1) + (y2 - y1) * (y2 - y1) < 2 ^ 63) :
    dist x1 y1 x2 y2 ≤ 20 ↔ (x2 - x1) * (x2 - x1) + (y2 - y1) * (y2 - y1) < 441 := by
  have hnn : 0 ≤ (x2 - x1) * (x2 - x1) + (y2 - y1) * (y2 - y1) :=
    add_nonneg (mul_self_nonneg _) (mul_self_nonneg _)
  by_cases hs : (x2 - x1) * (x2 - x1) + (y2 - y1) * (y2 - y1) < 2 ^ 52
  · rw [dist_eq_truncDist x1 y1 x2 y2 hs]
    exact truncDist_le_iff x1 y1 x2 y2
  · rw [dist_eq_sqrt x1 y1 x2 y2 h]
    generalize hS : (x2 - x1) * (x2 - x1) + (y2 - y1) * (y2 - y1) = S at h hs hnn ⊢
    obtain ⟨hb1, hb2⟩ := roundFloat64_bounds S.toNat
    have hge := float64SqrtToInt_ge (roundFloat64 S.toNat) (by omega) (by omega)
    constructor
    · intro hle
      omega
    · intro hlt
      omega

/-- In the convex range `0 ≤ i ≤ 761` the square `(c - i)²` is largest at an
end. -/
theorem sq_le_corner (c i : Int) (h0 : 0 ≤ i) (h1 : i ≤ 761) :
    (c - i) * (c - i) ≤ max (c * c) ((c - 761) * (c - 761)) := by
  by_cases hc : i ≤ 2 * c
  · apply le_max_of_le_left
    nlinarith
  · apply le_max_of_le_right
    nlinarith

/-- For a move without overflow the sum of the squares stays below `2^63` at
every pixel of the frame. -/
theorem noOverflow_sum (m : move) (hm : m.NoOverflow) (i j : Int) (hij : InFrame i j) :
    (20 + 40 * m.x - i) * (20 + 40 * m.x - i) + (20 + 40 * m.y - j) * (20 + 40 * m.y - j) <
      2 ^ 63 := by
  rw [inFrame_iff] at hij
  have hx := sq_le_corner (20 + 40 * m.x) i (by omega) (by omega)
  have hy := sq_le_corner (20 + 40 * m.y) j (by omega) (by omega)
  unfold move.NoOverflow at hm
  omega

/-- For a move without overflow `drawMove` computes the centre
`(20 + 40 x, 20 + 40 y)`. -/
theorem centre_exact (m : move) (hm : m.NoOverflow) :
    m.cx = 20 + 40 * m.x ∧ m.cy = 20 + 40 * m.y := by
  have h20 : stoneDiameter / 2 = 20 := by decide
  have h40 : stoneDiameter = 40 := rfl
  have hs := noOverflow_sum m hm 0 0 (by decide)
  have hxn : 0 ≤ (20 + 40 * m.x - 0) * (20 + 40 * m.x - 0) := mul_self_nonneg _
  have hyn : 0 ≤ (20 + 40 * m.y - 0) * (20 + 40 * m.y - 0) := mul_self_nonneg _
  have hb : ∀ z : Int, z * z < 2 ^ 63 → -2 ^ 32 < z ∧ z < 2 ^ 32 := by
    intro z hz
    constructor
    · by_contra hc
      have : (2 : Int) ^ 32 * 2 ^ 32 ≤ z * z := by nlinarith
      norm_num at this hz
      omega
    · by_contra hc
      have : (2 : Int) ^ 32 * 2 ^ 32 ≤ z * z := by nlinarith
      norm_num at this hz
      omega
  obtain ⟨h1, h2⟩ := hb (20 + 40 * m.x - 0) (by omega)
  obtain ⟨h3, h4⟩ := hb (20 + 40 * m.y - 0) (by omega)
  unfold move.cx move.cy
  rw [h20, h40, wrapInt_eq (m.x * 40) (by omega) (by omega),
    wrapInt_eq (m.y * 40) (by omega) (by omega),
    wrapInt_eq (20 + m.x * 40) (by omega) (by omega),
    wrapInt_eq (20 + m.y * 40) (by omega) (by omega)]
  constructor <;> ring

/-- Coordinates of absolute value at most 53687072 cause no overflow. -/
theorem noOverflow_of_le (m : move) (h1 : -53687072 ≤ m.x) (h2 : m.x ≤ 53687072)
    (h3 : -53687072 ≤ m.y) (h4 : m.y ≤ 53687072) : m.NoOverflow := by
  have hb : ∀ z : Int, -2147483647 ≤ z → z ≤ 2147483647 →
      z * z ≤ 2147483647 * 2147483647 := by
    intro z hz1 hz2
    nlinarith
  have hx := max_le (hb (20 + 40 * m.x) (by omega) (by omega))
    (hb (20 + 40 * m.x - 761) (by omega) (by omega))
  have hy := max_le (hb (20 + 40 * m.y) (by omega) (by omega))
    (hb (20 + 40 * m.y - 761) (by omega) (by omega))
  unfold move.NoOverflow
  have : (2147483647 : Int) * 2147483647 + 2147483647 * 2147483647 < 2 ^ 63 := by norm_num
  omega

theorem small_noOverflow (m : move) (hm : m.Small) : m.NoOverflow := by
  obtain ⟨h1, h2, h3, h4⟩ := hm
  exact noOverflow_of_le m (by omega) (by omega) (by omega) (by omega)

theorem centre_small (m : move) (hm : m.Small) :
    m.cx = 20 + 40 * m.x ∧ m.cy = 20 + 40 * m.y :=
  centre_exact m (small_noOverflow m hm)

/-- For a pixel of the frame and a move without overflow, the test of
`drawMove` is membership in the disc. -/
theorem dist_le_iff_inDisc_exact (m : move) (hm : m.NoOverflow) (i j : Int)
    (hij : InFrame i j) :
    dist i j m.cx m.cy ≤ stoneDiameter / 2 ↔ InDisc m i j := by
  have h20 : stoneDiameter / 2 = 20 := by decide
  rw [h20, (centre_exact m hm).1, (centre_exact m hm).2]
  unfold InDisc
  rw [dist_le_iff _ _ _ _ (noOverflow_sum m hm i j hij), truncDist_le_iff]

theorem dist_le_iff_inDisc (m : move) (hm : m.Small) (i j : Int) (hij : InFrame i j) :
    dist i j m.cx m.cy ≤ stoneDiameter / 2 ↔ InDisc m i j :=
  dist_le_iff_inDisc_exact m (small_noOverflow m hm) i j hij

/-! ## Drawing a stone -/

theorem side_nonneg : (0 : Int) ≤ side := by decide

theorem drawMove_ok (f : Paletted) (m : move) (hf : IsFrame f) :
    ∃ f1, drawMove f m = .ok f1 ∧ IsFrame f1 ∧
      ∀ i j, InFrame i j →
        (dist i j m.cx m.cy ≤ stoneDiameter / 2 → f1.ColorIndexAt i j = .ok m.colour) ∧
        (¬ dist i j m.cx m.cy ≤ stoneDiameter / 2 →
          f1.ColorIndexAt i j = f.ColorIndexAt i j) := by
  obtain ⟨f1, h1, hF, hA, hB⟩ := raster_loop
    (fun i j img =>
      if dist i j m.cx m.cy ≤ stoneDiameter / 2 then
        img.SetColorIndex i j (if m.white then white else black)
      else .ok img)
    0 side 0 side side_nonneg side_nonneg
    (fun i j => dist i j m.cx m.cy ≤ stoneDiameter / 2)
    (fun i _ => i) (fun _ j => j) (fun _ _ => if m.white then white else black)
    (fun i j q _ _ _ _ _ => rfl)
    (fun i j i1 j1 _ _ _ _ _ _ _ _ hx hy => ⟨hx, hy⟩)
    f hf
  refine ⟨f1, h1, hF, ?_⟩
  intro i j hij
  have hij1 := hij
  obtain ⟨hi0, hi1, hj0, hj1⟩ := hij1
  constructor
  · intro hd
    have := hA i j hi0 hi1 hj0 hj1 hd hij
    simpa [move.colour, white, black] using this
  · intro hd
    apply hB i j hij
    rintro i1 j1 _ _ _ _ hc ⟨rfl, rfl⟩
    exact hd hc

/-- For a move without overflow, `drawMove` paints the disc of the move. -/
theorem drawMove_exact (f : Paletted) (m : move) (hf : IsFrame f) (hm : m.NoOverflow) :
    ∃ f1, drawMove f m = .ok f1 ∧ IsFrame f1 ∧
      ∀ i j, InFrame i j →
        (InDisc m i j → f1.ColorIndexAt i j = .ok m.colour) ∧
        (¬ InDisc m i j → f1.ColorIndexAt i j = f.ColorIndexAt i j) := by
  obtain ⟨f1, h1, hF, hpix⟩ := drawMove_ok f m hf
  refine ⟨f1, h1, hF, ?_⟩
  intro i j hij
  have hiff := dist_le_iff_inDisc_exact m hm i j hij
  exact ⟨fun hd => (hpix i j hij).1 (hiff.mpr hd),
    fun hd => (hpix i j hij).2 (fun hc => hd (hiff.mp hc))⟩

theorem drawMove_spec (f : Paletted) (m : move) (hf : IsFrame f) (hm : m.Small) :
    ∃ f1, drawMove f m = .ok f1 ∧ IsFrame f1 ∧
      ∀ i j, InFrame i j →
        (InDisc m i j → f1.ColorIndexAt i j = .ok m.colour) ∧
        (¬ InDisc m i j → f1.ColorIndexAt i j = f.ColorIndexAt i j) :=
  drawMove_exact f m hf (small_noOverflow m hm)

theorem onGrid_iff (px py : Int) :
    OnGrid px py ↔
      (∃ i : Int, 0 ≤ i ∧ i < 19 ∧ px = 40 * i + 20 ∧ 20 ≤ py ∧ py < 742) ∨
        (∃ i : Int, 0 ≤ i ∧ i < 19 ∧ py = 40 * i + 20 ∧ 20 ≤ px ∧ px < 742) := by
  unfold OnGrid
  constructor
  · rintro (⟨h1, h2, h3, h4, h5⟩ | ⟨h1, h2, h3, h4, h5⟩)
    · exact Or.inl ⟨(px - 20) / 40, by omega, by omega, by omega, h4, h5⟩
    · exact Or.inr ⟨(py - 20) / 40, by omega, by omega, by omega, h4, h5⟩
  · rintro (⟨i, h1, h2, h3, h4, h5⟩ | ⟨i, h1, h2, h3, h4, h5⟩)
    · exact Or.inl ⟨by omega, by omega, by omega, h4, h5⟩
    · exact Or.inr ⟨by omega, by omega, by omega, h4, h5⟩

theorem fillBackground_spec (p : Paletted) (hp : IsFrame p) :
    ∃ b, fillBackground p = .ok b ∧ IsFrame b ∧
      ∀ i j, InFrame i j → b.ColorIndexAt i j = .ok 0 := by
  obtain ⟨b, h1, hF, hA, _⟩ := raster_loop
    (fun i j img => img.SetColorIndex i j background)
    0 side 0 side side_nonneg side_nonneg
    (fun _ _ => True) (fun i _ => i) (fun _ j => j) (fun _ _ => background)
    (fun i j q _ _ _ _ _ => by simp)
    (fun i j i1 j1 _ _ _ _ _ _ _ _ hx hy => ⟨hx, hy⟩)
    p hp
  refine ⟨b, h1, hF, ?_⟩
  intro i j hij
  obtain ⟨hi0, hi1, hj0, hj1⟩ := id hij
  exact hA i j hi0 hi1 hj0 hj1 trivial hij

theorem verticalLines_spec (p : Paletted) (hp : IsFrame p) :
    ∃ b, verticalLines p = .ok b ∧ IsFrame b ∧
      ∀ u v, InFrame u v →
        ((∃ i : Int, 0 ≤ i ∧ i < 19 ∧ u = 40 * i + 20 ∧ 20 ≤ v ∧ v < 742) →
          b.ColorIndexAt u v = .ok 1) ∧
        ((¬ ∃ i : Int, 0 ≤ i ∧ i < 19 ∧ u = 40 * i + 20 ∧ 20 ≤ v ∧ v < 742) →
          b.ColorIndexAt u v = p.ColorIndexAt u v) := by
  have hrun : verticalLines p = forLoop 0 19 (fun i img =>
      forLoop 20 742 (fun j img => img.SetColorIndex (i * 40 + 20) j 1) img) p := rfl
  obtain ⟨b, h1, hF, hA, hB⟩ := raster_loop
    (fun i j img => img.SetColorIndex (i * 40 + 20) j 1)
    0 19 20 742 (by decide) (by decide)
    (fun _ _ => True) (fun i _ => i * 40 + 20) (fun _ j => j) (fun _ _ => 1)
    (fun i j q _ _ _ _ _ => by simp)
    (fun i j i1 j1 _ _ _ _ _ _ _ _ hx hy => ⟨by dsimp only at hx; omega, hy⟩)
    p hp
  refine ⟨b, hrun.trans h1, hF, ?_⟩
  intro u v huv
  constructor
  · rintro ⟨i, hi0, hi1, rfl, hv0, hv1⟩
    have := hA i v hi0 hi1 hv0 hv1 trivial (by
      have e : i * 40 + 20 = 40 * i + 20 := by ring
      rw [e]
      exact huv)
    have e : i * 40 + 20 = 40 * i + 20 := by ring
    rw [e] at this
    exact this
  · intro hno
    apply hB u v huv
    rintro i j hi0 hi1 hj0 hj1 _ ⟨rfl, rfl⟩
    exact hno ⟨i, hi0, hi1, by ring, hj0, hj1⟩

theorem horizontalLines_spec (p : Paletted) (hp : IsFrame p) :
    ∃ b, horizontalLines p = .ok b ∧ IsFrame b ∧
      ∀ u v, InFrame u v →
        ((∃ i : Int, 0 ≤ i ∧ i < 19 ∧ v = 40 * i + 20 ∧ 20 ≤ u ∧ u < 742) →
          b.ColorIndexAt u v = .ok 1) ∧
        ((¬ ∃ i : Int, 0 ≤ i ∧ i < 19 ∧ v = 40 * i + 20 ∧ 20 ≤ u ∧ u < 742) →
          b.ColorIndexAt u v = p.ColorIndexAt u v) := by
  have hrun : horizontalLines p = forLoop 0 19 (fun i img =>
      forLoop 20 742 (fun j img => img.SetColorIndex j (i * 40 + 20) 1) img) p := rfl
  obtain ⟨b, h1, hF, hA, hB⟩ := raster_loop
    (fun i j img => img.SetColorIndex j (i * 40 + 20) 1)
    0 19 20 742 (by decide) (by decide)
    (fun _ _ => True) (fun _ j => j) (fun i _ => i * 40 + 20) (fun _ _ => 1)
    (fun i j q _ _ _ _ _ => by simp)
    (fun i j i1 j1 _ _ _ _ _ _ _ _ hx hy => ⟨by dsimp only at hy; omega, hx⟩)
    p hp
  refine ⟨b, hrun.trans h1, hF, ?_⟩
  intro u v huv
  constructor
  · rintro ⟨i, hi0, hi1, rfl, hu0, hu1⟩
    have := hA i u hi0 hi1 hu0 hu1 trivial (by
      have e : i * 40 + 20 = 40 * i + 20 := by ring
      rw [e]
      exact huv)
    have e : i * 40 + 20 = 40 * i + 20 := by ring
    rw [e] at this
    exact this
  · intro hno
    apply hB u v huv
    rintro i j hi0 hi1 hj0 hj1 _ ⟨rfl, rfl⟩
    exact hno ⟨i, hi0, hi1, by ring, hj0, hj1⟩

theorem drawBoard_spec (p : Paletted) (hp : IsFrame p) :
    ∃ b, drawBoard p = .ok b ∧ IsFrame b ∧
      ∀ i j, InFrame i j →
        b.ColorIndexAt i j = .ok (if OnGrid i j then black else background) := by
  obtain ⟨b1, h1, hF1, hp1⟩ := fillBackground_spec p hp
  obtain ⟨b2, h2, hF2, hp2⟩ := verticalLines_spec b1 hF1
  obtain ⟨b3, h3, hF3, hp3⟩ := horizontalLines_spec b2 hF2
  refine ⟨b3, by simp [drawBoard, h1, h2, h3], hF3, ?_⟩
  intro i j hij
  by_cases hh : ∃ k : Int, 0 ≤ k ∧ k < 19 ∧ j = 40 * k + 20 ∧ 20 ≤ i ∧ i < 742
  · rw [(hp3 i j hij).1 hh, if_pos ((onGrid_iff i j).mpr (Or.inr hh))]
    rfl
  · rw [(hp3 i j hij).2 hh]
    by_cases hv : ∃ k : Int, 0 ≤ k ∧ k < 19 ∧ i = 40 * k + 20 ∧ 20 ≤ j ∧ j < 742
    · rw [(hp2 i j hij).1 hv, if_pos ((onGrid_iff i j).mpr (Or.inl hv))]
      rfl
    · rw [(hp2 i j hij).2 hv, hp1 i j hij, if_neg]
      · rfl
      · intro hg
        rcases (onGrid_iff i j).mp hg with h | h
        · exact hv h
        · exact hh h

theorem copyFrame_spec (h : Heap) (o : Ptr) (old p : Paletted) (ho : h[o]? = some old)
    (hold : IsFrame old) (hp : IsFrame p) : copyFrame h o p = .ok old := by
  obtain ⟨b, h1, hF, hA, _⟩ := raster_loop
    (fun i j img =>
      match h.ColorIndexAt o i j with
      | .error e => .error e
      | .ok c => img.SetColorIndex i j c)
    0 side 0 side side_nonneg side_nonneg
    (fun _ _ => True) (fun i _ => i) (fun _ j => j)
    (fun i j => old.Pix.getD (j * 762 + i).toNat 0)
    (fun i j q hi0 hi1 hj0 hj1 _ => by
      have : h.ColorIndexAt o i j = .ok (old.Pix.getD (j * 762 + i).toNat 0) := by
        simp only [Heap.ColorIndexAt, ho]
        exact colorIndexAt_frame old hold i j ⟨hi0, hi1, hj0, hj1⟩
      simp [this])
    (fun i j i1 j1 _ _ _ _ _ _ _ _ hx hy => ⟨hx, hy⟩)
    p hp
  have hb : b = old := by
    apply frame_ext b old hF hold
    intro i j hij
    obtain ⟨hi0, hi1, hj0, hj1⟩ := id hij
    rw [hA i j hi0 hi1 hj0 hj1 trivial hij, colorIndexAt_frame old hold i j hij]
  rw [← hb]
  exact h1

/-- C8: the board `newFrame` builds before drawing the first stone is a frame
in which a pixel holds Black exactly when it lies on column `40 i + 20` between
rows 20 and 741 or on row `40 i + 20` between columns 20 and 741 for some
`0 ≤ i < 19`, and holds Background otherwise; no pixel holds White. -/
theorem emptyBoard_pixels (h : Heap) :
    ∃ b, frameBeforeMove none h = .ok b ∧ IsFrame b ∧
      ∀ px py : Int, 0 ≤ px ∧ px < 762 ∧ 0 ≤ py ∧ py < 762 →
        (b.ColorIndexAt px py = .ok black ↔
          ((∃ i : Int, 0 ≤ i ∧ i < 19 ∧ px = 40 * i + 20 ∧ 20 ≤ py ∧ py < 742) ∨
            (∃ i : Int, 0 ≤ i ∧ i < 19 ∧ py = 40 * i + 20 ∧ 20 ≤ px ∧ px < 742))) ∧
        (b.ColorIndexAt px py = .ok black ∨ b.ColorIndexAt px py = .ok background) ∧
        b.ColorIndexAt px py ≠ .ok white := by
  obtain ⟨b, hb, hF, hpix⟩ := drawBoard_spec _ isFrame_new
  refine ⟨b, hb, hF, ?_⟩
  intro px py hxy
  have hv := hpix px py ((inFrame_iff px py).mpr hxy)
  rw [← onGrid_iff]
  by_cases hg : OnGrid px py
  · rw [if_pos hg] at hv
    rw [hv]
    simp [hg, black, white]
  · rw [if_neg hg] at hv
    rw [hv]
    simp [hg, black, white, background]

/-! ## Building the frames -/

theorem frameBeforeMove_none (h : Heap) :
    ∃ b, frameBeforeMove none h = .ok b ∧ emptyBoard = .ok b ∧ IsFrame b := by
  obtain ⟨b, hb, hF, _⟩ := drawBoard_spec _ isFrame_new
  exact ⟨b, hb, hb, hF⟩

theorem frameBeforeMove_some (h : Heap) (o : Ptr) (old : Paletted) (ho : h[o]? = some old)
    (hold : IsFrame old) : frameBeforeMove (some o) h = .ok old :=
  copyFrame_spec h o old _ ho hold isFrame_new

theorem newFrame_spec (m : move) (old : Option Ptr) (h : Heap) (start : Paletted)
    (hstart : frameBeforeMove old h = .ok start) (hF : IsFrame start) :
    ∃ f, drawMove start m = .ok f ∧ IsFrame f ∧
      newFrame m old h = .ok (h.length, h ++ [f]) := by
  obtain ⟨f, hf, hFf, _⟩ := drawMove_ok start m hF
  exact ⟨f, hf, hFf, by simp [newFrame, hstart, hf]⟩

theorem drawMoves_cons_ok (m : move) (ms : List move) (img img1 : Paletted)
    (h : drawMove img m = .ok img1) : drawMoves (m :: ms) img = drawMoves ms img1 := by
  have e : drawMoves (m :: ms) img =
      (match drawMove img m with
        | .error e => .error e
        | .ok img1 => drawMoves ms img1) := rfl
  rw [e, h]

theorem movesToFramesLoop_cons_ok (m : move) (ms : List move) (frame : Option Ptr)
    (ret : List Ptr) (h h1 : Heap) (f : Ptr) (hn : newFrame m frame h = .ok (f, h1)) :
    movesToFramesLoop (m :: ms) frame ret h = movesToFramesLoop ms (some f) (ret ++ [f]) h1 := by
  have e : movesToFramesLoop (m :: ms) frame ret h =
      (match newFrame m frame h with
        | .error e => .error e
        | .ok (f, h1) => movesToFramesLoop ms (some f) (ret ++ [f]) h1) := rfl
  rw [e, hn]

theorem boardWith_eq (b : Paletted) (he : emptyBoard = .ok b) (ms : List move) :
    boardWith ms = drawMoves ms b := by
  unfold boardWith
  rw [he]
  rfl

theorem movesToFramesLoop_spec : ∀ (ms : List move) (frame : Option Ptr) (ret : List Ptr)
    (h : Heap) (start : Paletted),
    frameBeforeMove frame h = .ok start → IsFrame start →
    ∃ fs : List Paletted,
      movesToFramesLoop ms frame ret h =
        .ok (ret ++ List.range' h.length ms.length, h ++ fs) ∧
      fs.length = ms.length ∧
      ∀ k f, fs[k]? = some f → drawMoves (ms.take (k + 1)) start = .ok f ∧ IsFrame f := by
  intro ms
  induction ms with
  | nil =>
    intro frame ret h start _ _
    exact ⟨[], by simp [movesToFramesLoop], rfl, by simp⟩
  | cons m ms ih =>
    intro frame ret h start hstart hF
    obtain ⟨f1, hd, hF1, hnew⟩ := newFrame_spec m frame h start hstart hF
    have hcell : (h ++ [f1])[h.length]? = some f1 := by simp
    obtain ⟨fs, hloop, hlen, hfs⟩ := ih (some h.length) (ret ++ [h.length]) (h ++ [f1]) f1
      (frameBeforeMove_some _ _ f1 hcell hF1) hF1
    refine ⟨f1 :: fs, ?_, by simp [hlen], ?_⟩
    · rw [movesToFramesLoop_cons_ok m ms frame ret h _ _ hnew, hloop]
      simp [List.range'_succ]
    · intro k f hk
      cases k with
      | zero =>
        simp only [List.getElem?_cons_zero, Option.some.injEq] at hk
        subst hk
        refine ⟨?_, hF1⟩
        rw [List.take_succ_cons, List.take_zero, drawMoves_cons_ok m [] start _ hd]
        rfl
      | succ k =>
        simp only [List.getElem?_cons_succ] at hk
        obtain ⟨h1, h2⟩ := hfs k f hk
        refine ⟨?_, h2⟩
        rw [List.take_succ_cons, drawMoves_cons_ok m _ start _ hd]
        exact h1

theorem movesToFrames_spec (ms : List move) (h : Heap) :
    ∃ (b : Paletted) (fs : List Paletted),
      emptyBoard = .ok b ∧ IsFrame b ∧
      movesToFrames ms h = .ok (List.range' h.length ms.length, h ++ fs) ∧
      fs.length = ms.length ∧
      ∀ k f, fs[k]? = some f → drawMoves (ms.take (k + 1)) b = .ok f ∧ IsFrame f := by
  obtain ⟨b, hb, he, hF⟩ := frameBeforeMove_none h
  obtain ⟨fs, hloop, hlen, hfs⟩ := movesToFramesLoop_spec ms none [] h b hb hF
  exact ⟨b, fs, he, hF, by simpa [movesToFrames] using hloop, hlen, hfs⟩

/-- C5: `movesToFrames` succeeds and returns one frame per move, in move
order; frame `k` is the empty board with the stones of moves `0 .. k` drawn on
it in that order by `drawMove`.  The frames are new heap cells, the `k`-th
pointer returned being the `k`-th cell allocated. -/
theorem movesToFrames_running_fold (ms : List move) (h : Heap) :
    ∃ (ptrs : List Ptr) (h1 : Heap),
      movesToFrames ms h = .ok (ptrs, h1) ∧ ptrs.length = ms.length ∧
      ∀ k, k < ms.length →
        ∃ (p : Ptr) (f : Paletted), ptrs[k]? = some p ∧ h1[p]? = some f ∧
          boardWith (ms.take (k + 1)) = .ok f := by
  obtain ⟨b, fs, he, _, hrun, hlen, hfs⟩ := movesToFrames_spec ms h
  refine ⟨_, _, hrun, by simp, ?_⟩
  intro k hk
  have hk1 : k < fs.length := by omega
  refine ⟨h.length + k, fs[k], ?_, ?_, ?_⟩
  · simp [List.getElem?_range', hk]
  · rw [List.getElem?_append_right (by omega)]
    simp [hk1]
  · have := (hfs k fs[k] (by simp [hk1])).1
    rw [boardWith_eq b he]
    exact this

/-! ## One frame from the previous one -/

theorem drawMoves_snoc : ∀ (l : List move) (m : move) (img : Paletted),
    drawMoves (l ++ [m]) img = (drawMoves l img).bind (fun f => drawMove f m) := by
  intro l
  induction l with
  | nil =>
    intro m img
    have e : drawMoves ([] ++ [m]) img =
        (match drawMove img m with
          | .error e => .error e
          | .ok img1 => drawMoves [] img1) := rfl
    have e0 : (drawMoves [] img).bind (fun f => drawMove f m) = drawMove img m := rfl
    rw [e, e0]
    generalize drawMove img m = r
    cases r <;> rfl
  | cons a l ih =>
    intro m img
    have e1 : drawMoves (a :: l ++ [m]) img =
        (match drawMove img a with
          | .error e => .error e
          | .ok img1 => drawMoves (l ++ [m]) img1) := rfl
    have e2 : drawMoves (a :: l) img =
        (match drawMove img a with
          | .error e => .error e
          | .ok img1 => drawMoves l img1) := rfl
    rw [e1, e2]
    generalize drawMove img a = r
    cases r with
    | error e => rfl
    | ok img1 => exact ih m img1

/-- Frame `N ≥ 1` of `movesToFrames` is `newFrame` of move `N` and frame
`N - 1`: the stone of move `N` drawn on a copy of frame `N - 1`, whose cell
holds the same image before the call, after the call and at the end of the
run. -/
theorem movesToFrames_step (ms : List move) (h : Heap)
    (N : Nat) (hN : 1 ≤ N) (hlt : N < ms.length) :
    ∃ (ptrs ptrsN : List Ptr) (h1 hN1 : Heap) (pPrev pN : Ptr) (prev cur : Paletted)
      (mN : move) (b : Paletted),
      movesToFrames ms h = .ok (ptrs, h1) ∧ ms[N]? = some mN ∧
      ptrs[N - 1]? = some pPrev ∧ ptrs[N]? = some pN ∧
      movesToFrames (ms.take N) h = .ok (ptrsN, hN1) ∧ ptrsN[N - 1]? = some pPrev ∧
      hN1[pPrev]? = some prev ∧
      newFrame mN (some pPrev) hN1 = .ok (pN, hN1 ++ [cur]) ∧
      (hN1 ++ [cur])[pPrev]? = some prev ∧ (hN1 ++ [cur])[pN]? = some cur ∧
      h1[pPrev]? = some prev ∧ h1[pN]? = some cur ∧
      emptyBoard = .ok b ∧ IsFrame b ∧ drawMoves (ms.take N) b = .ok prev ∧
      IsFrame prev ∧ drawMove prev mN = .ok cur := by
  obtain ⟨b, fs, he, hFb, hrun, hlen, hfs⟩ := movesToFrames_spec ms h
  obtain ⟨b2, fsN, he2, _, hrunN, hlenN, hfsN⟩ := movesToFrames_spec (ms.take N) h
  have hb : b2 = b := by
    rw [he] at he2
    exact (Except.ok.inj he2).symm
  subst hb
  have hlenN1 : fsN.length = N := by
    rw [hlenN, List.length_take]
    omega
  have hN1lt : N - 1 < fs.length := by omega
  have hNlt : N < fs.length := by omega
  -- the frames of the run on the first `N` moves are the first `N` frames
  have hprev : fsN[N - 1]? = some fs[N - 1] := by
    have hk : N - 1 < fsN.length := by omega
    have h1 := (hfsN (N - 1) fsN[N - 1] (List.getElem?_eq_getElem hk)).1
    have h2 := (hfs (N - 1) fs[N - 1] (List.getElem?_eq_getElem hN1lt)).1
    rw [List.take_take, min_eq_left (by omega)] at h1
    rw [h1] at h2
    rw [List.getElem?_eq_getElem hk, Except.ok.inj h2]
  have hFprev := (hfs (N - 1) fs[N - 1] (List.getElem?_eq_getElem hN1lt)).2
  have hdprev := (hfs (N - 1) fs[N - 1] (List.getElem?_eq_getElem hN1lt)).1
  have hdcur := (hfs N fs[N] (List.getElem?_eq_getElem hNlt)).1
  have hNeq : N - 1 + 1 = N := by omega
  rw [hNeq] at hdprev
  have hmN : ms[N]? = some ms[N] := List.getElem?_eq_getElem hlt
  -- frame `N` is the stone of move `N` drawn on frame `N - 1`
  have hstep : drawMove fs[N - 1] ms[N] = .ok fs[N] := by
    rw [List.take_succ, hmN] at hdcur
    simp only [Option.toList] at hdcur
    rw [drawMoves_snoc, hdprev] at hdcur
    exact hdcur
  have hcell : (h ++ fsN)[h.length + (N - 1)]? = some fs[N - 1] := by
    rw [List.getElem?_append_right (by omega)]
    simpa using hprev
  obtain ⟨f, hdf, _, hnew⟩ := newFrame_spec ms[N] (some (h.length + (N - 1))) (h ++ fsN)
    fs[N - 1] (frameBeforeMove_some _ _ _ hcell hFprev) hFprev
  have hf : f = fs[N] := by
    rw [hstep] at hdf
    exact (Except.ok.inj hdf).symm
  subst hf
  have hlenhN : (h ++ fsN).length = h.length + N := by simp [hlenN1]
  rw [hlenhN] at hnew
  refine ⟨_, _, _, _, h.length + (N - 1), h.length + N, fs[N - 1], fs[N], ms[N], b2,
    hrun, hmN, ?_, ?_, hrunN, ?_, hcell, hnew, ?_, ?_, ?_, ?_, he, hFb, hdprev, hFprev, hstep⟩
  · rw [List.getElem?_range' _ _ (by omega)]
    simp
  · rw [List.getElem?_range' _ _ hlt]
    simp
  · rw [List.getElem?_range' _ _ (by rw [List.length_take]; omega)]
    simp
  · rw [List.getElem?_append_left (by omega)]
    exact hcell
  · rw [List.getElem?_append_right (by omega)]
    simp [hlenhN]
  · rw [List.getElem?_append_right (by omega)]
    simp [hN1lt]
  · rw [List.getElem?_append_right (by omega)]
    simp [hNlt]

/-- C7 (amended): for `N ≥ 1`, frame `N` of `movesToFrames` is `newFrame` of
move `N` and frame `N - 1`; it equals frame `N - 1` at every pixel that the
test of `drawMove` for move `N` rejects, which for a move `N` without `int`
overflow is every pixel outside the disc of move `N`; and the cell of frame
`N - 1` holds the same image before the call, after the call and at the end of
the run. -/
theorem newFrame_locality (ms : List move) (h : Heap)
    (N : Nat) (hN : 1 ≤ N) (hlt : N < ms.length) :
    ∃ (ptrs ptrsN : List Ptr) (h1 hN1 : Heap) (pPrev pN : Ptr) (prev cur : Paletted)
      (mN : move),
      movesToFrames ms h = .ok (ptrs, h1) ∧ ms[N]? = some mN ∧
      ptrs[N - 1]? = some pPrev ∧ ptrs[N]? = some pN ∧
      movesToFrames (ms.take N) h = .ok (ptrsN, hN1) ∧ ptrsN[N - 1]? = some pPrev ∧
      hN1[pPrev]? = some prev ∧
      newFrame mN (some pPrev) hN1 = .ok (pN, hN1 ++ [cur]) ∧
      (hN1 ++ [cur])[pPrev]? = some prev ∧ (hN1 ++ [cur])[pN]? = some cur ∧
      h1[pPrev]? = some prev ∧ h1[pN]? = some cur ∧
      (∀ i j, 0 ≤ i ∧ i < 762 ∧ 0 ≤ j ∧ j < 762 →
        ¬ dist i j mN.cx mN.cy ≤ stoneDiameter / 2 →
        cur.ColorIndexAt i j = prev.ColorIndexAt i j) ∧
      (mN.NoOverflow →
        ∀ i j, 0 ≤ i ∧ i < 762 ∧ 0 ≤ j ∧ j < 762 →
          ¬ truncDist i j (20 + 40 * mN.x) (20 + 40 * mN.y) ≤ 20 →
          cur.ColorIndexAt i j = prev.ColorIndexAt i j) := by
  obtain ⟨ptrs, ptrsN, h1, hN1, pPrev, pN, prev, cur, mN, b, f1, f2, f3, f4, f5, f6, f7, f8,
    f9, f10, f11, f12, _, _, _, hFprev, hstep⟩ := movesToFrames_step ms h N hN hlt
  refine ⟨ptrs, ptrsN, h1, hN1, pPrev, pN, prev, cur, mN, f1, f2, f3, f4, f5, f6, f7, f8,
    f9, f10, f11, f12, ?_, ?_⟩
  · obtain ⟨g, hg, _, hpix⟩ := drawMove_ok prev mN hFprev
    have hgc : g = cur := by
      rw [hstep] at hg
      exact (Except.ok.inj hg).symm
    subst hgc
    intro i j hij hout
    exact (hpix i j ((inFrame_iff i j).mpr hij)).2 hout
  · intro hm
    obtain ⟨g, hg, _, hpix⟩ := drawMove_exact prev mN hFprev hm
    have hgc : g = cur := by
      rw [hstep] at hg
      exact (Except.ok.inj hg).symm
    subst hgc
    intro i j hij hout
    exact (hpix i j ((inFrame_iff i j).mpr hij)).2 hout

/-- Witness of C7 (amended): the second frame of a run on two moves, the
second of which causes no overflow. -/
theorem newFrame_locality_witness :
    ∃ (ptrs ptrsN : List Ptr) (h1 hN1 : Heap) (pPrev pN : Ptr) (prev cur : Paletted)
      (mN : move),
      movesToFrames [{ white := false, x := 3, y := 3 }, { white := true, x := 15, y := 15 }] []
        = .ok (ptrs, h1) ∧
      [({ white := false, x := 3, y := 3 } : move), { white := true, x := 15, y := 15 }][1]?
        = some mN ∧
      ptrs[1 - 1]? = some pPrev ∧ ptrs[1]? = some pN ∧
      movesToFrames (List.take 1
        [({ white := false, x := 3, y := 3 } : move), { white := true, x := 15, y := 15 }]) []
        = .ok (ptrsN, hN1) ∧ ptrsN[1 - 1]? = some pPrev ∧
      hN1[pPrev]? = some prev ∧
      newFrame mN (some pPrev) hN1 = .ok (pN, hN1 ++ [cur]) ∧
      (hN1 ++ [cur])[pPrev]? = some prev ∧ (hN1 ++ [cur])[pN]? = some cur ∧
      h1[pPrev]? = some prev ∧ h1[pN]? = some cur ∧
      (∀ i j, 0 ≤ i ∧ i < 762 ∧ 0 ≤ j ∧ j < 762 →
        ¬ dist i j mN.cx mN.cy ≤ stoneDiameter / 2 →
        cur.ColorIndexAt i j = prev.ColorIndexAt i j) ∧
      (∀ i j, 0 ≤ i ∧ i < 762 ∧ 0 ≤ j ∧ j < 762 →
        ¬ truncDist i j (20 + 40 * mN.x) (20 + 40 * mN.y) ≤ 20 →
        cur.ColorIndexAt i j = prev.ColorIndexAt i j) := by
  obtain ⟨ptrs, ptrsN, h1, hN1, pPrev, pN, prev, cur, mN, f1, f2, f3, f4, f5, f6, f7, f8,
    f9, f10, f11, f12, hall, hexact⟩ :=
    newFrame_locality
      [{ white := false, x := 3, y := 3 }, { white := true, x := 15, y := 15 }] [] 1
      (by decide) (by decide)
  have hm : mN = { white := true, x := 15, y := 15 } := (Option.some.inj f2).symm
  exact ⟨ptrs, ptrsN, h1, hN1, pPrev, pN, prev, cur, mN, f1, f2, f3, f4, f5, f6, f7, f8,
    f9, f10, f11, f12, hall, hexact (by rw [hm]; decide)⟩

/-! ## A game with a single move -/

theorem single_frame_spec (m : move) (h : Heap) (hm : m.Small) :
    ∃ b f, emptyBoard = .ok b ∧ IsFrame b ∧ IsFrame f ∧
      movesToFrames [m] h = .ok ([h.length], h ++ [f]) ∧
      ∀ i j, InFrame i j →
        (InDisc m i j → f.ColorIndexAt i j = .ok m.colour) ∧
        (¬ InDisc m i j → f.ColorIndexAt i j = b.ColorIndexAt i j) := by
  obtain ⟨b, fs, he, hF, hrun, hlen, hfs⟩ := movesToFrames_spec [m] h
  obtain ⟨f1, hd, hF1, hpix⟩ := drawMove_spec b m hF hm
  have hfs1 : fs = [f1] := by
    match fs, hlen, hfs with
    | [f], _, hfs =>
      have h0 := (hfs 0 f rfl).1
      rw [List.take_succ_cons, List.take_zero, drawMoves_cons_ok m [] b f1 hd] at h0
      have : f1 = f := Except.ok.inj h0
      rw [this]
  subst hfs1
  exact ⟨b, f1, he, hF, hF1, by simpa using hrun, hpix⟩

/-- C9: a game whose only placement is the black move dd yields the single
move (3, 3) and a single frame, in which every pixel of the disc of radius 20
centred at (140, 140) is Black and every pixel outside the disc equals the
pixel of the empty board; the same holds for any single move on the board,
with its own centre and colour. -/
theorem single_move_frame (g : GameTree) (h : Heap)
    (hg : moveProperties g = [{ Ident := [66], Values := [[100, 100]] }]) :
    movesFromGame g = .ok [{ white := false, x := 3, y := 3 }] ∧
      (∃ b f, emptyBoard = .ok b ∧
        movesToFrames [{ white := false, x := 3, y := 3 }] h = .ok ([h.length], h ++ [f]) ∧
        ∀ i j, 0 ≤ i ∧ i < 762 ∧ 0 ≤ j ∧ j < 762 →
          (truncDist i j 140 140 ≤ 20 → f.ColorIndexAt i j = .ok black) ∧
          ((140 - i) * (140 - i) + (140 - j) * (140 - j) ≤ 400 →
            f.ColorIndexAt i j = .ok black) ∧
          (¬ truncDist i j 140 140 ≤ 20 → f.ColorIndexAt i j = b.ColorIndexAt i j)) ∧
      (∀ m : move, 0 ≤ m.x ∧ m.x < 19 ∧ 0 ≤ m.y ∧ m.y < 19 →
        ∃ b f, emptyBoard = .ok b ∧
          movesToFrames [m] h = .ok ([h.length], h ++ [f]) ∧
          ∀ i j, 0 ≤ i ∧ i < 762 ∧ 0 ≤ j ∧ j < 762 →
            (truncDist i j (20 + 40 * m.x) (20 + 40 * m.y) ≤ 20 →
              f.ColorIndexAt i j = .ok (if m.white then white else black)) ∧
            (¬ truncDist i j (20 + 40 * m.x) (20 + 40 * m.y) ≤ 20 →
              f.ColorIndexAt i j = b.ColorIndexAt i j)) := by
  refine ⟨?_, ?_, ?_⟩
  · rcases movesFromGame_cases g with ⟨_, hok⟩ | ⟨⟨p, hp, hnone⟩, _⟩
    · rw [hok, hg]
      rfl
    · rw [hg, List.mem_singleton] at hp
      subst hp
      exact absurd hnone (by decide)
  · obtain ⟨b, f, he, _, _, hrun, hpix⟩ :=
      single_frame_spec { white := false, x := 3, y := 3 } h (by decide)
    refine ⟨b, f, he, hrun, ?_⟩
    intro i j hij
    have hp := hpix i j ((inFrame_iff i j).mpr hij)
    refine ⟨fun hd => hp.1 hd, fun he => hp.1 ?_, fun hd => hp.2 hd⟩
    show truncDist i j (20 + 40 * 3) (20 + 40 * 3) ≤ 20
    rw [truncDist_le_iff]
    have e : (20 : Int) + 40 * 3 = 140 := by norm_num
    rw [e]
    omega
  · intro m hm
    obtain ⟨b, f, he, _, _, hrun, hpix⟩ := single_frame_spec m h (by
      unfold move.Small
      omega)
    refine ⟨b, f, he, hrun, ?_⟩
    intro i j hij
    have hp := hpix i j ((inFrame_iff i j).mpr hij)
    exact ⟨fun hd => hp.1 hd, fun hd => hp.2 hd⟩

/-- Witness of C9: the record with a size property, the black move dd and a
comment, on an empty heap. -/
theorem single_move_frame_witness :
    moveProperties singleMoveGame = [{ Ident := [66], Values := [[100, 100]] }] ∧
      (movesFromGame singleMoveGame = .ok [{ white := false, x := 3, y := 3 }] ∧
      (∃ b f, emptyBoard = .ok b ∧
        movesToFrames [{ white := false, x := 3, y := 3 }] [] =
          .ok ([([] : Heap).length], [] ++ [f]) ∧
        ∀ i j, 0 ≤ i ∧ i < 762 ∧ 0 ≤ j ∧ j < 762 →
          (truncDist i j 140 140 ≤ 20 → f.ColorIndexAt i j = .ok black) ∧
          ((140 - i) * (140 - i) + (140 - j) * (140 - j) ≤ 400 →
            f.ColorIndexAt i j = .ok black) ∧
          (¬ truncDist i j 140 140 ≤ 20 → f.ColorIndexAt i j = b.ColorIndexAt i j)) ∧
      (∀ m : move, 0 ≤ m.x ∧ m.x < 19 ∧ 0 ≤ m.y ∧ m.y < 19 →
        ∃ b f, emptyBoard = .ok b ∧
          movesToFrames [m] [] = .ok ([([] : Heap).length], [] ++ [f]) ∧
          ∀ i j, 0 ≤ i ∧ i < 762 ∧ 0 ≤ j ∧ j < 762 →
            (truncDist i j (20 + 40 * m.x) (20 + 40 * m.y) ≤ 20 →
              f.ColorIndexAt i j = .ok (if m.white then white else black)) ∧
            (¬ truncDist i j (20 + 40 * m.x) (20 + 40 * m.y) ≤ 20 →
              f.ColorIndexAt i j = b.ColorIndexAt i j))) :=
  ⟨by decide, single_move_frame singleMoveGame [] (by decide)⟩

/-! ## The animation -/

theorem framesToGifLoop_spec : ∀ (fs : List Ptr) (g : GIF),
    framesToGifLoop fs g =
      { Image := g.Image ++ fs
        Delay := g.Delay ++ List.replicate fs.length delay
        LoopCount := g.LoopCount } := by
  intro fs
  induction fs with
  | nil =>
    intro g
    simp [framesToGifLoop]
  | cons f fs ih =>
    intro g
    rw [framesToGifLoop, ih]
    simp [List.replicate_succ]

/-- C10: for a frame list of any length, `framesToGif` succeeds and the loop
count of the animation is the number of frames. -/
theorem framesToGif_loopCount (frames : List Ptr) :
    ∃ g, framesToGif frames = .ok g ∧ g.LoopCount = (frames.length : Int) ∧
      (∃ g0, framesToGif [] = .ok g0 ∧ g0.LoopCount = 0) := by
  refine ⟨_, rfl, ?_, _, rfl, ?_⟩
  · rw [framesToGifLoop_spec]
  · rw [framesToGifLoop_spec]
    rfl

/-- C11: the animation returned by `framesToGif` holds the frames of the input
in the same order, and a delay list of the same length whose entries are all
the constant 100. -/
theorem framesToGif_frames_delays (frames : List Ptr) :
    ∃ g, framesToGif frames = .ok g ∧ g.Image = frames ∧
      g.Delay.length = frames.length ∧ (∀ d ∈ g.Delay, d = 100) ∧
      g.Delay = List.replicate frames.length 100 := by
  refine ⟨_, rfl, ?_, ?_, ?_, ?_⟩
  · rw [framesToGifLoop_spec]
    simp
  · rw [framesToGifLoop_spec]
    simp
  · rw [framesToGifLoop_spec]
    intro d hd
    simp only [List.nil_append] at hd
    exact (List.eq_of_mem_replicate hd).trans rfl
  · rw [framesToGifLoop_spec]
    simp [delay]

/-! ## The pipeline -/

/-- C12: for a game without any property named B or W (a game without nodes
included), `movesFromGame` returns no move, `movesToFrames` returns no frame
and leaves the heap as it is, and `framesToGif` returns an animation with no
frame, no delay and loop count 0; so does `sgfToGif` on a collection whose
first game is this one. -/
theorem pipeline_no_moves (g : GameTree) (h : Heap)
    (hno : ∀ p ∈ allProperties g, ¬ (p.Ident = [66] ∨ p.Ident = [87])) :
    movesFromGame g = .ok [] ∧
      movesToFrames [] h = .ok ([], h) ∧
      framesToGif [] = .ok { Image := [], Delay := [], LoopCount := 0 } ∧
      (∀ rest : List GameTree, sgfToGif { GameTrees := g :: rest } h =
        .ok ({ Image := [], Delay := [], LoopCount := 0 }, h)) ∧
      movesFromGame { Nodes := [] } = .ok [] := by
  have h1 : movesFromGame g = .ok [] := by
    have hnil : moveProperties g = [] := by
      apply List.eq_nil_iff_forall_not_mem.mpr
      intro p hp
      have hp1 : p ∈ allProperties g ∧ (p.Ident = [66] ∨ p.Ident = [87]) := by
        simpa [moveProperties, isMoveProperty, strB, strW] using hp
      exact hno p hp1.1 hp1.2
    rcases movesFromGame_cases g with ⟨_, hok⟩ | ⟨⟨p, hp, _⟩, _⟩
    · simpa [hnil] using hok
    · simp [hnil] at hp
  refine ⟨h1, rfl, rfl, ?_, rfl⟩
  intro rest
  have hfirst : firstGame { GameTrees := g :: rest } = .ok g := by
    simp [firstGame]
  simp only [sgfToGif, hfirst, h1]
  rfl

/-- Witness of C12: the record with a size property, a comment and a setup
property. -/
theorem pipeline_no_moves_witness :
    (∀ p ∈ allProperties noMoveGame, ¬ (p.Ident = [66] ∨ p.Ident = [87])) ∧
      (movesFromGame noMoveGame = .ok [] ∧
      movesToFrames [] [] = .ok ([], []) ∧
      framesToGif [] = .ok { Image := [], Delay := [], LoopCount := 0 } ∧
      (∀ rest : List GameTree, sgfToGif { GameTrees := noMoveGame :: rest } [] =
        .ok ({ Image := [], Delay := [], LoopCount := 0 }, [])) ∧
      movesFromGame { Nodes := [] } = .ok []) :=
  ⟨by decide, pipeline_no_moves noMoveGame [] (by decide)⟩

/-- C13: `firstGame` fails exactly when the collection has no game tree, the
error being the no-games error; otherwise it returns the first game tree,
whatever the others. -/
theorem firstGame_error_iff (c : Collection) :
    ((∃ e, firstGame c = .error e) ↔ c.GameTrees.length = 0) ∧
      (c.GameTrees.length = 0 → firstGame c = .error .noGames) ∧
      (∀ (g : GameTree) (rest : List GameTree),
        c.GameTrees = g :: rest → firstGame c = .ok g) := by
  have hcons : ∀ (g : GameTree) (rest : List GameTree),
      c.GameTrees = g :: rest → firstGame c = .ok g := by
    intro g rest hc
    simp [firstGame, hc]
  have hnil : c.GameTrees.length = 0 → firstGame c = .error .noGames := by
    intro h0
    simp [firstGame, h0]
  refine ⟨⟨?_, fun h0 => ⟨_, hnil h0⟩⟩, hnil, hcons⟩
  rintro ⟨e, he⟩
  rcases hc : c.GameTrees with _ | ⟨g, rest⟩
  · rfl
  · rw [hcons g rest hc] at he
    cases he

/-! ## Decoding arbitrary bytes -/

theorem lettersToCoords_pair (b0 b1 : Byte) :
    lettersToCoords [b0, b1] =
      .ok ((((b0.val + 256 - 97) % 256 : Nat) : Int), (((b1.val + 256 - 97) % 256 : Nat) : Int)) := by
  simp [lettersToCoords]

/-- C19: a token of two bytes `b0 b1` decodes to `((b0 - 97) mod 256,
(b1 - 97) mod 256)`, the subtraction being done on unsigned bytes: both
coordinates lie between 0 and 255, the token AA gives (224, 224), and two
tokens of two bytes with the same coordinates are equal. -/
theorem lettersToCoords_bytes (b0 b1 : Byte) :
    (∃ x y : Int, lettersToCoords [b0, b1] = .ok (x, y) ∧
        x = ((b0.val : Int) - 97) % 256 ∧ y = ((b1.val : Int) - 97) % 256 ∧
        0 ≤ x ∧ x ≤ 255 ∧ 0 ≤ y ∧ y ≤ 255) ∧
      lettersToCoords [65, 65] = .ok (224, 224) ∧
      (∀ s t : GoString, s.length = 2 → t.length = 2 →
        lettersToCoords s = lettersToCoords t → s = t) := by
  refine ⟨⟨_, _, lettersToCoords_pair b0 b1, ?_, ?_, ?_, ?_, ?_, ?_⟩, by rfl, ?_⟩
  · have := b0.isLt
    omega
  · have := b1.isLt
    omega
  · omega
  · have := b0.isLt
    omega
  · omega
  · have := b1.isLt
    omega
  · intro s t hs ht heq
    match s, hs, t, ht, heq with
    | [a0, a1], _, [c0, c1], _, heq =>
      rw [lettersToCoords_pair, lettersToCoords_pair] at heq
      have h2 := Prod.mk.inj (Except.ok.inj heq)
      have ha0 := a0.isLt
      have ha1 := a1.isLt
      have hc0 := c0.isLt
      have hc1 := c1.isLt
      have e0 : a0 = c0 := by
        apply Fin.ext
        have := h2.1
        omega
      have e1 : a1 = c1 := by
        apply Fin.ext
        have := h2.2
        omega
      rw [e0, e1]

/-! ## The palette invariant -/

theorem paletteOnly_iff (p : Paletted) (hp : IsFrame p) :
    PaletteOnly p ↔
      ∀ i j, InFrame i j →
        p.ColorIndexAt i j = .ok 0 ∨ p.ColorIndexAt i j = .ok 1 ∨ p.ColorIndexAt i j = .ok 2 := by
  have hlen := ((isFrame_iff p).mp hp).2.2.1
  constructor
  · intro hall i j hij
    rw [colorIndexAt_frame p hp i j hij]
    have hij1 := (inFrame_iff i j).mp hij
    have hlt : (j * 762 + i).toNat < p.Pix.length := by omega
    have hmem : p.Pix.getD (j * 762 + i).toNat 0 ∈ p.Pix := by
      rw [List.getD_eq_getElem?_getD, List.getElem?_eq_getElem hlt]
      exact List.getElem_mem hlt
    rcases hall _ hmem with h0 | h1 | h2
    · exact Or.inl (by rw [h0]; rfl)
    · exact Or.inr (Or.inl (by rw [h1]; rfl))
    · exact Or.inr (Or.inr (by rw [h2]; rfl))
  · intro hpix c hc
    obtain ⟨n, hn, rfl⟩ := List.getElem_of_mem hc
    have hij : InFrame ((n : Int) % 762) ((n : Int) / 762) := by
      rw [inFrame_iff]
      omega
    have := hpix _ _ hij
    rw [colorIndexAt_frame p hp _ _ hij] at this
    have hn1 : ((n : Int) / 762 * 762 + (n : Int) % 762).toNat = n := by omega
    rw [hn1, List.getD_eq_getElem?_getD, List.getElem?_eq_getElem hn] at this
    simp only [Option.getD_some] at this
    rcases this with h0 | h1 | h2
    · exact Or.inl (Except.ok.inj h0)
    · exact Or.inr (Or.inl (Except.ok.inj h1))
    · exact Or.inr (Or.inr (Except.ok.inj h2))

theorem drawMove_palette (f : Paletted) (m : move) (hf : IsFrame f) (hv : PaletteOnly f) :
    ∃ f1, drawMove f m = .ok f1 ∧ IsFrame f1 ∧ PaletteOnly f1 := by
  obtain ⟨f1, h1, hF, hpix⟩ := drawMove_ok f m hf
  refine ⟨f1, h1, hF, (paletteOnly_iff f1 hF).mpr ?_⟩
  intro i j hij
  by_cases hd : dist i j m.cx m.cy ≤ stoneDiameter / 2
  · rw [(hpix i j hij).1 hd]
    unfold move.colour
    split
    · exact Or.inr (Or.inr rfl)
    · exact Or.inr (Or.inl rfl)
  · rw [(hpix i j hij).2 hd]
    exact (paletteOnly_iff f hf).mp hv i j hij

theorem emptyBoard_palette : ∃ b, emptyBoard = .ok b ∧ IsFrame b ∧ PaletteOnly b := by
  obtain ⟨b, hb, hF, hpix⟩ := drawBoard_spec _ isFrame_new
  refine ⟨b, hb, hF, (paletteOnly_iff b hF).mpr ?_⟩
  intro i j hij
  rw [hpix i j hij]
  split
  · exact Or.inr (Or.inl rfl)
  · exact Or.inl rfl

theorem drawMoves_palette : ∀ (l : List move) (img : Paletted), IsFrame img → PaletteOnly img →
    ∃ f, drawMoves l img = .ok f ∧ IsFrame f ∧ PaletteOnly f := by
  intro l
  induction l with
  | nil =>
    intro img hF hv
    exact ⟨img, rfl, hF, hv⟩
  | cons m l ih =>
    intro img hF hv
    obtain ⟨f1, h1, hF1, hv1⟩ := drawMove_palette img m hF hv
    obtain ⟨f, h2, hF2, hv2⟩ := ih f1 hF1 hv1
    exact ⟨f, by rw [drawMoves_cons_ok m l img f1 h1]; exact h2, hF2, hv2⟩

/-- C14: every frame produced by `movesToFrames`, for every list of moves, is
a square image of side `boardSize * stoneDiameter + 2 = 762` in which every
pixel holds one of the palette indices 0, 1, 2; the empty board has this
property, the copy of a frame is that frame, and `drawMove` preserves it. -/
theorem frames_palette (ms : List move) (h : Heap) :
    side = 762 ∧
      (∃ (ptrs : List Ptr) (h1 : Heap), movesToFrames ms h = .ok (ptrs, h1) ∧
        ∀ p ∈ ptrs, ∃ f, h1[p]? = some f ∧
          f.Rect = { Min := { X := 0, Y := 0 }, Max := { X := 762, Y := 762 } } ∧
          f.Stride = 762 ∧ f.Pix.length = 762 * 762 ∧ PaletteOnly f ∧
          ∀ i j, 0 ≤ i ∧ i < 762 ∧ 0 ≤ j ∧ j < 762 →
            f.ColorIndexAt i j = .ok 0 ∨ f.ColorIndexAt i j = .ok 1 ∨
              f.ColorIndexAt i j = .ok 2) ∧
      (∃ b, emptyBoard = .ok b ∧ IsFrame b ∧ PaletteOnly b) ∧
      (∀ (hp : Heap) (o : Ptr) (old : Paletted), hp[o]? = some old → IsFrame old →
        frameBeforeMove (some o) hp = .ok old) ∧
      (∀ (f : Paletted) (m : move), IsFrame f → PaletteOnly f →
        ∃ f1, drawMove f m = .ok f1 ∧ IsFrame f1 ∧ PaletteOnly f1) := by
  refine ⟨side_eq, ?_, emptyBoard_palette, fun hp o old ho hold =>
    frameBeforeMove_some hp o old ho hold, fun f m hf hv => drawMove_palette f m hf hv⟩
  obtain ⟨b, fs, he, hF, hrun, hlen, hfs⟩ := movesToFrames_spec ms h
  obtain ⟨b2, he2, _, hvb⟩ := emptyBoard_palette
  have hb : b2 = b := by
    rw [he] at he2
    exact (Except.ok.inj he2).symm
  subst hb
  refine ⟨_, _, hrun, ?_⟩
  intro p hp
  have hp1 := List.mem_range'_1.mp hp
  obtain ⟨k, hk, rfl⟩ : ∃ k, k < ms.length ∧ h.length + k = p :=
    ⟨p - h.length, by omega, by omega⟩
  have hk1 : k < fs.length := by omega
  obtain ⟨hdk, hFk⟩ := hfs k fs[k] (List.getElem?_eq_getElem hk1)
  obtain ⟨f, hf, _, hvf⟩ := drawMoves_palette (ms.take (k + 1)) b2 hF hvb
  have hfk : f = fs[k] := by
    rw [hdk] at hf
    exact (Except.ok.inj hf).symm
  subst hfk
  have hFk1 := (isFrame_iff _).mp hFk
  refine ⟨fs[k], ?_, hFk1.1, hFk1.2.1, hFk1.2.2.1, hvf, ?_⟩
  · rw [List.getElem?_append_right (by omega)]
    simp [hk1]
  · intro i j hij
    exact (paletteOnly_iff _ hFk).mp hvf i j ((inFrame_iff i j).mpr hij)

/-! ## The shape of a stone -/

theorem onBoard_small (m : move) (hm : m.OnBoard) : m.Small := by
  unfold move.OnBoard at hm
  unfold move.Small
  omega

/-- C16: for coordinates of absolute value at most `2^24` (all pixel and centre
coordinates of a frame are), `dist` is the floor of the square root of
`dx² + dy²`; the test `dist ≤ 20` of `drawMove` holds exactly when
`dx² + dy² ≤ 440`, so the painted set contains the Euclidean disc of radius 20
(`dx² + dy² ≤ 400`) and other pixels, such as the one at offset `(20, 1)`;
along each axis it is the 41 pixels from centre - 20 to centre + 20. -/
theorem dist_floor_sqrt (i j cx cy : Int)
    (hi : -16777216 ≤ i ∧ i ≤ 16777216) (hj : -16777216 ≤ j ∧ j ≤ 16777216)
    (hcx : -16777216 ≤ cx ∧ cx ≤ 16777216) (hcy : -16777216 ≤ cy ∧ cy ≤ 16777216) :
    dist i j cx cy = (Nat.sqrt ((cx - i) * (cx - i) + (cy - j) * (cy - j)).toNat : Int) ∧
      dist i j cx cy = ⌊Real.sqrt ((((cx - i) ^ 2 + (cy - j) ^ 2 : Int) : ℝ))⌋ ∧
      (dist i j cx cy ≤ stoneDiameter / 2 ↔
        (cx - i) * (cx - i) + (cy - j) * (cy - j) ≤ 440) ∧
      ((cx - i) * (cx - i) + (cy - j) * (cy - j) ≤ 400 → dist i j cx cy ≤ stoneDiameter / 2) ∧
      (dist (cx + 20) (cy + 1) cx cy ≤ stoneDiameter / 2 ∧
        400 < (cx - (cx + 20)) * (cx - (cx + 20)) + (cy - (cy + 1)) * (cy - (cy + 1))) ∧
      (dist i cy cx cy ≤ stoneDiameter / 2 ↔ cx - 20 ≤ i ∧ i ≤ cx + 20) ∧
      (dist cx j cx cy ≤ stoneDiameter / 2 ↔ cy - 20 ≤ j ∧ j ≤ cy + 20) ∧
      (Finset.Icc (cx - 20) (cx + 20)).card = 41 ∧
      (Finset.Icc (cy - 20) (cy + 20)).card = 41 := by
  have h20 : stoneDiameter / 2 = 20 := by decide
  have hb : ∀ z : Int, -33554432 ≤ z → z ≤ 33554432 → z * z ≤ 33554432 * 33554432 := by
    intro z hz1 hz2
    nlinarith
  have hx := hb (cx - i) (by omega) (by omega)
  have hy := hb (cy - j) (by omega) (by omega)
  have hpow : (33554432 : Int) * 33554432 + 33554432 * 33554432 < 2 ^ 52 := by norm_num
  have hxn : 0 ≤ (cx - i) * (cx - i) := mul_self_nonneg _
  have hyn : 0 ≤ (cy - j) * (cy - j) := mul_self_nonneg _
  have hd : dist i j cx cy = truncDist i j cx cy := dist_eq_truncDist i j cx cy (by omega)
  have hdx : dist i cy cx cy = truncDist i cy cx cy :=
    dist_eq_truncDist i cy cx cy (by
      have : (cy - cy) * (cy - cy) = 0 := by ring
      omega)
  have hdy : dist cx j cx cy = truncDist cx j cx cy :=
    dist_eq_truncDist cx j cx cy (by
      have : (cx - cx) * (cx - cx) = 0 := by ring
      omega)
  have hds : dist (cx + 20) (cy + 1) cx cy = truncDist (cx + 20) (cy + 1) cx cy :=
    dist_eq_truncDist _ _ _ _ (by
      have e1 : (cx - (cx + 20)) * (cx - (cx + 20)) = 400 := by ring
      have e2 : (cy - (cy + 1)) * (cy - (cy + 1)) = 1 := by ring
      rw [e1, e2]
      norm_num)
  refine ⟨hd, ?_, ?_, ?_, ⟨?_, ?_⟩, ?_, ?_, ?_, ?_⟩
  · rw [hd]
    exact truncDist_eq_floor i j cx cy
  · rw [hd, h20, truncDist_le_iff]
    omega
  · intro h400
    rw [hd, h20, truncDist_le_iff]
    omega
  · rw [hds, h20, truncDist_le_iff]
    have e1 : (cx - (cx + 20)) * (cx - (cx + 20)) = 400 := by ring
    have e2 : (cy - (cy + 1)) * (cy - (cy + 1)) = 1 := by ring
    rw [e1, e2]
    norm_num
  · have e1 : (cx - (cx + 20)) * (cx - (cx + 20)) = 400 := by ring
    have e2 : (cy - (cy + 1)) * (cy - (cy + 1)) = 1 := by ring
    rw [e1, e2]
    norm_num
  · rw [hdx, h20, truncDist_le_iff]
    have e : (cy - cy) * (cy - cy) = 0 := by ring
    rw [e]
    constructor
    · intro h
      constructor <;> nlinarith
    · rintro ⟨h1, h2⟩
      nlinarith
  · rw [hdy, h20, truncDist_le_iff]
    have e : (cx - cx) * (cx - cx) = 0 := by ring
    rw [e]
    constructor
    · intro h
      constructor <;> nlinarith
    · rintro ⟨h1, h2⟩
      nlinarith
  · rw [Int.card_Icc]
    have : cx + 20 + 1 - (cx - 20) = 41 := by ring
    rw [this]
    rfl
  · rw [Int.card_Icc]
    have : cy + 20 + 1 - (cy - 20) = 41 := by ring
    rw [this]
    rfl

/-- Witness of C16: the pixel (160, 141) and the centre (140, 140). -/
theorem dist_floor_sqrt_witness :
    dist 160 141 140 140 =
        (Nat.sqrt ((140 - 160) * (140 - 160) + (140 - 141) * (140 - 141) : Int).toNat : Int) ∧
      dist 160 141 140 140 =
        ⌊Real.sqrt ((((140 - 160) ^ 2 + (140 - 141) ^ 2 : Int) : ℝ))⌋ ∧
      (dist 160 141 140 140 ≤ stoneDiameter / 2 ↔
        ((140 - 160) * (140 - 160) + (140 - 141) * (140 - 141) : Int) ≤ 440) ∧
      (((140 - 160) * (140 - 160) + (140 - 141) * (140 - 141) : Int) ≤ 400 →
        dist 160 141 140 140 ≤ stoneDiameter / 2) ∧
      (dist (140 + 20) (140 + 1) 140 140 ≤ stoneDiameter / 2 ∧
        (400 : Int) < (140 - (140 + 20)) * (140 - (140 + 20)) +
          (140 - (140 + 1)) * (140 - (140 + 1))) ∧
      (dist 160 140 140 140 ≤ stoneDiameter / 2 ↔ (140 : Int) - 20 ≤ 160 ∧ (160 : Int) ≤ 140 + 20) ∧
      (dist 140 141 140 140 ≤ stoneDiameter / 2 ↔ (140 : Int) - 20 ≤ 141 ∧ (141 : Int) ≤ 140 + 20) ∧
      (Finset.Icc ((140 : Int) - 20) (140 + 20)).card = 41 ∧
      (Finset.Icc ((140 : Int) - 20) (140 + 20)).card = 41 :=
  dist_floor_sqrt 160 141 140 140 (by decide) (by decide) (by decide) (by decide)

theorem mem_paintedPixels (m : move) (hm : m.Small) (p : Int × Int) :
    p ∈ paintedPixels m ↔ InFrame p.1 p.2 ∧ InDisc m p.1 p.2 := by
  unfold paintedPixels
  rw [Finset.mem_filter, Finset.mem_product, Finset.mem_Ico, Finset.mem_Ico]
  constructor
  · rintro ⟨⟨⟨h1, h2⟩, h3, h4⟩, hd⟩
    have hij : InFrame p.1 p.2 := ⟨h1, h2, h3, h4⟩
    exact ⟨hij, (dist_le_iff_inDisc m hm _ _ hij).mp hd⟩
  · rintro ⟨hij, hd⟩
    obtain ⟨h1, h2, h3, h4⟩ := id hij
    exact ⟨⟨⟨h1, h2⟩, h3, h4⟩, (dist_le_iff_inDisc m hm _ _ hij).mpr hd⟩

theorem inDisc_iff (m : move) (i j : Int) :
    InDisc m i j ↔
      (20 + 40 * m.x - i) * (20 + 40 * m.x - i) + (20 + 40 * m.y - j) * (20 + 40 * m.y - j)
        < 441 := by
  unfold InDisc
  exact truncDist_le_iff i j _ _

/-- A pixel whose squared distance to the centre is below 441 is within 20
pixels of it along each axis. -/
theorem offsets_bounded (a b : Int) (h : a * a + b * b < 441) :
    -20 ≤ a ∧ a ≤ 20 ∧ -20 ≤ b ∧ b ≤ 20 := by
  have ha : 0 ≤ a * a := mul_self_nonneg a
  have hb : 0 ≤ b * b := mul_self_nonneg b
  refine ⟨?_, ?_, ?_, ?_⟩ <;> nlinarith

theorem mem_discOffsets (d : Int × Int) :
    d ∈ discOffsets ↔
      ((-20 ≤ d.1 ∧ d.1 ≤ 20) ∧ -20 ≤ d.2 ∧ d.2 ≤ 20) ∧ d.1 * d.1 + d.2 * d.2 < 441 := by
  unfold discOffsets
  rw [Finset.mem_filter, Finset.mem_product, Finset.mem_Icc, Finset.mem_Icc]

theorem paintedPixels_card (m : move) (hm : m.OnBoard) :
    (paintedPixels m).card = discOffsets.card := by
  have hs := onBoard_small m hm
  obtain ⟨hx0, hx1, hy0, hy1⟩ := id hm
  apply Finset.card_nbij' (fun p => (20 + 40 * m.x - p.1, 20 + 40 * m.y - p.2))
    (fun d => (20 + 40 * m.x - d.1, 20 + 40 * m.y - d.2))
  · intro p hp
    have hd := (inDisc_iff m p.1 p.2).mp ((mem_paintedPixels m hs p).mp hp).2
    have hb := offsets_bounded _ _ hd
    exact (mem_discOffsets _).mpr ⟨⟨⟨hb.1, hb.2.1⟩, hb.2.2.1, hb.2.2.2⟩, hd⟩
  · intro d hd
    have hd1 := (mem_discOffsets d).mp hd
    have h1 := hd1.1.1.1
    have h2 := hd1.1.1.2
    have h3 := hd1.1.2.1
    have h4 := hd1.1.2.2
    have h5 := hd1.2
    rw [mem_paintedPixels m hs, inDisc_iff, inFrame_iff]
    refine ⟨⟨by omega, by omega, by omega, by omega⟩, ?_⟩
    have e1 : 20 + 40 * m.x - (20 + 40 * m.x - d.1) = d.1 := by ring
    have e2 : 20 + 40 * m.y - (20 + 40 * m.y - d.2) = d.2 := by ring
    show (20 + 40 * m.x - (20 + 40 * m.x - d.1)) * (20 + 40 * m.x - (20 + 40 * m.x - d.1)) +
      (20 + 40 * m.y - (20 + 40 * m.y - d.2)) * (20 + 40 * m.y - (20 + 40 * m.y - d.2)) < 441
    rw [e1, e2]
    exact h5
  · intro p _
    apply Prod.ext
    · show 20 + 40 * m.x - (20 + 40 * m.x - p.1) = p.1
      ring
    · show 20 + 40 * m.y - (20 + 40 * m.y - p.2) = p.2
      ring
  · intro d _
    apply Prod.ext
    · show 20 + 40 * m.x - (20 + 40 * m.x - d.1) = d.1
      ring
    · show 20 + 40 * m.y - (20 + 40 * m.y - d.2) = d.2
      ring

set_option maxRecDepth 100000 in
theorem discOffsets_card : discOffsets.card = 1369 := by decide

/-- C17: for a move on the board, every pixel at truncated distance at most 20
from the centre `(20 + 40 x, 20 + 40 y)` lies in the frame, so the disc is not
clipped; the stone paints 1369 pixels, as many as there are offsets
`(dx, dy)` with `dx² + dy² ≤ 440`, whatever the move. -/
theorem disc_inside_frame (m : move) (hm : 0 ≤ m.x ∧ m.x < 19 ∧ 0 ≤ m.y ∧ m.y < 19) :
    (∀ i j : Int, truncDist i j (20 + 40 * m.x) (20 + 40 * m.y) ≤ 20 →
        0 ≤ i ∧ i < 762 ∧ 0 ≤ j ∧ j < 762) ∧
      (∀ i j : Int, (i, j) ∈ paintedPixels m ↔
        truncDist i j (20 + 40 * m.x) (20 + 40 * m.y) ≤ 20) ∧
      (paintedPixels m).card = discOffsets.card ∧
      (paintedPixels m).card = 1369 ∧
      (∀ m2 : move, 0 ≤ m2.x ∧ m2.x < 19 ∧ 0 ≤ m2.y ∧ m2.y < 19 →
        (paintedPixels m2).card = (paintedPixels m).card) := by
  have hin : ∀ i j : Int, truncDist i j (20 + 40 * m.x) (20 + 40 * m.y) ≤ 20 →
      0 ≤ i ∧ i < 762 ∧ 0 ≤ j ∧ j < 762 := by
    intro i j hd
    rw [truncDist_le_iff] at hd
    have hb := offsets_bounded _ _ hd
    omega
  refine ⟨hin, ?_, paintedPixels_card m hm, ?_, ?_⟩
  · intro i j
    rw [mem_paintedPixels m (onBoard_small m hm)]
    constructor
    · rintro ⟨_, hd⟩
      exact hd
    · intro hd
      exact ⟨(inFrame_iff i j).mpr (hin i j hd), hd⟩
  · rw [paintedPixels_card m hm, discOffsets_card]
  · intro m2 hm2
    rw [paintedPixels_card m hm, paintedPixels_card m2 hm2]

/-- Witness of C17: the corner move (18, 18). -/
theorem disc_inside_frame_witness :
    (∀ i j : Int, truncDist i j (20 + 40 * 18) (20 + 40 * 18) ≤ 20 →
        0 ≤ i ∧ i < 762 ∧ 0 ≤ j ∧ j < 762) ∧
      (∀ i j : Int, (i, j) ∈ paintedPixels { white := true, x := 18, y := 18 } ↔
        truncDist i j (20 + 40 * 18) (20 + 40 * 18) ≤ 20) ∧
      (paintedPixels { white := true, x := 18, y := 18 }).card = discOffsets.card ∧
      (paintedPixels { white := true, x := 18, y := 18 }).card = 1369 ∧
      (∀ m2 : move, 0 ≤ m2.x ∧ m2.x < 19 ∧ 0 ≤ m2.y ∧ m2.y < 19 →
        (paintedPixels m2).card = (paintedPixels { white := true, x := 18, y := 18 }).card) :=
  disc_inside_frame { white := true, x := 18, y := 18 } (by decide)

/-! ## Neighbouring stones -/

theorem truncDist_eq_of_sq (i j cx cy : Int) (k : Nat)
    (h : (cx - i) * (cx - i) + (cy - j) * (cy - j) = (k : Int) * k) :
    truncDist i j cx cy = k := by
  unfold truncDist
  rw [h]
  have : ((k : Int) * k).toNat = k * k := by
    have e : ((k : Int) * k) = ((k * k : Nat) : Int) := by push_cast; ring
    rw [e, Int.toNat_ofNat]
  rw [this, Nat.sqrt_eq]

/-- C20: for two orthogonally adjacent points of the board, the pixel midway
between the two centres is at truncated distance 20 from both, so it belongs
to the discs painted for both moves; a stone drawn next to an earlier stone of
the other colour recolours that pixel of the earlier stone. -/
theorem adjacent_discs_overlap (x y : Int) (hx : 0 ≤ x ∧ x < 19) (hy : 0 ≤ y ∧ y < 19)
    (w1 w2 : Bool) :
    (x + 1 < 19 →
      truncDist (40 * x + 40) (20 + 40 * y) (20 + 40 * x) (20 + 40 * y) = 20 ∧
      truncDist (40 * x + 40) (20 + 40 * y) (20 + 40 * (x + 1)) (20 + 40 * y) = 20 ∧
      (40 * x + 40, 20 + 40 * y) ∈
        paintedPixels { white := w1, x := x, y := y } ∩
          paintedPixels { white := w2, x := x + 1, y := y } ∧
      (∀ f : Paletted, IsFrame f → w1 ≠ w2 →
        ∃ f1 f2, drawMove f { white := w1, x := x, y := y } = .ok f1 ∧
          drawMove f1 { white := w2, x := x + 1, y := y } = .ok f2 ∧
          f1.ColorIndexAt (40 * x + 40) (20 + 40 * y) = .ok (if w1 then 2 else 1) ∧
          f2.ColorIndexAt (40 * x + 40) (20 + 40 * y) = .ok (if w2 then 2 else 1) ∧
          f2.ColorIndexAt (40 * x + 40) (20 + 40 * y) ≠
            f1.ColorIndexAt (40 * x + 40) (20 + 40 * y))) ∧
    (y + 1 < 19 →
      truncDist (20 + 40 * x) (40 * y + 40) (20 + 40 * x) (20 + 40 * y) = 20 ∧
      truncDist (20 + 40 * x) (40 * y + 40) (20 + 40 * x) (20 + 40 * (y + 1)) = 20 ∧
      (20 + 40 * x, 40 * y + 40) ∈
        paintedPixels { white := w1, x := x, y := y } ∩
          paintedPixels { white := w2, x := x, y := y + 1 } ∧
      (∀ f : Paletted, IsFrame f → w1 ≠ w2 →
        ∃ f1 f2, drawMove f { white := w1, x := x, y := y } = .ok f1 ∧
          drawMove f1 { white := w2, x := x, y := y + 1 } = .ok f2 ∧
          f1.ColorIndexAt (20 + 40 * x) (40 * y + 40) = .ok (if w1 then 2 else 1) ∧
          f2.ColorIndexAt (20 + 40 * x) (40 * y + 40) = .ok (if w2 then 2 else 1) ∧
          f2.ColorIndexAt (20 + 40 * x) (40 * y + 40) ≠
            f1.ColorIndexAt (20 + 40 * x) (40 * y + 40))) := by
  -- the common part: a pixel at truncated distance 20 from the centres of two small moves
  have key : ∀ (m1 m2 : move) (u v : Int), m1.Small → m2.Small → InFrame u v →
      truncDist u v (20 + 40 * m1.x) (20 + 40 * m1.y) = 20 →
      truncDist u v (20 + 40 * m2.x) (20 + 40 * m2.y) = 20 →
      (u, v) ∈ paintedPixels m1 ∩ paintedPixels m2 ∧
      (∀ f : Paletted, IsFrame f → m1.white ≠ m2.white →
        ∃ f1 f2, drawMove f m1 = .ok f1 ∧ drawMove f1 m2 = .ok f2 ∧
          f1.ColorIndexAt u v = .ok (if m1.white then 2 else 1) ∧
          f2.ColorIndexAt u v = .ok (if m2.white then 2 else 1) ∧
          f2.ColorIndexAt u v ≠ f1.ColorIndexAt u v) := by
    intro m1 m2 u v hs1 hs2 huv hd1 hd2
    have hin1 : InDisc m1 u v := by
      unfold InDisc
      rw [hd1]
    have hin2 : InDisc m2 u v := by
      unfold InDisc
      rw [hd2]
    refine ⟨?_, ?_⟩
    · rw [Finset.mem_inter, mem_paintedPixels m1 hs1, mem_paintedPixels m2 hs2]
      exact ⟨⟨huv, hin1⟩, ⟨huv, hin2⟩⟩
    · intro f hf hw
      obtain ⟨f1, h1, hF1, hp1⟩ := drawMove_spec f m1 hf hs1
      obtain ⟨f2, h2, _, hp2⟩ := drawMove_spec f1 m2 hF1 hs2
      have e1 := (hp1 u v huv).1 hin1
      have e2 := (hp2 u v huv).1 hin2
      refine ⟨f1, f2, h1, h2, e1, e2, ?_⟩
      rw [e1, e2]
      unfold move.colour
      intro he
      have he1 := Except.ok.inj he
      cases h1w : m1.white <;> cases h2w : m2.white <;> simp_all
  have small : ∀ (w : Bool) (a b : Int), 0 ≤ a → a < 19 → 0 ≤ b → b < 19 →
      move.Small { white := w, x := a, y := b } := by
    intro w a b h1 h2 h3 h4
    unfold move.Small
    exact ⟨by show -512 ≤ a; omega, by show a ≤ 512; omega,
      by show -512 ≤ b; omega, by show b ≤ 512; omega⟩
  constructor
  · intro hx1
    have hd1 : truncDist (40 * x + 40) (20 + 40 * y) (20 + 40 * x) (20 + 40 * y) = 20 :=
      truncDist_eq_of_sq _ _ _ _ 20 (by ring)
    have hd2 : truncDist (40 * x + 40) (20 + 40 * y) (20 + 40 * (x + 1)) (20 + 40 * y) = 20 :=
      truncDist_eq_of_sq _ _ _ _ 20 (by ring)
    have huv : InFrame (40 * x + 40) (20 + 40 * y) := by
      rw [inFrame_iff]
      omega
    obtain ⟨hmem, hre⟩ := key { white := w1, x := x, y := y } { white := w2, x := x + 1, y := y }
      _ _ (small w1 x y hx.1 hx.2 hy.1 hy.2) (small w2 (x + 1) y (by omega) hx1 hy.1 hy.2)
      huv hd1 hd2
    exact ⟨hd1, hd2, hmem, hre⟩
  · intro hy1
    have hd1 : truncDist (20 + 40 * x) (40 * y + 40) (20 + 40 * x) (20 + 40 * y) = 20 :=
      truncDist_eq_of_sq _ _ _ _ 20 (by ring)
    have hd2 : truncDist (20 + 40 * x) (40 * y + 40) (20 + 40 * x) (20 + 40 * (y + 1)) = 20 :=
      truncDist_eq_of_sq _ _ _ _ 20 (by ring)
    have huv : InFrame (20 + 40 * x) (40 * y + 40) := by
      rw [inFrame_iff]
      omega
    obtain ⟨hmem, hre⟩ := key { white := w1, x := x, y := y } { white := w2, x := x, y := y + 1 }
      _ _ (small w1 x y hx.1 hx.2 hy.1 hy.2) (small w2 x (y + 1) hx.1 hx.2 (by omega) hy1)
      huv hd1 hd2
    exact ⟨hd1, hd2, hmem, hre⟩

/-- Witness of C20: the points (3, 3), (4, 3) and (3, 4), black then white. -/
theorem adjacent_discs_overlap_witness :
    ((3 : Int) + 1 < 19 →
      truncDist (40 * 3 + 40) (20 + 40 * 3) (20 + 40 * 3) (20 + 40 * 3) = 20 ∧
      truncDist (40 * 3 + 40) (20 + 40 * 3) (20 + 40 * (3 + 1)) (20 + 40 * 3) = 20 ∧
      (40 * 3 + 40, 20 + 40 * 3) ∈
        paintedPixels { white := false, x := 3, y := 3 } ∩
          paintedPixels { white := true, x := 3 + 1, y := 3 } ∧
      (∀ f : Paletted, IsFrame f → false ≠ true →
        ∃ f1 f2, drawMove f { white := false, x := 3, y := 3 } = .ok f1 ∧
          drawMove f1 { white := true, x := 3 + 1, y := 3 } = .ok f2 ∧
          f1.ColorIndexAt (40 * 3 + 40) (20 + 40 * 3) = .ok (if false then 2 else 1) ∧
          f2.ColorIndexAt (40 * 3 + 40) (20 + 40 * 3) = .ok (if true then 2 else 1) ∧
          f2.ColorIndexAt (40 * 3 + 40) (20 + 40 * 3) ≠
            f1.ColorIndexAt (40 * 3 + 40) (20 + 40 * 3))) ∧
    ((3 : Int) + 1 < 19 →
      truncDist (20 + 40 * 3) (40 * 3 + 40) (20 + 40 * 3) (20 + 40 * 3) = 20 ∧
      truncDist (20 + 40 * 3) (40 * 3 + 40) (20 + 40 * 3) (20 + 40 * (3 + 1)) = 20 ∧
      (20 + 40 * 3, 40 * 3 + 40) ∈
        paintedPixels { white := false, x := 3, y := 3 } ∩
          paintedPixels { white := true, x := 3, y := 3 + 1 } ∧
      (∀ f : Paletted, IsFrame f → false ≠ true →
        ∃ f1 f2, drawMove f { white := false, x := 3, y := 3 } = .ok f1 ∧
          drawMove f1 { white := true, x := 3, y := 3 + 1 } = .ok f2 ∧
          f1.ColorIndexAt (20 + 40 * 3) (40 * 3 + 40) = .ok (if false then 2 else 1) ∧
          f2.ColorIndexAt (20 + 40 * 3) (40 * 3 + 40) = .ok (if true then 2 else 1) ∧
          f2.ColorIndexAt (20 + 40 * 3) (40 * 3 + 40) ≠
            f1.ColorIndexAt (20 + 40 * 3) (40 * 3 + 40))) :=
  adjacent_discs_overlap 3 3 (by decide) (by decide) false true

/-! ## A stone stays visible -/

theorem drawMoves_ok : ∀ (l : List move) (img : Paletted), IsFrame img →
    ∃ f, drawMoves l img = .ok f ∧ IsFrame f := by
  intro l
  induction l with
  | nil =>
    intro img hF
    exact ⟨img, rfl, hF⟩
  | cons m l ih =>
    intro img hF
    obtain ⟨f1, h1, hF1, _⟩ := drawMove_ok img m hF
    obtain ⟨f, h2, hF2⟩ := ih f1 hF1
    exact ⟨f, by rw [drawMoves_cons_ok m l img f1 h1]; exact h2, hF2⟩

theorem drawMoves_append : ∀ (l1 l2 : List move) (img : Paletted),
    drawMoves (l1 ++ l2) img = (drawMoves l1 img).bind (drawMoves l2) := by
  intro l1
  induction l1 with
  | nil =>
    intro l2 img
    rfl
  | cons a l1 ih =>
    intro l2 img
    have e1 : drawMoves (a :: l1 ++ l2) img =
        (match drawMove img a with
          | .error e => .error e
          | .ok img1 => drawMoves (l1 ++ l2) img1) := rfl
    have e2 : drawMoves (a :: l1) img =
        (match drawMove img a with
          | .error e => .error e
          | .ok img1 => drawMoves l1 img1) := rfl
    rw [e1, e2]
    generalize drawMove img a = r
    cases r with
    | error e => rfl
    | ok img1 => exact ih l2 img1

/-- A pixel outside the discs of all the moves drawn keeps its index. -/
theorem drawMoves_keep : ∀ (l : List move) (img f : Paletted) (u v : Int) (c : Nat),
    IsFrame img → InFrame u v → img.ColorIndexAt u v = .ok c →
    (∀ m ∈ l, m.Small ∧ ¬ InDisc m u v) → drawMoves l img = .ok f →
    f.ColorIndexAt u v = .ok c := by
  intro l
  induction l with
  | nil =>
    intro img f u v c _ _ hc _ hf
    have e : drawMoves [] img = .ok img := rfl
    rw [e] at hf
    rw [← Except.ok.inj hf]
    exact hc
  | cons m l ih =>
    intro img f u v c hF huv hc hall hf
    obtain ⟨hs, hout⟩ := hall m (List.mem_cons_self _ _)
    obtain ⟨f1, h1, hF1, hpix⟩ := drawMove_spec img m hF hs
    rw [drawMoves_cons_ok m l img f1 h1] at hf
    apply ih f1 f u v c hF1 huv _ (fun x hx => hall x (List.mem_cons_of_mem _ hx)) hf
    rw [(hpix u v huv).2 hout]
    exact hc

/-- The centre of a move on the board is a pixel of the frame, in the disc of
the move, and outside the disc of every move on another point of the board. -/
theorem centre_facts (m : move) (hm : m.OnBoard) :
    InFrame (20 + 40 * m.x) (20 + 40 * m.y) ∧
      InDisc m (20 + 40 * m.x) (20 + 40 * m.y) ∧
      ∀ m2 : move, m2.OnBoard → ¬ (m2.x = m.x ∧ m2.y = m.y) →
        ¬ InDisc m2 (20 + 40 * m.x) (20 + 40 * m.y) := by
  obtain ⟨h1, h2, h3, h4⟩ := id hm
  refine ⟨?_, ?_, ?_⟩
  · rw [inFrame_iff]
    omega
  · rw [inDisc_iff]
    have e1 : 20 + 40 * m.x - (20 + 40 * m.x) = 0 := by ring
    have e2 : 20 + 40 * m.y - (20 + 40 * m.y) = 0 := by ring
    rw [e1, e2]
    norm_num
  · intro m2 hm2 hne
    obtain ⟨g1, g2, g3, g4⟩ := id hm2
    rw [inDisc_iff]
    have e1 : 20 + 40 * m2.x - (20 + 40 * m.x) = 40 * (m2.x - m.x) := by ring
    have e2 : 20 + 40 * m2.y - (20 + 40 * m.y) = 40 * (m2.y - m.y) := by ring
    rw [e1, e2]
    have hsq : ∀ z : Int, z ≠ 0 → 1 ≤ z * z := by
      intro z hz
      rcases lt_or_gt_of_ne hz with h | h <;> nlinarith
    have hnn : ∀ z : Int, 0 ≤ z * z := fun z => mul_self_nonneg z
    by_cases hxe : m2.x = m.x
    · have hye : m2.y - m.y ≠ 0 := by
        intro h0
        exact hne ⟨hxe, by omega⟩
      have := hsq _ hye
      have := hnn (m2.x - m.x)
      nlinarith
    · have hxe1 : m2.x - m.x ≠ 0 := by omega
      have := hsq _ hxe1
      have := hnn (m2.y - m.y)
      nlinarith

/-- C15: for moves on the board, in frame `N` the pixel at the centre of move
`k ≤ N` holds the colour index of move `k`, provided no move `j` with
`k < j ≤ N` is played on the point of move `k`. -/
theorem stone_stays_visible (ms : List move) (h : Heap)
    (hin : ∀ m ∈ ms, 0 ≤ m.x ∧ m.x < 19 ∧ 0 ≤ m.y ∧ m.y < 19)
    (N k : Nat) (hk : k ≤ N) (hN : N < ms.length)
    (hlater : ∀ j, j ≤ N → k < j →
      (ms[j]?).map (fun m => (m.x, m.y)) ≠ (ms[k]?).map (fun m => (m.x, m.y))) :
    ∃ (ptrs : List Ptr) (h1 : Heap) (p : Ptr) (f : Paletted) (mk : move),
      movesToFrames ms h = .ok (ptrs, h1) ∧ ptrs[N]? = some p ∧ h1[p]? = some f ∧
      ms[k]? = some mk ∧
      f.ColorIndexAt (20 + 40 * mk.x) (20 + 40 * mk.y) = .ok (if mk.white then 2 else 1) := by
  obtain ⟨b, fs, he, hF, hrun, hlen, hfs⟩ := movesToFrames_spec ms h
  have hNfs : N < fs.length := by omega
  have hkms : k < ms.length := by omega
  obtain ⟨hdN, _⟩ := hfs N fs[N] (List.getElem?_eq_getElem hNfs)
  -- the moves up to `N`, split at `k`
  have hsplit : ms.take (N + 1) = ms.take k ++ ms[k] :: (ms.take (N + 1)).drop (k + 1) := by
    have hkl : k < (ms.take (N + 1)).length := by
      rw [List.length_take]
      omega
    have e1 : (ms.take (N + 1)).take k = ms.take k := by
      rw [List.take_take, min_eq_left (by omega)]
    have e2 : (ms.take (N + 1))[k] = ms[k] := by
      rw [List.getElem_take]
    calc ms.take (N + 1)
        = (ms.take (N + 1)).take k ++ (ms.take (N + 1)).drop k :=
          (List.take_append_drop k _).symm
      _ = ms.take k ++ ms[k] :: (ms.take (N + 1)).drop (k + 1) := by
          rw [e1, List.drop_eq_getElem_cons hkl, e2]
  have hmk : ms[k].OnBoard := hin _ (List.getElem_mem hkms)
  obtain ⟨hcin, hcdisc, hcout⟩ := centre_facts ms[k] hmk
  obtain ⟨g0, hg0, hFg0⟩ := drawMoves_ok (ms.take k) b hF
  obtain ⟨g1, hg1, hFg1, hpix⟩ := drawMove_spec g0 ms[k] hFg0 (onBoard_small _ hmk)
  obtain ⟨g2, hg2, _⟩ := drawMoves_ok ((ms.take (N + 1)).drop (k + 1)) g1 hFg1
  have hfN : g2 = fs[N] := by
    rw [hsplit, drawMoves_append, hg0] at hdN
    have e : (Except.ok g0 : Except Err Paletted).bind
        (drawMoves (ms[k] :: (ms.take (N + 1)).drop (k + 1))) =
        drawMoves (ms[k] :: (ms.take (N + 1)).drop (k + 1)) g0 := rfl
    rw [e, drawMoves_cons_ok _ _ g0 g1 hg1, hg2] at hdN
    exact Except.ok.inj hdN
  have hcol : g1.ColorIndexAt (20 + 40 * ms[k].x) (20 + 40 * ms[k].y) = .ok ms[k].colour :=
    (hpix _ _ hcin).1 hcdisc
  have hkeep := drawMoves_keep ((ms.take (N + 1)).drop (k + 1)) g1 g2 _ _ _ hFg1 hcin hcol
    (by
      intro m hm
      obtain ⟨n, hn, hmn⟩ := List.getElem_of_mem hm
      rw [List.getElem_drop, List.getElem_take] at hmn
      have hnN : k + 1 + n ≤ N := by
        rw [List.length_drop, List.length_take] at hn
        omega
      have hnl : k + 1 + n < ms.length := by omega
      have hmem : m ∈ ms := by
        rw [← hmn]
        exact List.getElem_mem hnl
      have hmb : m.OnBoard := hin m hmem
      refine ⟨onBoard_small m hmb, hcout m hmb ?_⟩
      intro hsame
      apply hlater (k + 1 + n) hnN (by omega)
      rw [List.getElem?_eq_getElem hnl, List.getElem?_eq_getElem hkms, hmn]
      simp [hsame.1, hsame.2])
    hg2
  refine ⟨_, _, h.length + N, fs[N], ms[k], hrun, ?_, ?_, List.getElem?_eq_getElem hkms, ?_⟩
  · rw [List.getElem?_range' _ _ hN]
    simp
  · rw [List.getElem?_append_right (by omega)]
    simp [hNfs]
  · rw [← hfN, hkeep]
    rfl

/-- Witness of C15: the first of three moves on neighbouring points, in the
third frame. -/
theorem stone_stays_visible_witness :
    (∀ j, j ≤ 2 → 0 < j →
        (exampleMoves[j]?).map (fun m => (m.x, m.y)) ≠
          (exampleMoves[0]?).map (fun m => (m.x, m.y))) ∧
      ∃ (ptrs : List Ptr) (h1 : Heap) (p : Ptr) (f : Paletted) (mk : move),
        movesToFrames exampleMoves [] = .ok (ptrs, h1) ∧ ptrs[2]? = some p ∧
        h1[p]? = some f ∧ exampleMoves[0]? = some mk ∧
        f.ColorIndexAt (20 + 40 * mk.x) (20 + 40 * mk.y) = .ok (if mk.white then 2 else 1) :=
  ⟨by decide, stone_stays_visible exampleMoves [] (by decide) 2 0 (by decide) (by decide)
    (by decide)⟩

/-! ## Moves outside the board -/

theorem drawMove_outside (f : Paletted) (m : move) (hf : IsFrame f) (hm : m.NoOverflow)
    (hfar : 20 ≤ m.x ∨ 20 ≤ m.y) : drawMove f m = .ok f := by
  obtain ⟨f1, h1, hF1, hpix⟩ := drawMove_exact f m hf hm
  have hsame : f1 = f := by
    apply frame_ext f1 f hF1 hf
    intro i j hij
    apply (hpix i j hij).2
    intro hd
    rw [inDisc_iff] at hd
    have hb := offsets_bounded _ _ hd
    rw [inFrame_iff] at hij
    omega
  rw [h1, hsame]

/-- For every move, `drawMove` returns the frame it received exactly when
every pixel that passes its test already holds the colour index of the
move. -/
theorem drawMove_unchanged_iff (f : Paletted) (m : move) (hf : IsFrame f) :
    drawMove f m = .ok f ↔
      ∀ i j, 0 ≤ i ∧ i < 762 ∧ 0 ≤ j ∧ j < 762 →
        dist i j m.cx m.cy ≤ stoneDiameter / 2 →
        f.ColorIndexAt i j = .ok (if m.white then 2 else 1) := by
  obtain ⟨f1, h1, hF1, hpix⟩ := drawMove_ok f m hf
  constructor
  · intro he i j hij hd
    have hff : f1 = f := by
      rw [h1] at he
      exact Except.ok.inj he
    rw [← hff]
    exact (hpix i j ((inFrame_iff i j).mpr hij)).1 hd
  · intro hall
    have hsame : f1 = f := by
      apply frame_ext f1 f hF1 hf
      intro i j hij
      by_cases hd : dist i j m.cx m.cy ≤ stoneDiameter / 2
      · rw [(hpix i j hij).1 hd, hall i j ((inFrame_iff i j).mp hij) hd]
        rfl
      · exact (hpix i j hij).2 hd
    rw [h1, hsame]

/-! ## Positions read and written -/

theorem forLoopN_congr {σ : Type} (f g : Int → σ → Except Err σ) :
    ∀ (n : Nat) (i : Int) (s : σ), (∀ k t, i ≤ k → k < i + n → f k t = g k t) →
      forLoopN n i f s = forLoopN n i g s := by
  intro n
  induction n with
  | zero =>
    intro i s _
    rfl
  | succ n ih =>
    intro i s hfg
    have e1 : forLoopN (n + 1) i f s =
        (match f i s with
          | .error e => .error e
          | .ok s1 => forLoopN n (i + 1) f s1) := rfl
    have e2 : forLoopN (n + 1) i g s =
        (match g i s with
          | .error e => .error e
          | .ok s1 => forLoopN n (i + 1) g s1) := rfl
    rw [e1, e2, hfg i s (le_refl _) (by push_cast; omega)]
    generalize g i s = res
    cases res with
    | error e => rfl
    | ok s1 =>
      exact ih (i + 1) s1 (fun k t hk1 hk2 => hfg k t (by omega) (by push_cast; omega))

/-- Two bodies that agree on the range of a loop give the same loop. -/
theorem forLoop_congr {σ : Type} (f g : Int → σ → Except Err σ) (lo hi : Int) (s : σ)
    (hfg : ∀ k t, lo ≤ k → k < hi → f k t = g k t) :
    forLoop lo hi f s = forLoop lo hi g s :=
  forLoopN_congr f g (hi - lo).toNat lo s (fun k t hk1 hk2 => hfg k t hk1 (by omega))

theorem writesInFrame_of (step : Paletted → Except Err Paletted)
    (hstep : ∀ (r : Rectangle) (img : Paletted), LaidOut r img →
      ∃ img1, step img = .ok img1 ∧ LaidOut r img1 ∧
        ∀ u v, ¬ InFrame u v → img1.ColorIndexAt u v = img.ColorIndexAt u v) :
    WritesInFrame step := by
  intro r img hw
  obtain ⟨img1, h1, hw1, hp⟩ := hstep r img hw
  exact ⟨img1, h1, hw1, fun u v huv => hp u v (fun hin => huv ((inFrame_iff u v).mp hin))⟩

theorem drawMove_writesInFrame (m : move) : WritesInFrame (fun img => drawMove img m) := by
  apply writesInFrame_of
  intro r img hw
  exact raster_loop_confined
    (fun i j img =>
      if dist i j m.cx m.cy ≤ stoneDiameter / 2 then
        img.SetColorIndex i j (if m.white then white else black)
      else .ok img)
    0 side 0 side side_nonneg side_nonneg
    (fun i j => dist i j m.cx m.cy ≤ stoneDiameter / 2)
    (fun i _ => i) (fun _ j => j) (fun _ _ => if m.white then white else black)
    r
    (fun i j q _ _ _ _ _ => rfl)
    (fun i j i1 j1 _ _ _ _ _ _ _ _ hx hy => ⟨hx, hy⟩)
    (fun i j hi0 hi1 hj0 hj1 => ⟨hi0, hi1, hj0, hj1⟩)
    img hw

theorem fillBackground_writesInFrame : WritesInFrame fillBackground := by
  apply writesInFrame_of
  intro r img hw
  exact raster_loop_confined
    (fun i j img => img.SetColorIndex i j background)
    0 side 0 side side_nonneg side_nonneg
    (fun _ _ => True) (fun i _ => i) (fun _ j => j) (fun _ _ => background)
    r
    (fun i j q _ _ _ _ _ => by simp)
    (fun i j i1 j1 _ _ _ _ _ _ _ _ hx hy => ⟨hx, hy⟩)
    (fun i j hi0 hi1 hj0 hj1 => ⟨hi0, hi1, hj0, hj1⟩)
    img hw

theorem verticalLines_writesInFrame : WritesInFrame verticalLines := by
  apply writesInFrame_of
  intro r img hw
  have hrun : verticalLines img = forLoop 0 19 (fun i img =>
      forLoop 20 742 (fun j img => img.SetColorIndex (i * 40 + 20) j 1) img) img := rfl
  rw [hrun]
  exact raster_loop_confined
    (fun i j img => img.SetColorIndex (i * 40 + 20) j 1)
    0 19 20 742 (by decide) (by decide)
    (fun _ _ => True) (fun i _ => i * 40 + 20) (fun _ j => j) (fun _ _ => 1)
    r
    (fun i j q _ _ _ _ _ => by simp)
    (fun i j i1 j1 _ _ _ _ _ _ _ _ hx hy => ⟨by dsimp only at hx; omega, hy⟩)
    (fun i j hi0 hi1 hj0 hj1 => (inFrame_iff _ _).mpr (by dsimp only; omega))
    img hw

theorem horizontalLines_writesInFrame : WritesInFrame horizontalLines := by
  apply writesInFrame_of
  intro r img hw
  have hrun : horizontalLines img = forLoop 0 19 (fun i img =>
      forLoop 20 742 (fun j img => img.SetColorIndex j (i * 40 + 20) 1) img) img := rfl
  rw [hrun]
  exact raster_loop_confined
    (fun i j img => img.SetColorIndex j (i * 40 + 20) 1)
    0 19 20 742 (by decide) (by decide)
    (fun _ _ => True) (fun _ j => j) (fun i _ => i * 40 + 20) (fun _ _ => 1)
    r
    (fun i j q _ _ _ _ _ => by simp)
    (fun i j i1 j1 _ _ _ _ _ _ _ _ hx hy => ⟨by dsimp only at hy; omega, hx⟩)
    (fun i j hi0 hi1 hj0 hj1 => (inFrame_iff _ _).mpr (by dsimp only; omega))
    img hw

theorem drawBoard_writesInFrame : WritesInFrame drawBoard := by
  intro r img hw
  obtain ⟨b1, h1, hw1, hp1⟩ := fillBackground_writesInFrame r img hw
  obtain ⟨b2, h2, hw2, hp2⟩ := verticalLines_writesInFrame r b1 hw1
  obtain ⟨b3, h3, hw3, hp3⟩ := horizontalLines_writesInFrame r b2 hw2
  refine ⟨b3, by simp [drawBoard, h1, h2, h3], hw3, ?_⟩
  intro u v huv
  rw [hp3 u v huv, hp2 u v huv, hp1 u v huv]

theorem copyFrame_writesInFrame (h : Heap) (o : Ptr)
    (hread : ∀ i j, InFrame i j → ∃ c, h.ColorIndexAt o i j = .ok c) :
    WritesInFrame (copyFrame h o) := by
  apply writesInFrame_of
  intro r img hw
  exact raster_loop_confined
    (fun i j img =>
      match h.ColorIndexAt o i j with
      | .error e => .error e
      | .ok c => img.SetColorIndex i j c)
    0 side 0 side side_nonneg side_nonneg
    (fun _ _ => True) (fun i _ => i) (fun _ j => j)
    (fun i j =>
      match h.ColorIndexAt o i j with
      | .error _ => 0
      | .ok c => c)
    r
    (fun i j q hi0 hi1 hj0 hj1 _ => by
      obtain ⟨c, hc⟩ := hread i j ⟨hi0, hi1, hj0, hj1⟩
      simp [hc])
    (fun i j i1 j1 _ _ _ _ _ _ _ _ hx hy => ⟨hx, hy⟩)
    (fun i j hi0 hi1 hj0 hj1 => ⟨hi0, hi1, hj0, hj1⟩)
    img hw

/-- The copy reads the previous frame only at positions of the frame: two
previous frames that read alike there give the same copy. -/
theorem copyFrame_readsInFrame (h1 h2 : Heap) (o1 o2 : Ptr) (img : Paletted)
    (hsame : ∀ i j : Int, 0 ≤ i ∧ i < 762 ∧ 0 ≤ j ∧ j < 762 →
      h1.ColorIndexAt o1 i j = h2.ColorIndexAt o2 i j) :
    copyFrame h1 o1 img = copyFrame h2 o2 img := by
  unfold copyFrame
  apply forLoop_congr
  intro i t hi0 hi1
  apply forLoop_congr
  intro j t1 hj0 hj1
  rw [hsame i j ((inFrame_iff i j).mp ⟨hi0, hi1, hj0, hj1⟩)]

theorem newFrame_bind (r : Except Err Paletted) (m : move) (h : Heap) :
    (match r with
      | .error e => .error e
      | .ok img =>
        match drawMove img m with
        | .error e => .error e
        | .ok img1 => .ok (h.length, h ++ [img1])) =
      r.bind (fun img => (drawMove img m).bind (fun img1 => .ok (h.length, h ++ [img1]))) := by
  cases r with
  | error e => rfl
  | ok img =>
    show (match drawMove img m with
      | .error e => .error e
      | .ok img1 => .ok (h.length, h ++ [img1])) =
        (drawMove img m).bind (fun img1 => .ok (h.length, h ++ [img1]))
    generalize drawMove img m = res1
    cases res1 with
    | error e => rfl
    | ok img1 => rfl

/-- The steps of `newFrame`: the image it holds before the stone is drawn,
then the stone drawn on it, and the image enters the heap. -/
theorem newFrame_steps (m : move) (old : Option Ptr) (h : Heap) :
    newFrame m old h =
      (frameBeforeMove old h).bind
        (fun img => (drawMove img m).bind (fun img1 => .ok (h.length, h ++ [img1]))) := by
  unfold newFrame
  generalize frameBeforeMove old h = r
  exact newFrame_bind r m h

/-- The image `newFrame` holds before the stone is drawn: the empty board
drawn on a fresh image, or the previous frame copied to a fresh image. -/
theorem frameBeforeMove_steps (h : Heap) :
    frameBeforeMove none h = drawBoard (NewPaletted (Rect 0 0 side side) palette) ∧
      ∀ o, frameBeforeMove (some o) h =
        copyFrame h o (NewPaletted (Rect 0 0 side side) palette) :=
  ⟨rfl, fun _ => rfl⟩

/-- The empty board holds Background at the pixel (141, 141). -/
theorem emptyBoard_at_141 (b : Paletted) (hb : emptyBoard = .ok b) :
    IsFrame b ∧ b.ColorIndexAt 141 141 = .ok 0 := by
  obtain ⟨b1, hb1, hF, hpix⟩ := drawBoard_spec _ isFrame_new
  have hbb : b1 = b := by
    have e : emptyBoard = drawBoard (NewPaletted (Rect 0 0 side side) palette) := rfl
    rw [e, hb1] at hb
    exact Except.ok.inj hb
  subst hbb
  refine ⟨hF, ?_⟩
  rw [hpix 141 141 (by decide), if_neg (by decide)]
  rfl

set_option maxRecDepth 4000 in
/-- Drawn on any frame, the move in column `3 + 2^61`, row 3, whose centre
`drawMove` computes as (140, 140), leaves Black at the pixel (141, 141). -/
theorem wrappingMove_paints (f : Paletted) (hf : IsFrame f) :
    ∃ f1, drawMove f wrappingMove = .ok f1 ∧ IsFrame f1 ∧
      f1.ColorIndexAt 141 141 = .ok 1 := by
  obtain ⟨f1, h1, hF1, hdraw⟩ := drawMove_ok f wrappingMove hf
  refine ⟨f1, h1, hF1, ?_⟩
  rw [(hdraw 141 141 (by decide)).1 (by decide)]
  rfl

/-- The pixel (141, 141) is far from the centre `(20 + 40 x, 20 + 40 y)` of
the move in column `3 + 2^61`, row 3. -/
theorem wrappingMove_far :
    ¬ truncDist 141 141 (20 + 40 * wrappingMove.x) (20 + 40 * wrappingMove.y) ≤ 20 := by
  rw [truncDist_le_iff]
  decide

/-- Counterexample to C7: in the run on the white move (15, 15) followed by
the black move in column `3 + 2^61`, row 3, the pixel (141, 141) lies outside
the disc of move 1 (its truncated distance to the centre
`(20 + 40 x, 20 + 40 y)` is more than 20), yet frame 1 holds Black there and
frame 0 holds Background. -/
theorem newFrame_changes_outside_disc :
    ∃ (ptrs : List Ptr) (h1 : Heap) (p0 p1 : Ptr) (prev cur : Paletted),
      movesToFrames [{ white := true, x := 15, y := 15 }, wrappingMove] [] = .ok (ptrs, h1) ∧
      ptrs[0]? = some p0 ∧ ptrs[1]? = some p1 ∧
      h1[p0]? = some prev ∧ h1[p1]? = some cur ∧
      ¬ truncDist 141 141 (20 + 40 * wrappingMove.x) (20 + 40 * wrappingMove.y) ≤ 20 ∧
      prev.ColorIndexAt 141 141 = .ok 0 ∧ cur.ColorIndexAt 141 141 = .ok 1 ∧
      cur.ColorIndexAt 141 141 ≠ prev.ColorIndexAt 141 141 := by
  obtain ⟨ptrs, _, h1, _, p0, p1, prev, cur, mN, b, hrun, hmN, hp0, hp1, _, _, _, _, _, _,
    hprev, hcur, hb, hFb, hdprev, hFprev, hstep⟩ :=
    movesToFrames_step [{ white := true, x := 15, y := 15 }, wrappingMove] [] 1
      (by decide) (by decide)
  have hm : mN = wrappingMove := (Option.some.inj hmN).symm
  subst hm
  -- frame 0: the stone (15, 15) on the empty board
  obtain ⟨g, hg, _, hpix⟩ := drawMove_spec b { white := true, x := 15, y := 15 } hFb
    (by decide)
  have hgp : g = prev := by
    have e : List.take 1 [({ white := true, x := 15, y := 15 } : move), wrappingMove] =
        [{ white := true, x := 15, y := 15 }] := rfl
    rw [e, drawMoves_cons_ok _ [] b g hg] at hdprev
    exact Except.ok.inj hdprev
  subst hgp
  have hprev0 : g.ColorIndexAt 141 141 = .ok 0 := by
    rw [(hpix 141 141 (by decide)).2 (by
      unfold InDisc
      rw [truncDist_le_iff]
      decide)]
    exact (emptyBoard_at_141 b hb).2
  -- frame 1: the wrapping move on frame 0
  obtain ⟨f, hf, _, hf1⟩ := wrappingMove_paints g hFprev
  have hfc : f = cur := by
    rw [hstep] at hf
    exact (Except.ok.inj hf).symm
  subst hfc
  refine ⟨ptrs, h1, p0, p1, g, f, hrun, hp0, hp1, hprev, hcur, wrappingMove_far, hprev0,
    hf1, ?_⟩
  rw [hprev0, hf1]
  intro he
  exact absurd (Except.ok.inj he) (by decide)

set_option maxRecDepth 4000 in
/-- Counterexample to C18: the column `3 + 2^61` is at least 20 and fits a
64-bit `int`, yet `40 * x` wraps around to 120, the centre is (140, 140), and
drawing the move on the empty board turns the pixel (141, 141) from Background
to Black. -/
theorem drawMove_far_move_paints :
    20 ≤ wrappingMove.x ∧ wrappingMove.x < 2 ^ 63 ∧
      wrappingMove.cx = 140 ∧ wrappingMove.cy = 140 ∧
      ∃ b f, emptyBoard = .ok b ∧ drawMove b wrappingMove = .ok f ∧
        b.ColorIndexAt 141 141 = .ok 0 ∧ f.ColorIndexAt 141 141 = .ok 1 ∧ f ≠ b := by
  refine ⟨by decide, by decide, by decide, by decide, ?_⟩
  obtain ⟨b, hb, hF, hpix⟩ := drawBoard_spec _ isFrame_new
  obtain ⟨f, hf, _, hdraw⟩ := drawMove_ok b wrappingMove hF
  have hin : InFrame 141 141 := by decide
  have hb1 : b.ColorIndexAt 141 141 = .ok 0 := by
    rw [hpix 141 141 hin, if_neg (by decide)]
    rfl
  have hf1 : f.ColorIndexAt 141 141 = .ok 1 := by
    rw [(hdraw 141 141 hin).1 (by decide)]
    rfl
  refine ⟨b, f, hb, hf, hb1, hf1, ?_⟩
  intro he
  rw [he, hb1] at hf1
  exact absurd (Except.ok.inj hf1) (by decide)

/-- C18 (amended): for every move and every previous frame of side 762 or
none, `newFrame` and `drawMove` run to the end without a fault and give a frame
of side 762.  `newFrame` runs `drawBoard` or `copyFrame` on a fresh image, then
`drawMove`; each of the three writes only at positions `(i, j)` with
`0 ≤ i, j < 762` (run on an image of any rectangle it leaves every other pixel
as it was, and no write falls outside the buffer), and `copyFrame` reads the
previous frame only at such positions (two previous frames that read alike
there give the same copy).  For every move, `drawMove` returns the frame it
received exactly when every pixel that passes its test already holds the colour
index of the move.  For a move for which no `int` operation of `drawMove` and
`dist` overflows, with `x ≥ 20` or `y ≥ 20`, `drawMove` changes no pixel: the
frame it returns is the frame it received. -/
theorem newFrame_in_bounds (m : move) (old : Option Ptr) (h : Heap)
    (hold : ∀ o, old = some o → ∃ f, h[o]? = some f ∧ IsFrame f) :
    (∃ f, newFrame m old h = .ok (h.length, h ++ [f]) ∧ IsFrame f) ∧
      (∀ f : Paletted, IsFrame f → ∃ f1, drawMove f m = .ok f1 ∧ IsFrame f1) ∧
      newFrame m old h =
        (frameBeforeMove old h).bind
          (fun img => (drawMove img m).bind (fun img1 => .ok (h.length, h ++ [img1]))) ∧
      frameBeforeMove none h = drawBoard (NewPaletted (Rect 0 0 side side) palette) ∧
      (∀ o, frameBeforeMove (some o) h =
        copyFrame h o (NewPaletted (Rect 0 0 side side) palette)) ∧
      WritesInFrame drawBoard ∧
      (∀ o, old = some o → WritesInFrame (copyFrame h o)) ∧
      WritesInFrame (fun img => drawMove img m) ∧
      (∀ (h1 h2 : Heap) (o1 o2 : Ptr) (img : Paletted),
        (∀ i j : Int, 0 ≤ i ∧ i < 762 ∧ 0 ≤ j ∧ j < 762 →
          h1.ColorIndexAt o1 i j = h2.ColorIndexAt o2 i j) →
        copyFrame h1 o1 img = copyFrame h2 o2 img) ∧
      (∀ f : Paletted, IsFrame f →
        (drawMove f m = .ok f ↔
          ∀ i j, 0 ≤ i ∧ i < 762 ∧ 0 ≤ j ∧ j < 762 →
            dist i j (move.cx m) (move.cy m) ≤ stoneDiameter / 2 →
            f.ColorIndexAt i j = .ok (if move.white m then 2 else 1))) ∧
      (move.NoOverflow m → 20 ≤ move.x m ∨ 20 ≤ move.y m →
        ∀ f : Paletted, IsFrame f → drawMove f m = .ok f) := by
  refine ⟨?_, ?_, newFrame_steps m old h, (frameBeforeMove_steps h).1,
    (frameBeforeMove_steps h).2, drawBoard_writesInFrame, ?_, drawMove_writesInFrame m,
    copyFrame_readsInFrame, fun f hf => drawMove_unchanged_iff f m hf, ?_⟩
  · have hstart : ∃ start, frameBeforeMove old h = .ok start ∧ IsFrame start := by
      cases old with
      | none =>
        obtain ⟨b, hb, _, hF⟩ := frameBeforeMove_none h
        exact ⟨b, hb, hF⟩
      | some o =>
        obtain ⟨f, hf, hF⟩ := hold o rfl
        exact ⟨f, frameBeforeMove_some h o f hf hF, hF⟩
    obtain ⟨start, hs, hF⟩ := hstart
    obtain ⟨f, _, hFf, hnew⟩ := newFrame_spec m old h start hs hF
    exact ⟨f, hnew, hFf⟩
  · intro f hf
    obtain ⟨f1, h1, hF1, _⟩ := drawMove_ok f m hf
    exact ⟨f1, h1, hF1⟩
  · intro o ho
    obtain ⟨f, hf, hF⟩ := hold o ho
    apply copyFrame_writesInFrame
    intro i j hij
    refine ⟨f.Pix.getD (j * 762 + i).toNat 0, ?_⟩
    simp only [Heap.ColorIndexAt, hf]
    exact colorIndexAt_frame f hF i j hij
  · intro hm hfar f hf
    exact drawMove_outside f m hf hm hfar

/-- Witness of C18 (amended): the move (1000, 3), a move without overflow
whose `x` is at least 20, after a frame held in the heap. -/
theorem newFrame_in_bounds_witness :
    (∃ f, newFrame ({ white := true, x := 1000, y := 3 } : move) (some 0) [NewPaletted (Rect 0 0 side side) palette] = .ok ([NewPaletted (Rect 0 0 side side) palette].length, [NewPaletted (Rect 0 0 side side) palette] ++ [f]) ∧ IsFrame f) ∧
      (∀ f : Paletted, IsFrame f → ∃ f1, drawMove f ({ white := true, x := 1000, y := 3 } : move) = .ok f1 ∧ IsFrame f1) ∧
      newFrame ({ white := true, x := 1000, y := 3 } : move) (some 0) [NewPaletted (Rect 0 0 side side) palette] =
        (frameBeforeMove (some 0) [NewPaletted (Rect 0 0 side side) palette]).bind
          (fun img => (drawMove img ({ white := true, x := 1000, y := 3 } : move)).bind (fun img1 => .ok ([NewPaletted (Rect 0 0 side side) palette].length, [NewPaletted (Rect 0 0 side side) palette] ++ [img1]))) ∧
      frameBeforeMove none [NewPaletted (Rect 0 0 side side) palette] = drawBoard (NewPaletted (Rect 0 0 side side) palette) ∧
      (∀ o, frameBeforeMove (some o) [NewPaletted (Rect 0 0 side side) palette] =
        copyFrame [NewPaletted (Rect 0 0 side side) palette] o (NewPaletted (Rect 0 0 side side) palette)) ∧
      WritesInFrame drawBoard ∧
      (∀ o, (some 0) = some o → WritesInFrame (copyFrame [NewPaletted (Rect 0 0 side side) palette] o)) ∧
      WritesInFrame (fun img => drawMove img ({ white := true, x := 1000, y := 3 } : move)) ∧
      (∀ (h1 h2 : Heap) (o1 o2 : Ptr) (img : Paletted),
        (∀ i j : Int, 0 ≤ i ∧ i < 762 ∧ 0 ≤ j ∧ j < 762 →
          h1.ColorIndexAt o1 i j = h2.ColorIndexAt o2 i j) →
        copyFrame h1 o1 img = copyFrame h2 o2 img) ∧
      (∀ f : Paletted, IsFrame f →
        (drawMove f ({ white := true, x := 1000, y := 3 } : move) = .ok f ↔
          ∀ i j, 0 ≤ i ∧ i < 762 ∧ 0 ≤ j ∧ j < 762 →
            dist i j (move.cx ({ white := true, x := 1000, y := 3 } : move)) (move.cy ({ white := true, x := 1000, y := 3 } : move)) ≤ stoneDiameter / 2 →
            f.ColorIndexAt i j = .ok (if move.white ({ white := true, x := 1000, y := 3 } : move) then 2 else 1))) ∧
      (∀ f : Paletted, IsFrame f → drawMove f ({ white := true, x := 1000, y := 3 } : move) = .ok f) := by
  obtain ⟨a1, a2, a3, a4, a5, a6, a7, a8, a9, a10, a11⟩ :=
    newFrame_in_bounds { white := true, x := 1000, y := 3 } (some 0)
      [NewPaletted (Rect 0 0 side side) palette]
      (fun o ho => ⟨NewPaletted (Rect 0 0 side side) palette,
        by rw [← Option.some.inj ho]; rfl, isFrame_new⟩)
  exact ⟨a1, a2, a3, a4, a5, a6, a7, a8, a9, a10, a11 (by decide) (Or.inl (by decide))⟩

end Sgf2Gif
